import Mathlib

/-!
# Verification of the retail-procurement backend's business logic

This file gives a shallow embedding, in Lean 4, of the business logic of the
retail-procurement backend (Django models `retail_procurement/models.py`,
views `retail_procurement/views.py`, background tasks
`retail_procurement/tasks.py`), and proves or refutes the specified
properties of basket confirmation, basket mutation, order totals, supplier
notification grouping, and the supplier price-list import.

Modelling conventions:
* Database tables are lists of records; primary keys are `Nat`; decimal
  prices (`DecimalField`) are exact rationals `ℚ`.
* Django's `QuerySet.filter(...)`/`first()`/`get()` become `List.filter` /
  `List.find?`.  `get_or_create` / `update_or_create` find the first match
  and otherwise append a fresh record using the store's autoincrement
  counter.  (Django's `get` raises `MultipleObjectsReturned` when several
  rows match; under primary-key integrity and the uniqueness invariants the
  importer maintains, at most one row matches, and first-match is exact.)
* `transaction.atomic()` rolls back only when an exception escapes the
  block; a `return` from inside the block exits normally and therefore
  commits.  The embedding mirrors this: failure paths that `return` a
  response keep whatever writes were already made inside the block, while
  paths that raise (`get_object_or_404` inside `atomic`) discard them.
-/

namespace Retail

/-- `ProductInfo` restricted to the columns the order flow reads:
primary key, owning shop and stored stock quantity
(`models.py`, class `ProductInfo`). -/
structure Listing where
  id : Nat
  shop : Nat
  quantity : Nat
  deriving DecidableEq, Repr

/-- `Order` restricted to the columns the basket/order flow reads:
primary key, owning user, status string, nullable delivery contact
(`models.py`, class `Order`). -/
structure OrderR where
  id : Nat
  user : Nat
  status : String
  contact : Option Nat
  deriving DecidableEq, Repr

/-- `OrderItem`: order line with listing reference, quantity and snapshot
price (`models.py`, class `OrderItem`). -/
structure OItem where
  order : Nat
  productInfo : Nat
  quantity : Nat
  price : ℚ
  deriving DecidableEq, Repr

/-- `Contact` restricted to the columns `confirm` reads: primary key and
owning user (`models.py`, class `Contact`). -/
structure ContactR where
  id : Nat
  user : Nat
  deriving DecidableEq, Repr

/-- The slice of the database state the basket/order endpoints touch. -/
structure OrderStore where
  listings : List Listing
  orders : List OrderR
  nextOrderId : Nat
  items : List OItem
  contacts : List ContactR
  deriving DecidableEq, Repr

/-- Stored stock quantity of the listing with primary key `pid`
(`item.product_info.quantity`); `0` when absent, which cannot happen under
foreign-key integrity. -/
def qtyAt (ls : List Listing) (pid : Nat) : Nat :=
  ((ls.find? (fun l => l.id == pid)).map Listing.quantity).getD 0

/-- `item.product_info.quantity -= n; item.product_info.save()`:
write back the decremented quantity of listing `pid`. -/
def decListing (ls : List Listing) (pid n : Nat) : List Listing :=
  ls.map (fun l => if l.id == pid then { l with quantity := l.quantity - n } else l)

/-- The order lines of order `orderId` (`basket.order_items.all()`),
in table order. -/
def itemsOf (st : OrderStore) (orderId : Nat) : List OItem :=
  st.items.filter (fun it => it.order == orderId)

/-- `OrderItem.total_price`: line quantity times snapshot price
(`models.py` lines 260-265; the `None` guard there is dead for saved rows,
both columns being non-nullable). -/
def OItem.total_price (it : OItem) : ℚ :=
  (it.quantity : ℚ) * it.price

/-- `Order.total_sum`: `sum(item.quantity * item.price for item in
self.order_items.all())` (`models.py` lines 234-237). -/
def total_sum (st : OrderStore) (orderId : Nat) : ℚ :=
  ((itemsOf st orderId).map (fun it => (it.quantity : ℚ) * it.price)).sum

/-- The per-line loop of `OrderViewSet.confirm` (`views.py` lines 325-333):
check each line's stock, and on success immediately decrement and save.
Returns `(some failingListingId, listings)` when a line finds insufficient
stock — the listings returned then include the decrements already performed
for earlier lines, because the `return Response(...)` exits
`transaction.atomic()` normally and commits. -/
def confirmItems : List OItem → List Listing → Option Nat × List Listing
  | [], ls => (none, ls)
  | it :: rest, ls =>
    if qtyAt ls it.productInfo < it.quantity then
      (some it.productInfo, ls)
    else
      confirmItems rest (decListing ls it.productInfo it.quantity)

/-- Background jobs enqueued with `.delay(...)` by the confirm flow
(`views.py` lines 340 and 343). -/
inductive Dispatched where
  | orderEmailToBuyer (orderId : Nat)
  | orderEmailToSuppliers (orderId : Nat)
  deriving DecidableEq, Repr

/-- Outcome of `OrderViewSet.confirm`. -/
inductive ConfirmRes where
  | basketNotFound
  | contactIdMissing
  | contactNotFound
  | emptyBasket
  | insufficientStock (listingId : Nat)
  | confirmed
  deriving DecidableEq, Repr

/-- `OrderViewSet.confirm` (`views.py` lines 304-346): look up the caller's
basket by pk, require a `contact_id` naming a contact owned by the caller,
require a nonempty basket, then run the check-and-decrement loop; on
success set the order's contact, set its status to `"new"` and enqueue the
buyer and supplier notifications. -/
def confirm (st : OrderStore) (pk userId : Nat) (contactId : Option Nat) :
    ConfirmRes × OrderStore × List Dispatched :=
  match st.orders.find? (fun o => o.id == pk && o.user == userId && o.status == "basket") with
  | none => (.basketNotFound, st, [])
  | some _ =>
    match contactId with
    | none => (.contactIdMissing, st, [])
    | some cid =>
      if st.contacts.any (fun c => c.id == cid && c.user == userId) then
        let items := itemsOf st pk
        if items.isEmpty then (.emptyBasket, st, [])
        else
          match confirmItems items st.listings with
          | (some lid, ls) => (.insufficientStock lid, { st with listings := ls }, [])
          | (none, ls) =>
            (.confirmed,
             { st with
                listings := ls,
                orders := st.orders.map (fun o =>
                  if o.id == pk then { o with status := "new", contact := some cid } else o) },
             [.orderEmailToBuyer pk, .orderEmailToSuppliers pk])
      else (.contactNotFound, st, [])

/-- The caller's live basket: first order of the user with status
`"basket"` (`BasketViewSet.get_basket_queryset().first()`). -/
def basketOf (st : OrderStore) (userId : Nat) : Option OrderR :=
  st.orders.find? (fun o => o.user == userId && o.status == "basket")

/-- `Order.objects.create(user=..., status='basket')`. -/
def createBasket (st : OrderStore) (userId : Nat) : OrderStore :=
  { st with
      orders := st.orders ++ [⟨st.nextOrderId, userId, "basket", none⟩],
      nextOrderId := st.nextOrderId + 1 }

/-- `BasketViewSet.list` (`views.py` lines 160-173), state effect: create a
basket when the user has none. -/
def basketList (st : OrderStore) (userId : Nat) : OrderStore :=
  match basketOf st userId with
  | some _ => st
  | none => createBasket st userId

/-- The `OrderItem.objects.get_or_create(... defaults ...)` plus
quantity-increment branch of `BasketViewSet.create` (`views.py`
lines 203-214) for one request entry `(productInfoId, quantity, price)`. -/
def upsertBasketItem (st : OrderStore) (orderId pid q : Nat) (p : ℚ) : OrderStore :=
  if st.items.any (fun it => it.order == orderId && it.productInfo == pid) then
    { st with items := st.items.map (fun it =>
        if it.order == orderId && it.productInfo == pid then
          { it with quantity := it.quantity + q, price := p } else it) }
  else
    { st with items := st.items ++ [⟨orderId, pid, q, p⟩] }

/-- `BasketViewSet.create` (`views.py` lines 175-217): get-or-create the
user's basket, then upsert each request entry inside `transaction.atomic()`.
A `get_object_or_404(ProductInfo, ...)` failure raises out of the atomic
block, rolling the item writes back — but the basket created by
`get_or_create` before the block persists. -/
def basketAddItems (st : OrderStore) (userId : Nat) (reqs : List (Nat × Nat × ℚ)) :
    OrderStore :=
  let st1 := match basketOf st userId with
             | some _ => st
             | none => createBasket st userId
  let bid := match basketOf st userId with
             | some b => b.id
             | none => st.nextOrderId
  if reqs.all (fun r => st1.listings.any (fun l => l.id == r.1)) then
    reqs.foldl (fun acc r => upsertBasketItem acc bid r.1 r.2.1 r.2.2) st1
  else st1

/-- `BasketViewSet.update_items` (`views.py` lines 219-253): look up the
basket (404 when absent, no change), then set each referenced line's
quantity and price inside `transaction.atomic()`; a missing line raises
404 out of the block, rolling every write of the request back. -/
def basketUpdateItems (st : OrderStore) (userId : Nat) (reqs : List (Nat × Nat × ℚ)) :
    OrderStore :=
  match basketOf st userId with
  | none => st
  | some b =>
    if reqs.all (fun r => st.items.any (fun it => it.order == b.id && it.productInfo == r.1)) then
      reqs.foldl (fun acc r =>
        { acc with items := acc.items.map (fun it =>
            if it.order == b.id && it.productInfo == r.1 then
              { it with quantity := r.2.1, price := r.2.2 } else it) }) st
    else st

/-- Outcome of `BasketViewSet.delete_items`. -/
inductive DeleteRes where
  | basketMissing
  | emptyRequest
  | itemsMissing
  | ok
  deriving DecidableEq, Repr

/-- `BasketViewSet.delete_items` (`views.py` lines 255-280): 400 when the
request lists no ids; count the basket lines whose listing id is in the
request and 400 (without deleting) when that count differs from the length
of the request list; otherwise delete exactly those lines. -/
def basketDeleteItems (st : OrderStore) (userId : Nat) (ids : List Nat) :
    DeleteRes × OrderStore :=
  match basketOf st userId with
  | none => (.basketMissing, st)
  | some b =>
    if ids.isEmpty then (.emptyRequest, st)
    else
      let existingCount :=
        (st.items.filter (fun it => it.order == b.id && ids.contains it.productInfo)).length
      if existingCount ≠ ids.length then (.itemsMissing, st)
      else
        (.ok,
         { st with items :=
            st.items.filter (fun it => !(it.order == b.id && ids.contains it.productInfo)) })

/-- Shop owning the listing of an order line (`item.product_info.shop`);
`0` when the listing is absent, which cannot happen under foreign-key
integrity. -/
def itemShop (st : OrderStore) (it : OItem) : Nat :=
  ((st.listings.find? (fun l => l.id == it.productInfo)).map Listing.shop).getD 0

/-- `send_order_notification_to_suppliers` (`tasks.py` lines 84-121):
collect the set of shops of the order's lines and send one email per shop,
listing that shop's lines.  Python iterates a `set` in unspecified order;
the embedding fixes first-occurrence order, which no stated property
depends on. -/
def supplierEmails (st : OrderStore) (orderId : Nat) : List (Nat × List OItem) :=
  let items := itemsOf st orderId
  let shops := (items.map (itemShop st)).dedup
  shops.map (fun s => (s, items.filter (fun it => itemShop st it == s)))

/-! ## Lemmas about the confirm loop -/

theorem qtyAt_decListing_self (ls : List Listing) (pid n : Nat) :
    qtyAt (decListing ls pid n) pid = qtyAt ls pid - n := by
  induction ls with
  | nil => simp [qtyAt, decListing]
  | cons l rest ih =>
    by_cases h : l.id = pid
    · simp [qtyAt, decListing, List.find?, h]
    · have hb : (l.id == pid) = false := by simp [h]
      simpa [qtyAt, decListing, List.find?, hb] using ih

theorem qtyAt_decListing_ne (ls : List Listing) (pid n q : Nat) (h : q ≠ pid) :
    qtyAt (decListing ls pid n) q = qtyAt ls q := by
  induction ls with
  | nil => rfl
  | cons l rest ih =>
    by_cases hlq : l.id = q
    · have hlp : (l.id == pid) = false := by
        rw [beq_eq_false_iff_ne, hlq]
        exact h
      unfold decListing qtyAt
      rw [List.map_cons, hlp]
      simp only [Bool.false_eq_true, if_false]
      rw [List.find?_cons_of_pos _ (by simp [hlq]), List.find?_cons_of_pos _ (by simp [hlq])]
    · by_cases hlp : l.id = pid
      · unfold decListing qtyAt
        rw [List.map_cons, hlp]
        simp only [beq_self_eq_true, if_true]
        rw [List.find?_cons_of_neg _ (by simp; exact fun e => hlq (hlp.symm ▸ e.symm ▸ rfl)),
            List.find?_cons_of_neg _ (by simp [hlq])]
        exact ih
      · unfold decListing qtyAt
        rw [List.map_cons]
        have hlp' : (l.id == pid) = false := by rw [beq_eq_false_iff_ne]; exact hlp
        rw [hlp']
        simp only [Bool.false_eq_true, if_false]
        rw [List.find?_cons_of_neg _ (by simp [hlq]), List.find?_cons_of_neg _ (by simp [hlq])]
        exact ih

/-- Quantity the order's line list requests for listing `pid`: the single
matching line's quantity, `0` when the listing is not in the order. -/
def itemQty (items : List OItem) (pid : Nat) : Nat :=
  ((items.find? (fun it => it.productInfo == pid)).map OItem.quantity).getD 0

theorem itemQty_not_mem (items : List OItem) (pid : Nat)
    (h : pid ∉ items.map OItem.productInfo) : itemQty items pid = 0 := by
  have : items.find? (fun it => it.productInfo == pid) = none := by
    rw [List.find?_eq_none]
    intro it hit
    simp only [beq_iff_eq]
    intro he
    exact h (he ▸ List.mem_map_of_mem OItem.productInfo hit)
  simp [itemQty, this]

/-- When every line's quantity is covered by stock and the lines reference
pairwise-distinct listings, the confirm loop succeeds and decrements each
listing by exactly the quantity ordered for it. -/
theorem confirmItems_success (items : List OItem) (ls : List Listing)
    (hnd : (items.map OItem.productInfo).Nodup)
    (hstock : ∀ it ∈ items, it.quantity ≤ qtyAt ls it.productInfo) :
    (confirmItems items ls).1 = none ∧
      ∀ pid, qtyAt (confirmItems items ls).2 pid = qtyAt ls pid - itemQty items pid := by
  induction items generalizing ls with
  | nil => simp [confirmItems, itemQty]
  | cons it rest ih =>
    have hle : it.quantity ≤ qtyAt ls it.productInfo := hstock it (by simp)
    have hguard : ¬ qtyAt ls it.productInfo < it.quantity := not_lt.mpr hle
    have hnd' : (rest.map OItem.productInfo).Nodup := (List.nodup_cons.mp hnd).2
    have hni : it.productInfo ∉ rest.map OItem.productInfo := (List.nodup_cons.mp hnd).1
    have hstock' : ∀ it' ∈ rest,
        it'.quantity ≤ qtyAt (decListing ls it.productInfo it.quantity) it'.productInfo := by
      intro it' hit'
      have hne : it'.productInfo ≠ it.productInfo := by
        intro he
        exact hni (he ▸ List.mem_map_of_mem OItem.productInfo hit')
      rw [qtyAt_decListing_ne ls it.productInfo it.quantity it'.productInfo hne]
      exact hstock it' (by simp [hit'])
    obtain ⟨h1, h2⟩ := ih (decListing ls it.productInfo it.quantity) hnd' hstock'
    refine ⟨by simpa [confirmItems, hguard] using h1, ?_⟩
    intro pid
    rw [show confirmItems (it :: rest) ls
        = confirmItems rest (decListing ls it.productInfo it.quantity) by
      simp [confirmItems, hguard]]
    rw [h2 pid]
    by_cases hpid : pid = it.productInfo
    · subst hpid
      rw [qtyAt_decListing_self, itemQty_not_mem rest it.productInfo hni]
      simp [itemQty, List.find?]
    · rw [qtyAt_decListing_ne ls it.productInfo it.quantity pid hpid]
      have : (it.productInfo == pid) = false := by
        simp only [beq_eq_false_iff_ne, ne_eq]
        exact fun he => hpid he.symm
      simp [itemQty, List.find?, this]

/-- Shape of a successful `confirm`: status and contact written on the
order, the decremented listings committed, both notification jobs
enqueued. -/
theorem confirm_success_eq (st : OrderStore) (pk userId cid : Nat) (b : OrderR)
    (hb : st.orders.find? (fun o => o.id == pk && o.user == userId && o.status == "basket")
      = some b)
    (hc : st.contacts.any (fun c => c.id == cid && c.user == userId) = true)
    (hne : itemsOf st pk ≠ [])
    (hnd : ((itemsOf st pk).map OItem.productInfo).Nodup)
    (hstock : ∀ it ∈ itemsOf st pk, it.quantity ≤ qtyAt st.listings it.productInfo) :
    confirm st pk userId (some cid) =
      (.confirmed,
       { st with
          listings := (confirmItems (itemsOf st pk) st.listings).2,
          orders := st.orders.map (fun o =>
            if o.id == pk then { o with status := "new", contact := some cid } else o) },
       [.orderEmailToBuyer pk, .orderEmailToSuppliers pk]) := by
  obtain ⟨h1, _⟩ := confirmItems_success (itemsOf st pk) st.listings hnd hstock
  have hne' : (itemsOf st pk).isEmpty = false := by
    cases h : itemsOf st pk with
    | nil => exact absurd h hne
    | cons a l => simp [h]
  rw [confirm, hb]
  simp only [hc, if_true, hne', Bool.false_eq_true, if_false]
  cases hci : confirmItems (itemsOf st pk) st.listings with
  | mk fst snd =>
    cases fst with
    | none => simp [hci]
    | some lid => rw [hci] at h1; simp at h1

/-! ## C3: order total -/

/-- C3: for every order, the order's total sum equals the sum over all of
its order lines of that line's quantity multiplied by its snapshot price
(`Order.total_sum` versus `OrderItem.total_price`). -/
theorem total_sum_eq_sum_line_totals (st : OrderStore) (orderId : Nat) :
    total_sum st orderId = ((itemsOf st orderId).map OItem.total_price).sum := by
  rfl

/-! ## C1: confirm with an insufficient line commits earlier decrements -/

/-- Store with one basket (order 1 of user 1) holding two lines: 3 units of
listing 1 (5 in stock — sufficient) and 2 units of listing 2 (1 in stock —
insufficient). -/
def stockBugStore : OrderStore :=
  { listings := [⟨1, 1, 5⟩, ⟨2, 1, 1⟩],
    orders := [⟨1, 1, "basket", none⟩],
    nextOrderId := 2,
    items := [⟨1, 1, 3, 100⟩, ⟨1, 2, 2, 50⟩],
    contacts := [⟨1, 1⟩] }

/-- C1 (code bug): confirming `stockBugStore`'s basket fails on the second
line with 400 insufficient-stock, and the order keeps status `"basket"` —
but listing 1, processed first, is left decremented from 5 to 2: the
`return Response(...)` exits `transaction.atomic()` normally, committing
the partial decrement, contradicting the spec's all-or-nothing failure
semantics and the code's own check-before-confirm comment. -/
theorem confirm_partial_decrement_bug :
    (confirm stockBugStore 1 1 (some 1)).1 = ConfirmRes.insufficientStock 2 ∧
    (confirm stockBugStore 1 1 (some 1)).2.1.orders = stockBugStore.orders ∧
    qtyAt stockBugStore.listings 1 = 5 ∧
    qtyAt (confirm stockBugStore 1 1 (some 1)).2.1.listings 1 = 2 := by
  refine ⟨?_, ?_, ?_, ?_⟩ <;> rfl

/-! ## C2: confirming a valid basket -/

/-- C2: for a basket whose every line is covered by stock and a contact
owned by the same user, `confirm` succeeds, decrements each touched
listing's stored quantity by exactly that line's quantity (leaving
untouched listings unchanged, `itemQty` being `0` there), and writes
contact and status `"new"` on the order. -/
theorem confirm_valid_basket (st : OrderStore) (pk userId cid : Nat) (b : OrderR)
    (hb : st.orders.find? (fun o => o.id == pk && o.user == userId && o.status == "basket")
      = some b)
    (hc : st.contacts.any (fun c => c.id == cid && c.user == userId) = true)
    (hne : itemsOf st pk ≠ [])
    (hnd : ((itemsOf st pk).map OItem.productInfo).Nodup)
    (hstock : ∀ it ∈ itemsOf st pk, it.quantity ≤ qtyAt st.listings it.productInfo) :
    (confirm st pk userId (some cid)).1 = ConfirmRes.confirmed ∧
    (∀ pid, qtyAt (confirm st pk userId (some cid)).2.1.listings pid
        = qtyAt st.listings pid - itemQty (itemsOf st pk) pid) ∧
    (confirm st pk userId (some cid)).2.1.orders = st.orders.map (fun o =>
      if o.id == pk then { o with status := "new", contact := some cid } else o) := by
  obtain ⟨-, h2⟩ := confirmItems_success (itemsOf st pk) st.listings hnd hstock
  rw [confirm_success_eq st pk userId cid b hb hc hne hnd hstock]
  exact ⟨rfl, h2, rfl⟩

/-- Store with one basket (order 1 of user 1) holding one line covered by
stock, and a contact of the same user. -/
def okStore : OrderStore :=
  { listings := [⟨1, 1, 5⟩],
    orders := [⟨1, 1, "basket", none⟩],
    nextOrderId := 2,
    items := [⟨1, 1, 3, 10⟩],
    contacts := [⟨1, 1⟩] }

theorem confirm_valid_basket_witness :
    (confirm okStore 1 1 (some 1)).1 = ConfirmRes.confirmed ∧
    (∀ pid, qtyAt (confirm okStore 1 1 (some 1)).2.1.listings pid
        = qtyAt okStore.listings pid - itemQty (itemsOf okStore 1) pid) ∧
    (confirm okStore 1 1 (some 1)).2.1.orders = okStore.orders.map (fun o =>
      if o.id == 1 then { o with status := "new", contact := some 1 } else o) :=
  confirm_valid_basket okStore 1 1 1 ⟨1, 1, "basket", none⟩
    (by decide) (by decide) (by decide) (by decide) (by decide)

/-! ## C9: notification dispatch and per-shop grouping -/

theorem supplierEmails_keys (st : OrderStore) (oid : Nat) :
    (supplierEmails st oid).map Prod.fst = ((itemsOf st oid).map (itemShop st)).dedup := by
  unfold supplierEmails
  rw [List.map_map]
  have h : (Prod.fst ∘ fun s =>
      (s, List.filter (fun it => itemShop st it == s) (itemsOf st oid))) = id := rfl
  rw [h, List.map_id]

theorem supplierEmails_content (st : OrderStore) (oid : Nat) :
    ∀ e ∈ supplierEmails st oid,
      e.2 = (itemsOf st oid).filter (fun it => itemShop st it == e.1) := by
  intro e he
  simp only [supplierEmails, List.mem_map] at he
  obtain ⟨s, _, rfl⟩ := he
  rfl

theorem supplierEmails_keys_nodup (st : OrderStore) (oid : Nat) :
    ((supplierEmails st oid).map Prod.fst).Nodup := by
  rw [supplierEmails_keys]
  exact List.nodup_dedup _

theorem mem_supplierEmails_keys (st : OrderStore) (oid s : Nat) :
    s ∈ (supplierEmails st oid).map Prod.fst ↔
      ∃ it ∈ itemsOf st oid, itemShop st it = s := by
  rw [supplierEmails_keys, List.mem_dedup, List.mem_map]

/-- C9: a successful confirmation enqueues the buyer confirmation email and
the supplier notification job; the supplier job sends one email per
distinct shop among the order's lines, each listing exactly the lines
whose listing belongs to that shop. -/
theorem confirm_supplier_notifications (st : OrderStore) (pk userId cid : Nat) (b : OrderR)
    (hb : st.orders.find? (fun o => o.id == pk && o.user == userId && o.status == "basket")
      = some b)
    (hc : st.contacts.any (fun c => c.id == cid && c.user == userId) = true)
    (hne : itemsOf st pk ≠ [])
    (hnd : ((itemsOf st pk).map OItem.productInfo).Nodup)
    (hstock : ∀ it ∈ itemsOf st pk, it.quantity ≤ qtyAt st.listings it.productInfo) :
    (confirm st pk userId (some cid)).2.2 =
      [Dispatched.orderEmailToBuyer pk, Dispatched.orderEmailToSuppliers pk] ∧
    ((supplierEmails (confirm st pk userId (some cid)).2.1 pk).map Prod.fst).Nodup ∧
    (∀ s, s ∈ (supplierEmails (confirm st pk userId (some cid)).2.1 pk).map Prod.fst ↔
      ∃ it ∈ itemsOf (confirm st pk userId (some cid)).2.1 pk,
        itemShop (confirm st pk userId (some cid)).2.1 it = s) ∧
    (∀ e ∈ supplierEmails (confirm st pk userId (some cid)).2.1 pk,
      e.2 = (itemsOf (confirm st pk userId (some cid)).2.1 pk).filter
        (fun it => itemShop (confirm st pk userId (some cid)).2.1 it == e.1)) := by
  exact ⟨by rw [confirm_success_eq st pk userId cid b hb hc hne hnd hstock],
    supplierEmails_keys_nodup _ pk, fun s => mem_supplierEmails_keys _ pk s,
    supplierEmails_content _ pk⟩

theorem confirm_supplier_notifications_witness :
    (confirm okStore 1 1 (some 1)).2.2 =
      [Dispatched.orderEmailToBuyer 1, Dispatched.orderEmailToSuppliers 1] ∧
    ((supplierEmails (confirm okStore 1 1 (some 1)).2.1 1).map Prod.fst).Nodup ∧
    (∀ s, s ∈ (supplierEmails (confirm okStore 1 1 (some 1)).2.1 1).map Prod.fst ↔
      ∃ it ∈ itemsOf (confirm okStore 1 1 (some 1)).2.1 1,
        itemShop (confirm okStore 1 1 (some 1)).2.1 it = s) ∧
    (∀ e ∈ supplierEmails (confirm okStore 1 1 (some 1)).2.1 1,
      e.2 = (itemsOf (confirm okStore 1 1 (some 1)).2.1 1).filter
        (fun it => itemShop (confirm okStore 1 1 (some 1)).2.1 it == e.1)) :=
  confirm_supplier_notifications okStore 1 1 1 ⟨1, 1, "basket", none⟩
    (by decide) (by decide) (by decide) (by decide) (by decide)

/-! ## C7: a single live basket per user -/

/-- Number of orders of `userId` with status `"basket"`. -/
def basketCount (st : OrderStore) (userId : Nat) : Nat :=
  (st.orders.filter (fun o => o.user == userId && o.status == "basket")).length

theorem basketCount_eq_zero (st : OrderStore) (userId : Nat)
    (h : basketOf st userId = none) : basketCount st userId = 0 := by
  unfold basketOf at h
  rw [List.find?_eq_none] at h
  unfold basketCount
  rw [List.filter_eq_nil_iff.mpr h]
  rfl

theorem basketCount_pos (st : OrderStore) (userId : Nat) (b : OrderR)
    (h : basketOf st userId = some b) : 1 ≤ basketCount st userId := by
  have hm : b ∈ st.orders := List.mem_of_find?_eq_some h
  have hp := List.find?_some h
  exact List.length_pos_of_mem (List.mem_filter.mpr ⟨hm, hp⟩)

theorem basketCount_createBasket (st : OrderStore) (userId : Nat) :
    basketCount (createBasket st userId) userId = basketCount st userId + 1 := by
  unfold basketCount createBasket
  rw [List.filter_append]
  simp

theorem basketCount_basketList (st : OrderStore) (userId : Nat)
    (hinv : basketCount st userId ≤ 1) :
    basketCount (basketList st userId) userId = 1 := by
  unfold basketList
  cases h : basketOf st userId with
  | none => rw [basketCount_createBasket, basketCount_eq_zero st userId h]
  | some b => exact le_antisymm hinv (basketCount_pos st userId b h)

theorem foldl_orders_invariant {α : Type} (g : OrderStore → α → OrderStore)
    (hg : ∀ s a, (g s a).orders = s.orders) :
    ∀ (l : List α) (s : OrderStore), (l.foldl g s).orders = s.orders := by
  intro l
  induction l with
  | nil => intro s; rfl
  | cons a rest ih =>
    intro s
    rw [List.foldl_cons, ih, hg]

theorem upsertBasketItem_orders (st : OrderStore) (oid pid q : Nat) (p : ℚ) :
    (upsertBasketItem st oid pid q p).orders = st.orders := by
  unfold upsertBasketItem
  split <;> rfl

theorem basketAddItems_orders (st : OrderStore) (userId : Nat)
    (reqs : List (Nat × Nat × ℚ)) :
    (basketAddItems st userId reqs).orders = (basketList st userId).orders := by
  unfold basketAddItems
  dsimp only
  split
  · rw [foldl_orders_invariant _ (fun s a => upsertBasketItem_orders s _ _ _ _)]
    cases h : basketOf st userId <;> simp [basketList, h]
  · cases h : basketOf st userId <;> simp [basketList, h]

theorem basketUpdateItems_orders (st : OrderStore) (userId : Nat)
    (reqs : List (Nat × Nat × ℚ)) :
    (basketUpdateItems st userId reqs).orders = st.orders := by
  unfold basketUpdateItems
  cases basketOf st userId with
  | none => rfl
  | some b =>
    dsimp only
    split
    · exact foldl_orders_invariant
        (fun acc r => { acc with items := acc.items.map (fun it =>
          if it.order == b.id && it.productInfo == r.1 then
            { it with quantity := r.2.1, price := r.2.2 } else it) })
        (fun s a => rfl) reqs st
    · rfl

theorem basketDeleteItems_orders (st : OrderStore) (userId : Nat) (ids : List Nat) :
    (basketDeleteItems st userId ids).2.orders = st.orders := by
  unfold basketDeleteItems
  cases basketOf st userId with
  | none => rfl
  | some b =>
    dsimp only
    split
    · rfl
    · split <;> rfl

theorem confirm_orders_cases (st : OrderStore) (pk userId : Nat) (co : Option Nat) :
    (confirm st pk userId co).2.1.orders = st.orders ∨
    ∃ cid, (confirm st pk userId co).2.1.orders = st.orders.map (fun o =>
      if o.id == pk then { o with status := "new", contact := some cid } else o) := by
  unfold confirm
  cases hf : st.orders.find?
      (fun o => o.id == pk && o.user == userId && o.status == "basket") with
  | none => left; rfl
  | some b =>
    cases co with
    | none => left; rfl
    | some cid =>
      by_cases hc : st.contacts.any (fun c => c.id == cid && c.user == userId)
      · simp only [hc, if_true]
        by_cases hi : (itemsOf st pk).isEmpty
        · left
          simp [hi]
        · simp only [hi, Bool.false_eq_true, if_false]
          cases hci : confirmItems (itemsOf st pk) st.listings with
          | mk fst snd =>
            cases fst with
            | some lid => left; rfl
            | none => right; exact ⟨cid, rfl⟩
      · left
        simp [hc]

theorem confirm_basketCount_le (st : OrderStore) (pk userId : Nat) (co : Option Nat) :
    basketCount (confirm st pk userId co).2.1 userId ≤ basketCount st userId := by
  rcases confirm_orders_cases st pk userId co with h | ⟨cid, h⟩
  · exact le_of_eq (by unfold basketCount; rw [h])
  · unfold basketCount
    rw [h, List.filter_map, List.length_map]
    refine List.Sublist.length_le (List.monotone_filter_right _ ?_)
    intro o ho
    by_cases hid : o.id = pk
    · exfalso
      simp only [Function.comp, hid, beq_self_eq_true, if_true, Bool.and_eq_true,
        beq_iff_eq] at ho
      exact absurd ho.2 (by decide)
    · simpa [Function.comp, hid] using ho

/-- C7: each basket endpoint keeps the user at a single live basket:
listing the basket creates one exactly when none exists, adding items
get-or-creates exactly one, updating and deleting items never touch the
orders table, and `confirm` never creates a basket (it can only consume
the one being confirmed). -/
theorem basket_ops_single_basket (st : OrderStore) (userId pk : Nat)
    (co : Option Nat) (reqs : List (Nat × Nat × ℚ)) (ids : List Nat)
    (hinv : basketCount st userId ≤ 1) :
    basketCount (basketList st userId) userId = 1 ∧
    basketCount (basketAddItems st userId reqs) userId = 1 ∧
    (basketUpdateItems st userId reqs).orders = st.orders ∧
    (basketDeleteItems st userId ids).2.orders = st.orders ∧
    basketCount (confirm st pk userId co).2.1 userId ≤ 1 := by
  refine ⟨basketCount_basketList st userId hinv, ?_,
    basketUpdateItems_orders st userId reqs, basketDeleteItems_orders st userId ids,
    le_trans (confirm_basketCount_le st pk userId co) hinv⟩
  have h := basketAddItems_orders st userId reqs
  unfold basketCount
  rw [h]
  exact basketCount_basketList st userId hinv

theorem basket_ops_single_basket_witness :
    basketCount (basketList okStore 1) 1 = 1 ∧
    basketCount (basketAddItems okStore 1 []) 1 = 1 ∧
    (basketUpdateItems okStore 1 []).orders = okStore.orders ∧
    (basketDeleteItems okStore 1 []).2.orders = okStore.orders ∧
    basketCount (confirm okStore 1 1 (some 1)).2.1 1 ≤ 1 :=
  basket_ops_single_basket okStore 1 1 (some 1) [] [] (by decide)

/-! ## C10: basket delete-items -/

/-- Store with one basket (order 1 of user 1) holding a single line for
listing 5. -/
def delStore : OrderStore :=
  { listings := [⟨5, 1, 10⟩],
    orders := [⟨1, 1, "basket", none⟩],
    nextOrderId := 2,
    items := [⟨1, 5, 2, 7⟩],
    contacts := [] }

/-- C10 counterexample: with request `[5, 5]` every requested listing id is
present as a basket line and the request is nonempty, yet `delete_items`
answers 400 (`itemsMissing`) and removes nothing, because the count of
matching lines (1) differs from the length of the request list (2). -/
theorem basket_delete_duplicate_ids_rejected :
    ([5, 5] : List Nat) ≠ [] ∧
    (∀ x ∈ ([5, 5] : List Nat), ∃ it ∈ delStore.items,
      it.order = 1 ∧ it.productInfo = x) ∧
    basketDeleteItems delStore 1 [5, 5] = (DeleteRes.itemsMissing, delStore) := by
  refine ⟨by decide, by decide, rfl⟩

/-- C10 (amended): delete-items is all-or-nothing, answering 400 without
deleting exactly when the request is empty, names an id with no matching
basket line, or repeats an id (the code compares the count of matching
lines against the length of the request list); otherwise it removes
exactly the lines for the requested ids. -/
theorem basket_delete_items_all_or_nothing (st : OrderStore) (userId : Nat)
    (ids : List Nat) (b : OrderR)
    (hb : basketOf st userId = some b)
    (hkeys : ((itemsOf st b.id).map OItem.productInfo).Nodup) :
    (ids = [] → basketDeleteItems st userId ids = (DeleteRes.emptyRequest, st)) ∧
    (ids ≠ [] → (∃ x ∈ ids, ∀ it ∈ st.items, ¬(it.order = b.id ∧ it.productInfo = x)) →
      basketDeleteItems st userId ids = (DeleteRes.itemsMissing, st)) ∧
    (ids ≠ [] → ¬ ids.Nodup →
      basketDeleteItems st userId ids = (DeleteRes.itemsMissing, st)) ∧
    (ids ≠ [] → ids.Nodup →
      (∀ x ∈ ids, ∃ it ∈ st.items, it.order = b.id ∧ it.productInfo = x) →
      basketDeleteItems st userId ids =
        (DeleteRes.ok, { st with items := (st.items.filter (fun it =>
            !(it.order == b.id && ids.contains it.productInfo))) })) := by
  have hsub : List.Sublist
      ((st.items.filter
        (fun it => it.order == b.id && ids.contains it.productInfo)).map OItem.productInfo)
      ((itemsOf st b.id).map OItem.productInfo) :=
    List.Sublist.map _ (List.monotone_filter_right st.items
      (fun it h => (Bool.and_eq_true_iff.mp h).1))
  have hmnd : ((st.items.filter
      (fun it => it.order == b.id && ids.contains it.productInfo)).map
        OItem.productInfo).Nodup :=
    List.Nodup.sublist hsub hkeys
  have hpids_sub : ∀ x ∈ (st.items.filter
      (fun it => it.order == b.id && ids.contains it.productInfo)).map OItem.productInfo,
      x ∈ ids := by
    intro x hx
    obtain ⟨it, hit, rfl⟩ := List.mem_map.mp hx
    obtain ⟨-, hpit⟩ := List.mem_filter.mp hit
    exact List.mem_of_elem_eq_true (Bool.and_eq_true_iff.mp hpit).2
  refine ⟨?_, ?_, ?_, ?_⟩
  · rintro rfl
    unfold basketDeleteItems
    rw [hb]
    rfl
  · intro hne hmiss
    obtain ⟨x, hx, hxm⟩ := hmiss
    have hie : ids.isEmpty = false := by
      cases ids with
      | nil => exact absurd rfl hne
      | cons a l => rfl
    have hxnp : x ∉ (st.items.filter
        (fun it => it.order == b.id && ids.contains it.productInfo)).map
          OItem.productInfo := by
      intro hxin
      obtain ⟨it, hit, hpi⟩ := List.mem_map.mp hxin
      obtain ⟨hmem, hpit⟩ := List.mem_filter.mp hit
      exact hxm it hmem ⟨by simpa using (Bool.and_eq_true_iff.mp hpit).1, hpi⟩
    have hxd : x ∈ ids.dedup := List.mem_dedup.mpr hx
    have hlen : (st.items.filter
        (fun it => it.order == b.id && ids.contains it.productInfo)).length
        < ids.length := by
      have h1 : (st.items.filter
          (fun it => it.order == b.id && ids.contains it.productInfo)).length
          = ((st.items.filter
            (fun it => it.order == b.id && ids.contains it.productInfo)).map
              OItem.productInfo).length := (List.length_map _ _).symm
      have hss : ∀ y ∈ (st.items.filter
          (fun it => it.order == b.id && ids.contains it.productInfo)).map
            OItem.productInfo, y ∈ ids.dedup.erase x := by
        intro y hy
        have hyne : y ≠ x := fun he => hxnp (he ▸ hy)
        exact (List.mem_erase_of_ne hyne).mpr (List.mem_dedup.mpr (hpids_sub y hy))
      have h2 := List.Subperm.length_le (List.Nodup.subperm hmnd hss)
      have h3 : (ids.dedup.erase x).length = ids.dedup.length - 1 :=
        List.length_erase_of_mem hxd
      have h4 : ids.dedup.length - 1 < ids.dedup.length :=
        Nat.sub_lt (List.length_pos_of_mem hxd) Nat.one_pos
      have h5 : ids.dedup.length ≤ ids.length := (List.dedup_sublist ids).length_le
      omega
    unfold basketDeleteItems
    rw [hb]
    dsimp only
    rw [hie]
    simp only [Bool.false_eq_true, if_false]
    rw [if_pos (Nat.ne_of_lt hlen)]
  · intro hne hnnd
    have hie : ids.isEmpty = false := by
      cases ids with
      | nil => exact absurd rfl hne
      | cons a l => rfl
    have hlen : (st.items.filter
        (fun it => it.order == b.id && ids.contains it.productInfo)).length
        < ids.length := by
      have h1 : (st.items.filter
          (fun it => it.order == b.id && ids.contains it.productInfo)).length
          = ((st.items.filter
            (fun it => it.order == b.id && ids.contains it.productInfo)).map
              OItem.productInfo).length := (List.length_map _ _).symm
      have hss : ∀ y ∈ (st.items.filter
          (fun it => it.order == b.id && ids.contains it.productInfo)).map
            OItem.productInfo, y ∈ ids.dedup :=
        fun y hy => List.mem_dedup.mpr (hpids_sub y hy)
      have h2 := List.Subperm.length_le (List.Nodup.subperm hmnd hss)
      have h3 : ids.dedup.length < ids.length := by
        refine Nat.lt_of_le_of_ne (List.dedup_sublist ids).length_le ?_
        intro he
        exact hnnd (List.dedup_eq_self.mp ((List.dedup_sublist ids).eq_of_length he))
      omega
    unfold basketDeleteItems
    rw [hb]
    dsimp only
    rw [hie]
    simp only [Bool.false_eq_true, if_false]
    rw [if_pos (Nat.ne_of_lt hlen)]
  · intro hne hnd hall
    have hie : ids.isEmpty = false := by
      cases ids with
      | nil => exact absurd rfl hne
      | cons a l => rfl
    have hids_sub : ∀ x ∈ ids, x ∈ (st.items.filter
        (fun it => it.order == b.id && ids.contains it.productInfo)).map
          OItem.productInfo := by
      intro x hx
      obtain ⟨it, hit, ho, hpi⟩ := hall x hx
      refine List.mem_map.mpr ⟨it, List.mem_filter.mpr ⟨hit, ?_⟩, hpi⟩
      refine Bool.and_eq_true_iff.mpr ⟨by simpa using ho, ?_⟩
      exact List.elem_eq_true_of_mem (hpi ▸ hx)
    have hlen : (st.items.filter
        (fun it => it.order == b.id && ids.contains it.productInfo)).length
        = ids.length := by
      have h1 := List.Subperm.length_le (List.Nodup.subperm hmnd hpids_sub)
      have h2 := List.Subperm.length_le (List.Nodup.subperm hnd hids_sub)
      rw [List.length_map] at h1 h2
      omega
    unfold basketDeleteItems
    rw [hb]
    dsimp only
    rw [hie]
    simp only [Bool.false_eq_true, if_false]
    rw [if_neg (by omega)]

theorem basket_delete_items_all_or_nothing_witness :
    (([5] : List Nat) = [] → basketDeleteItems delStore 1 [5] = (DeleteRes.emptyRequest, delStore)) ∧
    (([5] : List Nat) ≠ [] →
      (∃ x ∈ ([5] : List Nat), ∀ it ∈ delStore.items,
        ¬(it.order = (⟨1, 1, "basket", none⟩ : OrderR).id ∧ it.productInfo = x)) →
      basketDeleteItems delStore 1 [5] = (DeleteRes.itemsMissing, delStore)) ∧
    (([5] : List Nat) ≠ [] → ¬ ([5] : List Nat).Nodup →
      basketDeleteItems delStore 1 [5] = (DeleteRes.itemsMissing, delStore)) ∧
    (([5] : List Nat) ≠ [] → ([5] : List Nat).Nodup →
      (∀ x ∈ ([5] : List Nat), ∃ it ∈ delStore.items,
        it.order = (⟨1, 1, "basket", none⟩ : OrderR).id ∧ it.productInfo = x) →
      basketDeleteItems delStore 1 [5] =
        (DeleteRes.ok, { delStore with items := (delStore.items.filter (fun it =>
            !(it.order == (⟨1, 1, "basket", none⟩ : OrderR).id
              && ([5] : List Nat).contains it.productInfo))) })) :=
  basket_delete_items_all_or_nothing delStore 1 [5] ⟨1, 1, "basket", none⟩
    (by decide) (by decide)

/-! # The catalog store and the price-list importer

Embedding of `SupplierViewSet.update_price` (`views.py` lines 402-538) for
a single supplier's shop.  The YAML document is modelled post-parse; the
legacy `products`-dictionary feed shape is converted by the view into the
same row-list shape as `goods` before the loop, so the embedding works
with the unified row list.  `get_or_create` / `update_or_create` resolve
by first match; Django's `get` raises when several rows match, which
cannot happen under the uniqueness hypotheses (`CatalogWf`) the import
itself preserves, so updates are written through every matching row
(exactly one under those hypotheses).  The view stores
`str(item_data['id'])` into a positive-integer column, which round-trips
numeric ids unchanged; external ids are therefore `Nat` here. -/

/-- `Category`: pk and name (`models.py`).  The shop m2m link lives in
`Catalog.shopCats`. -/
structure CategoryR where
  id : Nat
  name : String
  deriving DecidableEq, Repr

/-- `Product`: pk, name and category reference (`models.py`). -/
structure ProductR where
  id : Nat
  name : String
  category : Nat
  deriving DecidableEq, Repr

/-- `ProductInfo` for the import flow: pk, external id, product reference,
model string, quantity, price and recommended price (`models.py`). -/
structure PInfoR where
  id : Nat
  externalId : Nat
  product : Nat
  model : String
  quantity : Nat
  price : ℚ
  priceRrc : ℚ
  deriving DecidableEq, Repr

/-- `Parameter`: pk and name (`models.py`). -/
structure ParamR where
  id : Nat
  name : String
  deriving DecidableEq, Repr

/-- `ProductParameter`: listing reference, parameter reference and value
(`models.py`). -/
structure PParamR where
  productInfo : Nat
  parameter : Nat
  value : String
  deriving DecidableEq, Repr

/-- The slice of the database the import touches, for one shop. -/
structure Catalog where
  shopName : String
  shopCats : List Nat
  cats : List CategoryR
  nextCatId : Nat
  products : List ProductR
  nextProductId : Nat
  pis : List PInfoR
  nextPiId : Nat
  params : List ParamR
  nextParamId : Nat
  pparams : List PParamR
  deriving DecidableEq, Repr

/-- One entry of the feed's `categories` list: optional external id and
optional name (a YAML mapping may omit either key). -/
structure CatEntry where
  id : Option Nat
  name : Option String
  deriving DecidableEq, Repr

/-- One row of the feed's goods list; `none` models an absent key. -/
structure GoodEntry where
  id : Option Nat
  name : Option String
  category : Option Nat
  quantity : Option Nat
  price : Option ℚ
  priceRrc : Option ℚ
  model : Option String
  parameters : List (String × Option String)
  deriving DecidableEq, Repr

/-- The parsed YAML price-list document. -/
structure PriceDoc where
  shop : Option String
  categories : List CatEntry
  goods : List GoodEntry
  deriving DecidableEq, Repr

/-- Python truthiness of an optional integer (`if cat_id:`): present and
nonzero. -/
def truthyId : Option Nat → Option Nat
  | some n => if n = 0 then none else some n
  | none => none

/-- Python truthiness of an optional string (`if not cat_name:`): present
and nonempty. -/
def truthyName : Option String → Option String
  | some s => if s = "" then none else some s
  | none => none

/-- `Category.objects.get_or_create(name=...)`: first category of that
name, else a fresh one. -/
def getOrCreateCat (c : Catalog) (n : String) : Nat × Catalog :=
  match c.cats.find? (fun k => k.name == n) with
  | some k => (k.id, c)
  | none =>
    (c.nextCatId,
     { c with cats := c.cats ++ [⟨c.nextCatId, n⟩], nextCatId := c.nextCatId + 1 })

/-- `Product.objects.get_or_create(name=..., defaults={category})`. -/
def getOrCreateProduct (c : Catalog) (n : String) (defaultCat : Nat) : Nat × Catalog :=
  match c.products.find? (fun p => p.name == n) with
  | some p => (p.id, c)
  | none =>
    (c.nextProductId,
     { c with products := c.products ++ [⟨c.nextProductId, n, defaultCat⟩],
              nextProductId := c.nextProductId + 1 })

/-- `ProductInfo.objects.update_or_create(external_id=..., shop=shop,
defaults={...})`: update the listing with that external id (unique under
`CatalogWf`), else create it. -/
def upsertPi (c : Catalog) (e pid : Nat) (mdl : String) (q : Nat) (pr rrc : ℚ) :
    Nat × Catalog :=
  match c.pis.find? (fun r => r.externalId == e) with
  | some r =>
    (r.id,
     { c with pis := c.pis.map (fun s =>
        if s.externalId == e then
          { s with product := pid, model := mdl, quantity := q, price := pr, priceRrc := rrc }
        else s) })
  | none =>
    (c.nextPiId,
     { c with pis := c.pis ++ [⟨c.nextPiId, e, pid, mdl, q, pr, rrc⟩],
              nextPiId := c.nextPiId + 1 })

/-- `Parameter.objects.get_or_create(name=...)`. -/
def getOrCreateParam (c : Catalog) (n : String) : Nat × Catalog :=
  match c.params.find? (fun p => p.name == n) with
  | some p => (p.id, c)
  | none =>
    (c.nextParamId,
     { c with params := c.params ++ [⟨c.nextParamId, n⟩],
              nextParamId := c.nextParamId + 1 })

/-- `ProductParameter.objects.update_or_create(product_info=...,
parameter=..., defaults={value})`. -/
def upsertPParam (c : Catalog) (piId prmId : Nat) (v : String) : Catalog :=
  if c.pparams.any (fun r => r.productInfo == piId && r.parameter == prmId) then
    { c with pparams := c.pparams.map (fun r =>
        if r.productInfo == piId && r.parameter == prmId then { r with value := v } else r) }
  else
    { c with pparams := c.pparams ++ [⟨piId, prmId, v⟩] }

/-- State threaded through the categories loop: the catalog plus the
`categories_map` (YAML id to store pk; later entries shadow earlier ones,
as in a Python dict) and `new_categories_ids`. -/
structure CatPhase where
  cat : Catalog
  cmap : List (Nat × Nat)
  newIds : List Nat
  deriving DecidableEq, Repr

/-- `if category not in shop.categories.all(): shop.categories.add(...)`. -/
def attachCat (c : Catalog) (k : Nat) : Catalog :=
  if k ∈ c.shopCats then c else { c with shopCats := c.shopCats ++ [k] }

/-- One iteration of the categories loop (`views.py` lines 444-462):
skip entries without a truthy name; get-or-create the category by name;
under a truthy id record the YAML-id mapping and the store pk; attach the
category to the shop when not yet attached. -/
def catStep (s : CatPhase) (ce : CatEntry) : CatPhase :=
  match truthyName ce.name with
  | none => s
  | some n =>
    let r := getOrCreateCat s.cat n
    match truthyId ce.id with
    | some y =>
      { cat := attachCat r.2 r.1, cmap := (y, r.1) :: s.cmap,
        newIds := if r.1 ∈ s.newIds then s.newIds else s.newIds ++ [r.1] }
    | none => { cat := attachCat r.2 r.1, cmap := s.cmap, newIds := s.newIds }

/-- `categories_map.get(category_id_yaml)`: latest binding wins. -/
def lookupCMap (m : List (Nat × Nat)) (y : Nat) : Option Nat :=
  (m.find? (fun p => p.1 == y)).map Prod.snd

/-- Required-field and category-resolution check of one goods row
(`views.py` lines 483-493): a row missing `id`, `name`, `category`,
`quantity` or `price`, or whose YAML category id is not in the map, is
skipped. -/
def rowSkipped (m : List (Nat × Nat)) (g : GoodEntry) : Bool :=
  match g.id, g.name, g.category, g.quantity, g.price with
  | some _, some _, some cy, some _, some _ => (lookupCMap m cy).isNone
  | _, _, _, _, _ => true

/-- One iteration of the parameters loop (`views.py` lines 516-526):
skip empty names and `None` values, get-or-create the parameter by name,
upsert the value by (listing, parameter). -/
def paramStep (piId : Nat) (c : Catalog) (pv : String × Option String) : Catalog :=
  match pv.2 with
  | none => c
  | some v =>
    if pv.1 = "" then c
    else
      let r := getOrCreateParam c pv.1
      upsertPParam r.2 piId r.1 v

/-- One iteration of the goods loop (`views.py` lines 481-528): skip rows
failing `rowSkipped`; get-or-create the product by name with the resolved
category as creation default; upsert the listing by external id with the
row's quantity, price, model and recommended price; then run the
parameters loop. -/
def rowStep (m : List (Nat × Nat)) (c : Catalog) (g : GoodEntry) : Catalog :=
  match g.id, g.name, g.category, g.quantity, g.price with
  | some e, some nm, some cy, some q, some pr =>
    match lookupCMap m cy with
    | none => c
    | some _cat =>
      let rp := getOrCreateProduct c nm _cat
      let ri := upsertPi rp.2 e rp.1 (g.model.getD "") q pr (g.priceRrc.getD 0)
      g.parameters.foldl (paramStep ri.1) ri.2
  | _, _, _, _, _ => c

/-- The goods loop. -/
def processGoods (m : List (Nat × Nat)) (c : Catalog) (gs : List GoodEntry) : Catalog :=
  gs.foldl (rowStep m) c

/-- `updated_count`: rows that completed the upsert (no exception can
occur in the embedding, so exactly the non-skipped rows). -/
def updatedCount (m : List (Nat × Nat)) (gs : List GoodEntry) : Nat :=
  (gs.filter (fun g => !rowSkipped m g)).length

/-- Outcome of `update_price`; `ok` carries `updated_products` and the
count of processed rows reported in the response message. -/
inductive UpdResponse where
  | badRequest (msg : String)
  | ok (updatedProducts processed : Nat)
  deriving DecidableEq, Repr

/-- `update_price` after a successfully parsed nonempty document
(`views.py` lines 434-538): update the shop name when truthy; run the
categories loop; detach shop categories recorded before the loop that are
not in `new_categories_ids`; reject documents without goods rows (the
category changes above are kept — they happen before the guard and outside
any transaction); otherwise run the goods loop and report counts.
`shopNameUpd` is the `if 'shop' in data and data['shop']` name update. -/
def shopNameUpd (doc : PriceDoc) (c : Catalog) : Catalog :=
  match truthyName doc.shop with
  | some s => { c with shopName := s }
  | none => c

def updatePriceCore (doc : PriceDoc) (c : Catalog) : UpdResponse × Catalog :=
  let c0 := shopNameUpd doc c
  let ph := doc.categories.foldl catStep ⟨c0, [], []⟩
  let c1 := { ph.cat with shopCats := (ph.cat.shopCats.filter
      (fun k => !(c0.shopCats.contains k && !(ph.newIds.contains k)))) }
  if doc.goods.isEmpty then (.badRequest "Нет товаров в YAML", c1)
  else
    (.ok (updatedCount ph.cmap doc.goods) doc.goods.length,
     processGoods ph.cmap c1 doc.goods)

/-- Result of the fetch-and-parse preamble (`views.py` lines 417-432):
the four failure classes, or a parsed document (`none` when the YAML is
empty/falsy). -/
inductive FetchOutcome where
  | requestError (msg : String)
  | yamlParseError (msg : String)
  | otherError (msg : String)
  | parsed (doc : Option PriceDoc)
  deriving DecidableEq, Repr

/-- `SupplierViewSet.update_price` from the fetch onwards: fetch or parse
failures return 400 carrying the underlying cause text and leave the
catalog untouched. -/
def update_price (f : FetchOutcome) (c : Catalog) : UpdResponse × Catalog :=
  match f with
  | .requestError m => (.badRequest ("Ошибка при запросе к URL: " ++ m), c)
  | .yamlParseError m => (.badRequest ("Ошибка парсинга YAML файла: " ++ m), c)
  | .otherError m => (.badRequest ("Неизвестная ошибка при загрузке файла: " ++ m), c)
  | .parsed none => (.badRequest "Пустой YAML файл", c)
  | .parsed (some doc) => updatePriceCore doc c

/-! ## C8: fetch and parse failures -/

/-- C8: when the remote feed cannot be fetched, its YAML cannot be parsed,
or any other exception is raised while loading, `update_price` answers 400
with the underlying cause text appended to the error message, and the
catalog is left unchanged. -/
theorem update_price_fetch_errors (msg : String) (c : Catalog) :
    update_price (.requestError msg) c
      = (.badRequest ("Ошибка при запросе к URL: " ++ msg), c) ∧
    update_price (.yamlParseError msg) c
      = (.badRequest ("Ошибка парсинга YAML файла: " ++ msg), c) ∧
    update_price (.otherError msg) c
      = (.badRequest ("Неизвестная ошибка при загрузке файла: " ++ msg), c) :=
  ⟨rfl, rfl, rfl⟩

/-! ## Counterexamples: categories imported without an external id -/

/-- An empty single-shop catalog. -/
def emptyCatalog : Catalog :=
  { shopName := "Shop", shopCats := [], cats := [], nextCatId := 1,
    products := [], nextProductId := 1, pis := [], nextPiId := 1,
    params := [], nextParamId := 1, pparams := [] }

/-- Catalog in which category 1 (`"B"`) is attached to the shop. -/
def attachedCatalog : Catalog :=
  { emptyCatalog with shopCats := [1], cats := [⟨1, "B"⟩], nextCatId := 2 }

/-- Feed whose only category entry carries a name but no id, plus one
goods row (whose YAML category id resolves to nothing, so it is
skipped). -/
def idlessDoc : PriceDoc :=
  { shop := none,
    categories := [⟨none, some "B"⟩],
    goods := [⟨some 10, some "P", some 1, some 1, some 1, none, none, []⟩] }

/-- C5 counterexample: category `"B"` (pk 1) is attached to the shop and
present in the imported feed's category list, yet after the import it is
detached — the entry lacks an id, so pk 1 never enters
`new_categories_ids` and the reconciliation removes it. -/
theorem import_detaches_present_idless_category :
    1 ∈ attachedCatalog.shopCats ∧
    (∃ ce ∈ idlessDoc.categories, ce.name = some "B") ∧
    attachedCatalog.cats.find? (fun k => k.name == "B") = some ⟨1, "B"⟩ ∧
    1 ∉ (updatePriceCore idlessDoc attachedCatalog).2.shopCats := by
  decide

/-- C4 counterexample: importing `idlessDoc` twice from the empty catalog
is not idempotent — the first run attaches the id-less category `"B"`, the
second run detaches it, so the catalog after two runs differs from the
catalog after one. -/
theorem import_twice_ne_import_once :
    (updatePriceCore idlessDoc (updatePriceCore idlessDoc emptyCatalog).2).2
      ≠ (updatePriceCore idlessDoc emptyCatalog).2 := by
  decide

/-! ## Lemmas about the categories phase -/

/-- pk of the first category named `n`. -/
def resolveCat (c : Catalog) (n : String) : Option Nat :=
  (c.cats.find? (fun k => k.name == n)).map CategoryR.id

theorem foldl_proj {σ α β : Type} (g : σ → α → σ) (fld : σ → β)
    (hg : ∀ s a, fld (g s a) = fld s) :
    ∀ (l : List α) (s : σ), fld (l.foldl g s) = fld s := by
  intro l
  induction l with
  | nil => intro s; rfl
  | cons a rest ih =>
    intro s
    rw [List.foldl_cons, ih, hg]

theorem attachCat_cats (c : Catalog) (k : Nat) : (attachCat c k).cats = c.cats := by
  unfold attachCat
  split <;> rfl

theorem attachCat_self_mem (c : Catalog) (k : Nat) : k ∈ (attachCat c k).shopCats := by
  unfold attachCat
  split
  · assumption
  · simp

theorem attachCat_mono (c : Catalog) (k x : Nat) (h : x ∈ c.shopCats) :
    x ∈ (attachCat c k).shopCats := by
  unfold attachCat
  split
  · exact h
  · exact List.mem_append_left _ h

theorem getOrCreateCat_cats (c : Catalog) (n : String) :
    ∃ t, (getOrCreateCat c n).2.cats = c.cats ++ t := by
  unfold getOrCreateCat
  cases h : c.cats.find? (fun k => k.name == n) with
  | none => exact ⟨[⟨c.nextCatId, n⟩], rfl⟩
  | some k => exact ⟨[], (List.append_nil _).symm⟩

theorem getOrCreateCat_shopCats (c : Catalog) (n : String) :
    (getOrCreateCat c n).2.shopCats = c.shopCats := by
  unfold getOrCreateCat
  cases c.cats.find? (fun k => k.name == n) <;> rfl

theorem catStep_cats_append (s : CatPhase) (ce : CatEntry) :
    ∃ t, (catStep s ce).cat.cats = s.cat.cats ++ t := by
  unfold catStep
  cases truthyName ce.name with
  | none => exact ⟨[], (List.append_nil _).symm⟩
  | some n =>
    obtain ⟨t, ht⟩ := getOrCreateCat_cats s.cat n
    refine ⟨t, ?_⟩
    cases truthyId ce.id <;> simpa [attachCat_cats] using ht

theorem resolveCat_of_append (c c' : Catalog) (t : List CategoryR)
    (h : c'.cats = c.cats ++ t) (n : String) (k : Nat)
    (hk : resolveCat c n = some k) : resolveCat c' n = some k := by
  unfold resolveCat at *
  rw [h, List.find?_append]
  cases hf : c.cats.find? (fun x => x.name == n) with
  | none => rw [hf] at hk; simp at hk
  | some x =>
    rw [hf] at hk
    simpa using hk

theorem catStep_resolve_stable (s : CatPhase) (ce : CatEntry) (n : String) (k : Nat)
    (h : resolveCat s.cat n = some k) : resolveCat (catStep s ce).cat n = some k := by
  obtain ⟨t, ht⟩ := catStep_cats_append s ce
  exact resolveCat_of_append _ _ t ht n k h

theorem catFold_resolve_stable (es : List CatEntry) :
    ∀ (s : CatPhase) (n : String) (k : Nat), resolveCat s.cat n = some k →
      resolveCat (es.foldl catStep s).cat n = some k := by
  induction es with
  | nil => intro s n k h; exact h
  | cons ce rest ih =>
    intro s n k h
    exact ih _ n k (catStep_resolve_stable s ce n k h)

theorem getOrCreateCat_resolve (c : Catalog) (n : String) :
    resolveCat (getOrCreateCat c n).2 n = some (getOrCreateCat c n).1 := by
  unfold getOrCreateCat resolveCat
  cases h : c.cats.find? (fun k => k.name == n) with
  | some k => simp [h]
  | none => simp [h, List.find?_append]

theorem catStep_resolves (s : CatPhase) (ce : CatEntry) (n : String)
    (hn : truthyName ce.name = some n) :
    resolveCat (catStep s ce).cat n = some (getOrCreateCat s.cat n).1 := by
  have hres := getOrCreateCat_resolve s.cat n
  unfold catStep
  rw [hn]
  cases truthyId ce.id <;>
    simpa [resolveCat, attachCat_cats] using hres

theorem catStep_mem_newIds (s : CatPhase) (ce : CatEntry) (k : Nat) :
    k ∈ (catStep s ce).newIds ↔ k ∈ s.newIds ∨
      ∃ n y, truthyName ce.name = some n ∧ truthyId ce.id = some y ∧
        (getOrCreateCat s.cat n).1 = k := by
  unfold catStep
  cases hn : truthyName ce.name with
  | none => simp
  | some n =>
    cases hy : truthyId ce.id with
    | none => simp
    | some y =>
      dsimp only
      constructor
      · intro hk
        split at hk
        · exact Or.inl hk
        · rcases List.mem_append.mp hk with hk | hk
          · exact Or.inl hk
          · exact Or.inr ⟨n, y, rfl, rfl, (List.mem_singleton.mp hk).symm⟩
      · rintro (hk | ⟨n', y', hn', hy', hfst⟩)
        · split
          · exact hk
          · exact List.mem_append_left _ hk
        · cases hn'
          cases hfst
          split
          · assumption
          · exact List.mem_append_right _ (by simp)

theorem catStep_newIds_subset (s : CatPhase) (ce : CatEntry)
    (h : ∀ k ∈ s.newIds, k ∈ s.cat.shopCats) :
    ∀ k ∈ (catStep s ce).newIds, k ∈ (catStep s ce).cat.shopCats := by
  unfold catStep
  cases hn : truthyName ce.name with
  | none => exact h
  | some n =>
    have hold : ∀ k ∈ s.newIds,
        k ∈ (attachCat (getOrCreateCat s.cat n).2 (getOrCreateCat s.cat n).1).shopCats := by
      intro k hk
      refine attachCat_mono _ _ _ ?_
      rw [getOrCreateCat_shopCats]
      exact h k hk
    cases hy : truthyId ce.id with
    | none => exact hold
    | some y =>
      intro k hk
      dsimp only at hk ⊢
      split at hk
      · exact hold k hk
      · rcases List.mem_append.mp hk with hk | hk
        · exact hold k hk
        · rw [List.mem_singleton.mp hk]
          exact attachCat_self_mem _ _

theorem catFold_newIds_subset (es : List CatEntry) :
    ∀ (s : CatPhase), (∀ k ∈ s.newIds, k ∈ s.cat.shopCats) →
      ∀ k ∈ (es.foldl catStep s).newIds, k ∈ (es.foldl catStep s).cat.shopCats := by
  induction es with
  | nil => intro s h; exact h
  | cons ce rest ih =>
    intro s h
    exact ih (catStep s ce) (catStep_newIds_subset s ce h)

theorem catFold_mem_newIds (es : List CatEntry) :
    ∀ (s : CatPhase) (k : Nat),
      k ∈ (es.foldl catStep s).newIds ↔ k ∈ s.newIds ∨
        ∃ ce ∈ es, ∃ n y, truthyName ce.name = some n ∧ truthyId ce.id = some y ∧
          resolveCat (es.foldl catStep s).cat n = some k := by
  induction es with
  | nil => intro s k; simp
  | cons ce rest ih =>
    intro s k
    rw [List.foldl_cons, ih (catStep s ce) k]
    constructor
    · rintro (hs | hrest)
      · rw [catStep_mem_newIds] at hs
        rcases hs with hs | ⟨n, y, hn, hy, hfst⟩
        · exact Or.inl hs
        · refine Or.inr ⟨ce, by simp, n, y, hn, hy, ?_⟩
          have h1 := catStep_resolves s ce n hn
          rw [hfst] at h1
          exact catFold_resolve_stable rest _ n k h1
      · obtain ⟨ce', hce', n, y, hn, hy, hres⟩ := hrest
        exact Or.inr ⟨ce', by simp [hce'], n, y, hn, hy, hres⟩
    · rintro (hs | ⟨ce', hce', n, y, hn, hy, hres⟩)
      · left
        rw [catStep_mem_newIds]
        exact Or.inl hs
      · rcases List.mem_cons.mp hce' with rfl | hmem
        · left
          rw [catStep_mem_newIds]
          refine Or.inr ⟨n, y, hn, hy, ?_⟩
          have h1 := catStep_resolves s ce' n hn
          have h2 := catFold_resolve_stable rest _ n _ h1
          exact Option.some.inj (h2.symm.trans hres)
        · exact Or.inr ⟨ce', hmem, n, y, hn, hy, hres⟩

/-! ## Frame lemmas: the goods phase never touches the category fields -/

/-- Shop name, shop categories, category table and its counter. -/
def catFields (c : Catalog) : String × List Nat × List CategoryR × Nat :=
  (c.shopName, c.shopCats, c.cats, c.nextCatId)

theorem getOrCreateProduct_catFields (c : Catalog) (n : String) (d : Nat) :
    catFields (getOrCreateProduct c n d).2 = catFields c := by
  unfold getOrCreateProduct
  cases c.products.find? (fun p => p.name == n) <;> rfl

theorem upsertPi_catFields (c : Catalog) (e pid : Nat) (mdl : String) (q : Nat)
    (pr rrc : ℚ) : catFields (upsertPi c e pid mdl q pr rrc).2 = catFields c := by
  unfold upsertPi
  cases c.pis.find? (fun r => r.externalId == e) <;> rfl

theorem getOrCreateParam_catFields (c : Catalog) (n : String) :
    catFields (getOrCreateParam c n).2 = catFields c := by
  unfold getOrCreateParam
  cases c.params.find? (fun p => p.name == n) <;> rfl

theorem upsertPParam_catFields (c : Catalog) (piId prmId : Nat) (v : String) :
    catFields (upsertPParam c piId prmId v) = catFields c := by
  unfold upsertPParam
  split <;> rfl

theorem paramStep_catFields (piId : Nat) (c : Catalog) (pv : String × Option String) :
    catFields (paramStep piId c pv) = catFields c := by
  obtain ⟨pn, pv2⟩ := pv
  unfold paramStep
  cases pv2 with
  | none => rfl
  | some v =>
    dsimp only
    by_cases hpn : pn = ""
    · rw [if_pos hpn]
    · rw [if_neg hpn, upsertPParam_catFields, getOrCreateParam_catFields]

theorem paramFold_catFields (piId : Nat) (l : List (String × Option String))
    (c : Catalog) : catFields (l.foldl (paramStep piId) c) = catFields c :=
  foldl_proj (paramStep piId) catFields (paramStep_catFields piId) l c

theorem rowStep_catFields (m : List (Nat × Nat)) (c : Catalog) (g : GoodEntry) :
    catFields (rowStep m c g) = catFields c := by
  unfold rowStep
  cases g.id <;> cases g.name <;> cases g.category <;> cases g.quantity <;>
    cases g.price <;> (dsimp only; try rfl)
  rename_i e nm cy q pr
  cases lookupCMap m cy with
  | none => rfl
  | some cat =>
    dsimp only
    rw [paramFold_catFields, upsertPi_catFields, getOrCreateProduct_catFields]

theorem processGoods_catFields (m : List (Nat × Nat)) (gs : List GoodEntry)
    (c : Catalog) : catFields (processGoods m c gs) = catFields c :=
  foldl_proj _ catFields (fun s a => rowStep_catFields m s a) gs c

theorem processGoods_shopCats (m : List (Nat × Nat)) (gs : List GoodEntry)
    (c : Catalog) : (processGoods m c gs).shopCats = c.shopCats := by
  have h := processGoods_catFields m gs c
  simp only [catFields, Prod.mk.injEq] at h
  exact h.2.1

theorem processGoods_cats (m : List (Nat × Nat)) (gs : List GoodEntry)
    (c : Catalog) : (processGoods m c gs).cats = c.cats := by
  have h := processGoods_catFields m gs c
  simp only [catFields, Prod.mk.injEq] at h
  exact h.2.2.1

theorem processGoods_shopName (m : List (Nat × Nat)) (gs : List GoodEntry)
    (c : Catalog) : (processGoods m c gs).shopName = c.shopName := by
  have h := processGoods_catFields m gs c
  simp only [catFields, Prod.mk.injEq] at h
  exact h.1

theorem processGoods_nextCatId (m : List (Nat × Nat)) (gs : List GoodEntry)
    (c : Catalog) : (processGoods m c gs).nextCatId = c.nextCatId := by
  have h := processGoods_catFields m gs c
  simp only [catFields, Prod.mk.injEq] at h
  exact h.2.2.2

/-! ## C5: category reconciliation on import -/

/-- The categories-phase result computed by `updatePriceCore` before the
goods loop: catalog after attachment, `categories_map` and
`new_categories_ids`. -/
def catPhaseOf (doc : PriceDoc) (c : Catalog) : CatPhase :=
  doc.categories.foldl catStep ⟨shopNameUpd doc c, [], []⟩

theorem shopNameUpd_shopCats (doc : PriceDoc) (c : Catalog) :
    (shopNameUpd doc c).shopCats = c.shopCats := by
  unfold shopNameUpd
  cases truthyName doc.shop <;> rfl

theorem updatePriceCore_shopCats (doc : PriceDoc) (c : Catalog) :
    (updatePriceCore doc c).2.shopCats = ((catPhaseOf doc c).cat.shopCats.filter
      (fun k => !(c.shopCats.contains k && !((catPhaseOf doc c).newIds.contains k)))) := by
  unfold updatePriceCore catPhaseOf
  dsimp only
  split
  · dsimp only
    rw [shopNameUpd_shopCats]
  · dsimp only
    rw [processGoods_shopCats, shopNameUpd_shopCats]

theorem updatePriceCore_cats (doc : PriceDoc) (c : Catalog) :
    (updatePriceCore doc c).2.cats = (catPhaseOf doc c).cat.cats := by
  unfold updatePriceCore catPhaseOf
  dsimp only
  split
  · rfl
  · dsimp only
    rw [processGoods_cats]

theorem resolveCat_congr (c c' : Catalog) (h : c.cats = c'.cats) (n : String) :
    resolveCat c n = resolveCat c' n := by
  unfold resolveCat
  rw [h]

/-- C5 (amended): after an import, a previously attached category not in
`new_categories_ids` is detached; a category in `new_categories_ids` ends
attached; and `new_categories_ids` holds exactly the store pks to which
some feed entry bearing a truthy name and a truthy external id resolves by
get-or-create on the name.  (The original claim fails for entries without
a truthy id: they are attached during the loop but removed by the
reconciliation, see the counterexample.) -/
theorem import_category_reconciliation (doc : PriceDoc) (c : Catalog) (k : Nat) :
    (k ∈ c.shopCats → k ∉ (catPhaseOf doc c).newIds →
      k ∉ (updatePriceCore doc c).2.shopCats) ∧
    (k ∈ (catPhaseOf doc c).newIds → k ∈ (updatePriceCore doc c).2.shopCats) ∧
    (k ∈ (catPhaseOf doc c).newIds ↔
      ∃ ce ∈ doc.categories, ∃ n y, truthyName ce.name = some n ∧
        truthyId ce.id = some y ∧ resolveCat (updatePriceCore doc c).2 n = some k) := by
  refine ⟨?_, ?_, ?_⟩
  · intro h1 h2 hmem
    rw [updatePriceCore_shopCats] at hmem
    have hpred := (List.mem_filter.mp hmem).2
    have hc1 : c.shopCats.contains k = true := List.elem_eq_true_of_mem h1
    have hc2 : (catPhaseOf doc c).newIds.contains k = false := by
      cases hcc : (catPhaseOf doc c).newIds.contains k
      · rfl
      · exact absurd (List.mem_of_elem_eq_true hcc) h2
    rw [hc1, hc2] at hpred
    simp at hpred
  · intro hk
    rw [updatePriceCore_shopCats]
    have hmem : k ∈ (catPhaseOf doc c).cat.shopCats := by
      refine catFold_newIds_subset doc.categories _ ?_ k hk
      intro x hx
      simp at hx
    refine List.mem_filter.mpr ⟨hmem, ?_⟩
    have hc2 : (catPhaseOf doc c).newIds.contains k = true := List.elem_eq_true_of_mem hk
    rw [hc2]
    simp
  · have hchar : k ∈ (catPhaseOf doc c).newIds ↔ k ∈ ([] : List Nat) ∨
        ∃ ce ∈ doc.categories, ∃ n y, truthyName ce.name = some n ∧
          truthyId ce.id = some y ∧ resolveCat (catPhaseOf doc c).cat n = some k :=
      catFold_mem_newIds doc.categories ⟨shopNameUpd doc c, [], []⟩ k
    have hcats := updatePriceCore_cats doc c
    constructor
    · intro hk
      rcases (hchar.mp hk) with hfalse | ⟨ce, hce, n, y, hn, hy, hres⟩
      · simp at hfalse
      · refine ⟨ce, hce, n, y, hn, hy, ?_⟩
        rw [resolveCat_congr _ _ hcats]
        exact hres
    · rintro ⟨ce, hce, n, y, hn, hy, hres⟩
      refine hchar.mpr (Or.inr ⟨ce, hce, n, y, hn, hy, ?_⟩)
      rw [← resolveCat_congr _ _ hcats]
      exact hres

/-- Catalog with categories `"A"` (pk 1) and `"B"` (pk 2), only `"B"`
attached to the shop. -/
def reconCatalog : Catalog :=
  { emptyCatalog with shopCats := [2], cats := [⟨1, "A"⟩, ⟨2, "B"⟩], nextCatId := 3 }

/-- Feed naming only category `"A"`, with a truthy external id. -/
def reconDoc : PriceDoc :=
  { shop := none,
    categories := [⟨some 7, some "A"⟩],
    goods := [⟨some 10, some "P", some 7, some 4, some 5, none, none, []⟩] }

theorem import_category_reconciliation_witness :
    2 ∉ (updatePriceCore reconDoc reconCatalog).2.shopCats ∧
    1 ∈ (updatePriceCore reconDoc reconCatalog).2.shopCats :=
  ⟨(import_category_reconciliation reconDoc reconCatalog 2).1 (by decide) (by decide),
   (import_category_reconciliation reconDoc reconCatalog 1).2.1 (by decide)⟩

/-! ## Resolvers and basic lemmas for the goods phase -/

/-- pk of the first product named `n`. -/
def resolveProduct (c : Catalog) (n : String) : Option Nat :=
  (c.products.find? (fun p => p.name == n)).map ProductR.id

/-- The first listing with external id `e`. -/
def piAt (c : Catalog) (e : Nat) : Option PInfoR :=
  c.pis.find? (fun r => r.externalId == e)

/-- pk of the first listing with external id `e`. -/
def piIdAt (c : Catalog) (e : Nat) : Option Nat :=
  (piAt c e).map PInfoR.id

/-- pk of the first parameter named `n`. -/
def resolveParam (c : Catalog) (n : String) : Option Nat :=
  (c.params.find? (fun p => p.name == n)).map ParamR.id

/-- The first parameter value for key (listing pk, parameter pk). -/
def ppAt (c : Catalog) (piId prmId : Nat) : Option PParamR :=
  c.pparams.find? (fun r => r.productInfo == piId && r.parameter == prmId)

/-- Value columns of a listing (everything `update_or_create` writes). -/
def piVals (r : PInfoR) : Nat × String × Nat × ℚ × ℚ :=
  (r.product, r.model, r.quantity, r.price, r.priceRrc)

/-- The parameter writes a row performs: entries with a nonempty name and
a non-`None` value, in order. -/
def validParams (g : GoodEntry) : List (String × String) :=
  g.parameters.filterMap (fun pv =>
    match pv.2 with
    | some v => if pv.1 = "" then none else some (pv.1, v)
    | none => none)

/-- The last value the row writes for parameter name `pn` (a duplicated
name inside one row is overwritten by its later occurrence). -/
def lastParamVal (g : GoodEntry) (pn : String) : Option String :=
  ((validParams g).filter (fun q => q.1 == pn)).getLast?.map Prod.snd

/-- `pis` table and its counter. -/
def piFields (c : Catalog) : List PInfoR × Nat :=
  (c.pis, c.nextPiId)

/-- `params` table, its counter, and the `pparams` table. -/
def paramFields (c : Catalog) : List ParamR × Nat × List PParamR :=
  (c.params, c.nextParamId, c.pparams)

/-- `products` table and its counter. -/
def productFields (c : Catalog) : List ProductR × Nat :=
  (c.products, c.nextProductId)

theorem find?_append_some {α : Type} (p : α → Bool) (l t : List α) (x : α)
    (h : l.find? p = some x) : (l ++ t).find? p = some x := by
  rw [List.find?_append, h]
  rfl

/-! ### getOrCreateProduct -/

theorem getOrCreateProduct_piFields (c : Catalog) (n : String) (d : Nat) :
    piFields (getOrCreateProduct c n d).2 = piFields c := by
  unfold getOrCreateProduct
  cases c.products.find? (fun p => p.name == n) <;> rfl

theorem getOrCreateProduct_paramFields (c : Catalog) (n : String) (d : Nat) :
    paramFields (getOrCreateProduct c n d).2 = paramFields c := by
  unfold getOrCreateProduct
  cases c.products.find? (fun p => p.name == n) <;> rfl

theorem getOrCreateProduct_products_append (c : Catalog) (n : String) (d : Nat) :
    ∃ t, (getOrCreateProduct c n d).2.products = c.products ++ t := by
  unfold getOrCreateProduct
  cases c.products.find? (fun p => p.name == n) with
  | none => exact ⟨[⟨c.nextProductId, n, d⟩], rfl⟩
  | some p => exact ⟨[], (List.append_nil _).symm⟩

theorem getOrCreateProduct_resolve (c : Catalog) (n : String) (d : Nat) :
    resolveProduct (getOrCreateProduct c n d).2 n = some (getOrCreateProduct c n d).1 := by
  unfold getOrCreateProduct resolveProduct
  cases h : c.products.find? (fun p => p.name == n) with
  | some p => simp [h]
  | none => simp [h, List.find?_append]

theorem getOrCreateProduct_found (c : Catalog) (n : String) (d k : Nat)
    (h : resolveProduct c n = some k) : getOrCreateProduct c n d = (k, c) := by
  unfold resolveProduct at h
  unfold getOrCreateProduct
  cases hf : c.products.find? (fun p => p.name == n) with
  | none => rw [hf] at h; simp at h
  | some p =>
    rw [hf] at h
    have hpk : p.id = k := by simpa using h
    dsimp only
    rw [hpk]

theorem resolveProduct_of_append (c c' : Catalog) (t : List ProductR)
    (h : c'.products = c.products ++ t) (n : String) (k : Nat)
    (hk : resolveProduct c n = some k) : resolveProduct c' n = some k := by
  unfold resolveProduct at *
  cases hf : c.products.find? (fun p => p.name == n) with
  | none => rw [hf] at hk; simp at hk
  | some p =>
    rw [hf] at hk
    rw [h, find?_append_some _ _ _ _ hf]
    exact hk

/-! ### upsertPi -/

theorem upsertPi_productFields (c : Catalog) (e pid : Nat) (mdl : String) (q : Nat)
    (pr rrc : ℚ) : productFields (upsertPi c e pid mdl q pr rrc).2 = productFields c := by
  unfold upsertPi
  cases c.pis.find? (fun r => r.externalId == e) <;> rfl

theorem upsertPi_paramFields (c : Catalog) (e pid : Nat) (mdl : String) (q : Nat)
    (pr rrc : ℚ) : paramFields (upsertPi c e pid mdl q pr rrc).2 = paramFields c := by
  unfold upsertPi
  cases c.pis.find? (fun r => r.externalId == e) <;> rfl

theorem upsertPi_found (c : Catalog) (e pid : Nat) (mdl : String) (q : Nat)
    (pr rrc : ℚ) (r : PInfoR) (h : piAt c e = some r) :
    upsertPi c e pid mdl q pr rrc =
      (r.id, { c with pis := c.pis.map (fun s =>
        if s.externalId == e then
          { s with product := pid, model := mdl, quantity := q, price := pr, priceRrc := rrc }
        else s) }) := by
  unfold piAt at h
  unfold upsertPi
  rw [h]

theorem upsertPi_notfound (c : Catalog) (e pid : Nat) (mdl : String) (q : Nat)
    (pr rrc : ℚ) (h : piAt c e = none) :
    upsertPi c e pid mdl q pr rrc =
      (c.nextPiId,
       { c with
          pis := c.pis ++ [⟨c.nextPiId, e, pid, mdl, q, pr, rrc⟩],
          nextPiId := c.nextPiId + 1 }) := by
  unfold piAt at h
  unfold upsertPi
  rw [h]

theorem upsertPi_piAt (c : Catalog) (e pid : Nat) (mdl : String) (q : Nat)
    (pr rrc : ℚ) :
    piAt (upsertPi c e pid mdl q pr rrc).2 e =
      some ⟨(upsertPi c e pid mdl q pr rrc).1, e, pid, mdl, q, pr, rrc⟩ := by
  cases h : piAt c e with
  | some r =>
    rw [upsertPi_found c e pid mdl q pr rrc r h]
    have he : r.externalId = e := by
      have := List.find?_some h
      simpa using this
    unfold piAt at h ⊢
    rw [List.find?_map]
    have hcomp : ((fun s : PInfoR => s.externalId == e) ∘ (fun s : PInfoR =>
        if s.externalId == e then
          { s with product := pid, model := mdl, quantity := q, price := pr, priceRrc := rrc }
        else s)) = (fun s : PInfoR => s.externalId == e) := by
      funext s
      by_cases hs : s.externalId = e
      · simp [Function.comp, hs]
      · simp [Function.comp, hs]
    rw [hcomp, h]
    simp [he]
  | none =>
    rw [upsertPi_notfound c e pid mdl q pr rrc h]
    unfold piAt at h ⊢
    dsimp only
    rw [List.find?_append, h]
    simp

theorem upsertPi_allRows (c : Catalog) (e pid : Nat) (mdl : String) (q : Nat)
    (pr rrc : ℚ) :
    ∀ s ∈ (upsertPi c e pid mdl q pr rrc).2.pis, s.externalId = e →
      piVals s = (pid, mdl, q, pr, rrc) := by
  cases h : piAt c e with
  | some r =>
    rw [upsertPi_found c e pid mdl q pr rrc r h]
    intro s hs hse
    dsimp only at hs
    obtain ⟨s0, hs0, hmap⟩ := List.mem_map.mp hs
    by_cases h0 : s0.externalId = e
    · rw [← hmap]
      simp [h0, piVals]
    · rw [← hmap] at hse ⊢
      simp [h0] at hse
  | none =>
    rw [upsertPi_notfound c e pid mdl q pr rrc h]
    intro s hs hse
    dsimp only at hs
    rcases List.mem_append.mp hs with hs | hs
    · exfalso
      unfold piAt at h
      rw [List.find?_eq_none] at h
      exact h s hs (by simp [hse])
    · rw [List.mem_singleton.mp hs]
      rfl

/-! ### getOrCreateParam -/

theorem getOrCreateParam_piFields (c : Catalog) (n : String) :
    piFields (getOrCreateParam c n).2 = piFields c := by
  unfold getOrCreateParam
  cases c.params.find? (fun p => p.name == n) <;> rfl

theorem getOrCreateParam_productFields (c : Catalog) (n : String) :
    productFields (getOrCreateParam c n).2 = productFields c := by
  unfold getOrCreateParam
  cases c.params.find? (fun p => p.name == n) <;> rfl

theorem getOrCreateParam_pparams (c : Catalog) (n : String) :
    (getOrCreateParam c n).2.pparams = c.pparams := by
  unfold getOrCreateParam
  cases c.params.find? (fun p => p.name == n) <;> rfl

theorem getOrCreateParam_params_append (c : Catalog) (n : String) :
    ∃ t, (getOrCreateParam c n).2.params = c.params ++ t := by
  unfold getOrCreateParam
  cases c.params.find? (fun p => p.name == n) with
  | none => exact ⟨[⟨c.nextParamId, n⟩], rfl⟩
  | some p => exact ⟨[], (List.append_nil _).symm⟩

theorem getOrCreateParam_resolve (c : Catalog) (n : String) :
    resolveParam (getOrCreateParam c n).2 n = some (getOrCreateParam c n).1 := by
  unfold getOrCreateParam resolveParam
  cases h : c.params.find? (fun p => p.name == n) with
  | some p => simp [h]
  | none => simp [h, List.find?_append]

theorem getOrCreateParam_found (c : Catalog) (n : String) (k : Nat)
    (h : resolveParam c n = some k) : getOrCreateParam c n = (k, c) := by
  unfold resolveParam at h
  unfold getOrCreateParam
  cases hf : c.params.find? (fun p => p.name == n) with
  | none => rw [hf] at h; simp at h
  | some p =>
    rw [hf] at h
    have hpk : p.id = k := by simpa using h
    dsimp only
    rw [hpk]

theorem resolveParam_of_append (c c' : Catalog) (t : List ParamR)
    (h : c'.params = c.params ++ t) (n : String) (k : Nat)
    (hk : resolveParam c n = some k) : resolveParam c' n = some k := by
  unfold resolveParam at *
  cases hf : c.params.find? (fun p => p.name == n) with
  | none => rw [hf] at hk; simp at hk
  | some p =>
    rw [hf] at hk
    rw [h, find?_append_some _ _ _ _ hf]
    exact hk

/-! ### upsertPParam -/

theorem upsertPParam_piFields (c : Catalog) (a b : Nat) (v : String) :
    piFields (upsertPParam c a b v) = piFields c := by
  unfold upsertPParam
  split <;> rfl

theorem upsertPParam_productFields (c : Catalog) (a b : Nat) (v : String) :
    productFields (upsertPParam c a b v) = productFields c := by
  unfold upsertPParam
  split <;> rfl

theorem upsertPParam_params (c : Catalog) (a b : Nat) (v : String) :
    (upsertPParam c a b v).params = c.params ∧
    (upsertPParam c a b v).nextParamId = c.nextParamId := by
  unfold upsertPParam
  split <;> exact ⟨rfl, rfl⟩

theorem upsertPParam_ppAt (c : Catalog) (a b : Nat) (v : String) :
    ppAt (upsertPParam c a b v) a b = some ⟨a, b, v⟩ := by
  unfold upsertPParam ppAt
  split
  · rename_i hany
    rw [List.any_eq_true] at hany
    obtain ⟨r0, hr0, hp0⟩ := hany
    have hsome : (c.pparams.find? (fun r => r.productInfo == a && r.parameter == b)).isSome := by
      rw [List.find?_isSome]
      exact ⟨r0, hr0, hp0⟩
    obtain ⟨r1, hr1⟩ := Option.isSome_iff_exists.mp hsome
    dsimp only
    rw [List.find?_map]
    have hcomp : ((fun r : PParamR => r.productInfo == a && r.parameter == b) ∘
        (fun r : PParamR =>
          if r.productInfo == a && r.parameter == b then { r with value := v } else r))
        = (fun r : PParamR => r.productInfo == a && r.parameter == b) := by
      funext r
      cases hq : (r.productInfo == a && r.parameter == b) <;>
        simp [Function.comp, hq]
    rw [hcomp, hr1]
    have hk := List.find?_some hr1
    have h1 := (Bool.and_eq_true_iff.mp hk).1
    have h2 := (Bool.and_eq_true_iff.mp hk).2
    simp only [beq_iff_eq] at h1 h2
    simp [h1, h2]
  · rename_i hany
    dsimp only
    have hnone : c.pparams.find? (fun r => r.productInfo == a && r.parameter == b) = none := by
      rw [List.find?_eq_none]
      intro r hr hp
      exact hany (List.any_eq_true.mpr ⟨r, hr, hp⟩)
    rw [List.find?_append, hnone]
    simp

theorem upsertPParam_allRows (c : Catalog) (a b : Nat) (v : String) :
    ∀ r ∈ (upsertPParam c a b v).pparams, r.productInfo = a → r.parameter = b →
      r.value = v := by
  unfold upsertPParam
  split
  · intro r hr h1 h2
    dsimp only at hr
    obtain ⟨r0, hr0, hmap⟩ := List.mem_map.mp hr
    by_cases h0 : (r0.productInfo == a && r0.parameter == b) = true
    · rw [← hmap]
      simp [h0]
    · rw [if_neg h0] at hmap
      rw [← hmap] at h1 h2
      exact absurd (by simp [h1, h2]) h0
  · rename_i hany
    intro r hr h1 h2
    dsimp only at hr
    rcases List.mem_append.mp hr with hr | hr
    · exact absurd (List.any_eq_true.mpr ⟨r, hr, by simp [h1, h2]⟩) hany
    · rw [List.mem_singleton.mp hr]

/-! ### Primary-key integrity (database-enforced invariants) -/

/-- Database integrity of the `Parameter` table: primary keys are unique
and the autoincrement counter is ahead of every row. -/
structure WfParams (c : Catalog) : Prop where
  nodup : (c.params.map ParamR.id).Nodup
  fresh : ∀ p ∈ c.params, p.id < c.nextParamId

/-- Database integrity of the `ProductInfo` table: primary keys are unique
and the autoincrement counter is ahead of every row. -/
structure WfPis (c : Catalog) : Prop where
  nodup : (c.pis.map PInfoR.id).Nodup
  fresh : ∀ r ∈ c.pis, r.id < c.nextPiId

theorem wfParams_of_fields_eq (c c' : Catalog) (hp : c'.params = c.params)
    (hn : c'.nextParamId = c.nextParamId) (hw : WfParams c) : WfParams c' :=
  ⟨hp ▸ hw.nodup, fun p hp' => hn ▸ hw.fresh p (hp ▸ hp')⟩

theorem wfPis_of_fields_eq (c c' : Catalog) (hp : c'.pis = c.pis)
    (hn : c'.nextPiId = c.nextPiId) (hw : WfPis c) : WfPis c' :=
  ⟨hp ▸ hw.nodup, fun p hp' => hn ▸ hw.fresh p (hp ▸ hp')⟩

theorem wfParams_getOrCreateParam (c : Catalog) (n : String) (hw : WfParams c) :
    WfParams (getOrCreateParam c n).2 := by
  unfold getOrCreateParam
  cases c.params.find? (fun p => p.name == n) with
  | some p => exact hw
  | none =>
    refine ⟨?_, ?_⟩
    · rw [List.map_append]
      refine List.Nodup.append hw.nodup (List.nodup_singleton _) ?_
      intro a ha hb
      obtain ⟨p, hp, hpid⟩ := List.mem_map.mp ha
      have := hw.fresh p hp
      simp at hb
      omega
    · intro p hp
      rcases List.mem_append.mp hp with hp | hp
      · have := hw.fresh p hp
        dsimp only
        omega
      · rw [List.mem_singleton.mp hp]
        dsimp only
        omega

theorem wfPis_upsertPi (c : Catalog) (e pid : Nat) (mdl : String) (q : Nat)
    (pr rrc : ℚ) (hw : WfPis c) : WfPis (upsertPi c e pid mdl q pr rrc).2 := by
  cases h : piAt c e with
  | some r =>
    rw [upsertPi_found c e pid mdl q pr rrc r h]
    refine ⟨?_, ?_⟩
    · have hmm : (c.pis.map (fun s =>
          if s.externalId == e then
            { s with product := pid, model := mdl, quantity := q, price := pr, priceRrc := rrc }
          else s)).map PInfoR.id = c.pis.map PInfoR.id := by
        rw [List.map_map]
        refine List.map_congr_left ?_
        intro s hs
        by_cases h0 : s.externalId = e <;> simp [Function.comp, h0]
      dsimp only
      rw [hmm]
      exact hw.nodup
    · intro p hp
      dsimp only at hp ⊢
      obtain ⟨s, hs, hmap⟩ := List.mem_map.mp hp
      have := hw.fresh s hs
      by_cases h0 : s.externalId = e <;> rw [← hmap] <;> simp [h0] <;> omega
  | none =>
    rw [upsertPi_notfound c e pid mdl q pr rrc h]
    refine ⟨?_, ?_⟩
    · dsimp only
      rw [List.map_append]
      refine List.Nodup.append hw.nodup (List.nodup_singleton _) ?_
      intro a ha hb
      obtain ⟨p, hp, hpid⟩ := List.mem_map.mp ha
      have := hw.fresh p hp
      simp at hb
      omega
    · intro p hp
      dsimp only at hp ⊢
      rcases List.mem_append.mp hp with hp | hp
      · have := hw.fresh p hp
        omega
      · rw [List.mem_singleton.mp hp]
        dsimp only
        omega

theorem wfParams_paramStep (piId : Nat) (c : Catalog) (pv : String × Option String)
    (hw : WfParams c) : WfParams (paramStep piId c pv) := by
  obtain ⟨pn, pv2⟩ := pv
  unfold paramStep
  cases pv2 with
  | none => exact hw
  | some v =>
    dsimp only
    by_cases hpn : pn = ""
    · rw [if_pos hpn]
      exact hw
    · rw [if_neg hpn]
      have h1 := wfParams_getOrCreateParam c pn hw
      have h2 := upsertPParam_params (getOrCreateParam c pn).2 piId
        (getOrCreateParam c pn).1 v
      exact wfParams_of_fields_eq _ _ h2.1 h2.2 h1

theorem wfParams_paramFold (piId : Nat) (l : List (String × Option String)) :
    ∀ (c : Catalog), WfParams c → WfParams (l.foldl (paramStep piId) c) := by
  induction l with
  | nil => intro c hw; exact hw
  | cons pv rest ih =>
    intro c hw
    rw [List.foldl_cons]
    exact ih _ (wfParams_paramStep piId c pv hw)

theorem wfPis_paramStep (piId : Nat) (c : Catalog) (pv : String × Option String)
    (hw : WfPis c) : WfPis (paramStep piId c pv) := by
  obtain ⟨pn, pv2⟩ := pv
  unfold paramStep
  cases pv2 with
  | none => exact hw
  | some v =>
    dsimp only
    by_cases hpn : pn = ""
    · rw [if_pos hpn]
      exact hw
    · rw [if_neg hpn]
      have h1 : piFields (upsertPParam (getOrCreateParam c pn).2 piId
          (getOrCreateParam c pn).1 v) = piFields c := by
        rw [upsertPParam_piFields, getOrCreateParam_piFields]
      simp only [piFields, Prod.mk.injEq] at h1
      exact wfPis_of_fields_eq _ _ h1.1 h1.2 hw

theorem wfPis_paramFold (piId : Nat) (l : List (String × Option String)) :
    ∀ (c : Catalog), WfPis c → WfPis (l.foldl (paramStep piId) c) := by
  induction l with
  | nil => intro c hw; exact hw
  | cons pv rest ih =>
    intro c hw
    rw [List.foldl_cons]
    exact ih _ (wfPis_paramStep piId c pv hw)

theorem wfParams_rowStep (m : List (Nat × Nat)) (c : Catalog) (g : GoodEntry)
    (hw : WfParams c) : WfParams (rowStep m c g) := by
  unfold rowStep
  cases g.id <;> cases g.name <;> cases g.category <;> cases g.quantity <;>
    cases g.price <;> (dsimp only; try exact hw)
  rename_i e nm cy q pr
  cases lookupCMap m cy with
  | none => exact hw
  | some cat =>
    dsimp only
    refine wfParams_paramFold _ _ _ ?_
    have h1 : paramFields (upsertPi (getOrCreateProduct c nm cat).2 e
        (getOrCreateProduct c nm cat).1 (g.model.getD "") q pr (g.priceRrc.getD 0)).2
        = paramFields c := by
      rw [upsertPi_paramFields, getOrCreateProduct_paramFields]
    simp only [paramFields, Prod.mk.injEq] at h1
    exact wfParams_of_fields_eq _ _ h1.1 h1.2.1 hw

theorem wfPis_rowStep (m : List (Nat × Nat)) (c : Catalog) (g : GoodEntry)
    (hw : WfPis c) : WfPis (rowStep m c g) := by
  unfold rowStep
  cases g.id <;> cases g.name <;> cases g.category <;> cases g.quantity <;>
    cases g.price <;> (dsimp only; try exact hw)
  rename_i e nm cy q pr
  cases lookupCMap m cy with
  | none => exact hw
  | some cat =>
    dsimp only
    refine wfPis_paramFold _ _ _ ?_
    refine wfPis_upsertPi _ e _ _ q pr _ ?_
    have h1 := getOrCreateProduct_piFields c nm cat
    simp only [piFields, Prod.mk.injEq] at h1
    exact wfPis_of_fields_eq _ _ h1.1 h1.2 hw

theorem wfParams_processGoods (m : List (Nat × Nat)) (gs : List GoodEntry) :
    ∀ (c : Catalog), WfParams c → WfParams (processGoods m c gs) := by
  induction gs with
  | nil => intro c hw; exact hw
  | cons g rest ih =>
    intro c hw
    exact ih _ (wfParams_rowStep m c g hw)

theorem wfPis_processGoods (m : List (Nat × Nat)) (gs : List GoodEntry) :
    ∀ (c : Catalog), WfPis c → WfPis (processGoods m c gs) := by
  induction gs with
  | nil => intro c hw; exact hw
  | cons g rest ih =>
    intro c hw
    exact ih _ (wfPis_rowStep m c g hw)

/-! ### The parameters loop: last write wins -/

/-- The last value a parameter list writes for name `pn` (skipping entries
with an empty name or a `None` value, as the loop does). -/
def lastValOf : List (String × Option String) → String → Option String
  | [], _ => none
  | pv :: rest, pn =>
    match lastValOf rest pn with
    | some v => some v
    | none =>
      match pv.2 with
      | some v => if pv.1 = "" then none else (if pv.1 = pn then some v else none)
      | none => none

theorem lastValOf_none_not_written (l : List (String × Option String)) (pn : String) :
    lastValOf l pn = none → ∀ pv ∈ l, pv.2 = none ∨ pv.1 = "" ∨ pv.1 ≠ pn := by
  induction l with
  | nil => intro _ pv hpv; simp at hpv
  | cons pv0 rest ih =>
    intro h pv hpv
    unfold lastValOf at h
    cases hrest : lastValOf rest pn with
    | some v => rw [hrest] at h; simp at h
    | none =>
      rw [hrest] at h
      dsimp only at h
      rcases List.mem_cons.mp hpv with rfl | hmem
      · cases h2 : pv.2 with
        | none => exact Or.inl rfl
        | some w =>
          rw [h2] at h
          dsimp only at h
          by_cases hemp : pv.1 = ""
          · exact Or.inr (Or.inl hemp)
          · rw [if_neg hemp] at h
            refine Or.inr (Or.inr ?_)
            intro hpn
            rw [if_pos hpn] at h
            exact Option.noConfusion h
      · exact ih hrest pv hmem

theorem resolveParam_congr_params (c c' : Catalog) (h : c'.params = c.params)
    (n : String) : resolveParam c' n = resolveParam c n := by
  unfold resolveParam
  rw [h]

theorem resolveParam_inj (c : Catalog) (hw : WfParams c) (n1 n2 : String)
    (k1 k2 : Nat) (h1 : resolveParam c n1 = some k1) (h2 : resolveParam c n2 = some k2)
    (hne : n1 ≠ n2) : k1 ≠ k2 := by
  unfold resolveParam at h1 h2
  cases hf1 : c.params.find? (fun p => p.name == n1) with
  | none => rw [hf1] at h1; simp at h1
  | some r1 =>
    cases hf2 : c.params.find? (fun p => p.name == n2) with
    | none => rw [hf2] at h2; simp at h2
    | some r2 =>
      rw [hf1] at h1
      rw [hf2] at h2
      have hk1 : r1.id = k1 := by simpa using h1
      have hk2 : r2.id = k2 := by simpa using h2
      have hm1 : r1 ∈ c.params := List.mem_of_find?_eq_some hf1
      have hm2 : r2 ∈ c.params := List.mem_of_find?_eq_some hf2
      have hn1 : r1.name = n1 := by simpa using List.find?_some hf1
      have hn2 : r2.name = n2 := by simpa using List.find?_some hf2
      intro hkk
      have : r1 = r2 := List.inj_on_of_nodup_map hw.nodup hm1 hm2 (by rw [hk1, hk2, hkk])
      exact hne (hn1 ▸ hn2 ▸ congrArg ParamR.name this)

theorem upsertPParam_preserve (c : Catalog) (a' b' : Nat) (v' : String)
    (piId prm : Nat) (v₀ : String) (hne : ¬(a' = piId ∧ b' = prm))
    (hv : ∀ r ∈ c.pparams, r.productInfo = piId → r.parameter = prm → r.value = v₀) :
    ∀ r ∈ (upsertPParam c a' b' v').pparams,
      r.productInfo = piId → r.parameter = prm → r.value = v₀ := by
  unfold upsertPParam
  split
  · intro r hr h1 h2
    dsimp only at hr
    obtain ⟨r0, hr0, hmap⟩ := List.mem_map.mp hr
    by_cases h0 : (r0.productInfo == a' && r0.parameter == b') = true
    · exfalso
      rw [← hmap] at h1 h2
      rw [if_pos h0] at h1 h2
      have ha := (Bool.and_eq_true_iff.mp h0).1
      have hb := (Bool.and_eq_true_iff.mp h0).2
      simp only [beq_iff_eq] at ha hb
      dsimp only at h1 h2
      exact hne ⟨by rw [← ha, h1], by rw [← hb, h2]⟩
    · rw [if_neg h0] at hmap
      rw [← hmap] at h1 h2 ⊢
      exact hv r0 hr0 h1 h2
  · intro r hr h1 h2
    dsimp only at hr
    rcases List.mem_append.mp hr with hr | hr
    · exact hv r hr h1 h2
    · exfalso
      rw [List.mem_singleton.mp hr] at h1 h2
      exact hne ⟨h1, h2⟩

theorem ppAt_isSome_upsertPParam (c : Catalog) (a b a' b' : Nat) (v : String)
    (h : (ppAt c a b).isSome) : (ppAt (upsertPParam c a' b' v) a b).isSome := by
  unfold ppAt at *
  unfold upsertPParam
  split
  · dsimp only
    rw [List.find?_map]
    have hcomp : ((fun r : PParamR => r.productInfo == a && r.parameter == b) ∘
        (fun r : PParamR =>
          if r.productInfo == a' && r.parameter == b' then { r with value := v } else r))
        = (fun r : PParamR => r.productInfo == a && r.parameter == b) := by
      funext r
      cases hq : (r.productInfo == a' && r.parameter == b') <;>
        simp [Function.comp, hq]
    rw [hcomp]
    obtain ⟨r1, hr1⟩ := Option.isSome_iff_exists.mp h
    rw [hr1]
    rfl
  · dsimp only
    obtain ⟨r1, hr1⟩ := Option.isSome_iff_exists.mp h
    rw [find?_append_some _ _ _ _ hr1]
    rfl

theorem ppAt_isSome_paramStep (piId' : Nat) (c : Catalog) (pv : String × Option String)
    (a b : Nat) (h : (ppAt c a b).isSome) : (ppAt (paramStep piId' c pv) a b).isSome := by
  obtain ⟨pn, pv2⟩ := pv
  unfold paramStep
  cases pv2 with
  | none => exact h
  | some v =>
    dsimp only
    by_cases hpn : pn = ""
    · rw [if_pos hpn]
      exact h
    · rw [if_neg hpn]
      refine ppAt_isSome_upsertPParam _ a b _ _ _ ?_
      have hpp := getOrCreateParam_pparams c pn
      unfold ppAt at h ⊢
      rw [hpp]
      exact h

theorem ppAt_isSome_paramFold (piId' : Nat) (l : List (String × Option String)) :
    ∀ (c : Catalog) (a b : Nat), (ppAt c a b).isSome →
      (ppAt (l.foldl (paramStep piId') c) a b).isSome := by
  induction l with
  | nil => intro c a b h; exact h
  | cons pv rest ih =>
    intro c a b h
    rw [List.foldl_cons]
    exact ih _ a b (ppAt_isSome_paramStep piId' c pv a b h)

theorem paramStep_params_append (piId : Nat) (c : Catalog)
    (pv : String × Option String) :
    ∃ t, (paramStep piId c pv).params = c.params ++ t := by
  obtain ⟨pn, pv2⟩ := pv
  unfold paramStep
  cases pv2 with
  | none => exact ⟨[], (List.append_nil _).symm⟩
  | some v =>
    dsimp only
    by_cases hpn : pn = ""
    · rw [if_pos hpn]
      exact ⟨[], (List.append_nil _).symm⟩
    · rw [if_neg hpn]
      obtain ⟨t, ht⟩ := getOrCreateParam_params_append c pn
      refine ⟨t, ?_⟩
      rw [(upsertPParam_params _ _ _ _).1, ht]

theorem resolveParam_paramStep_stable (piId : Nat) (c : Catalog)
    (pv : String × Option String) (n : String) (k : Nat)
    (h : resolveParam c n = some k) : resolveParam (paramStep piId c pv) n = some k := by
  obtain ⟨t, ht⟩ := paramStep_params_append piId c pv
  unfold resolveParam at *
  rw [ht]
  cases hf : c.params.find? (fun p => p.name == n) with
  | none => rw [hf] at h; simp at h
  | some p =>
    rw [hf] at h
    rw [find?_append_some _ _ _ _ hf]
    exact h

theorem paramFold_preserve (piId : Nat) (l : List (String × Option String)) :
    ∀ (c : Catalog) (prm : Nat) (pn₀ : String) (v₀ : String),
      WfParams c → resolveParam c pn₀ = some prm →
      (∀ pv ∈ l, pv.2 = none ∨ pv.1 = "" ∨ pv.1 ≠ pn₀) →
      (∀ r ∈ c.pparams, r.productInfo = piId → r.parameter = prm → r.value = v₀) →
      resolveParam (l.foldl (paramStep piId) c) pn₀ = some prm ∧
      (∀ r ∈ (l.foldl (paramStep piId) c).pparams,
        r.productInfo = piId → r.parameter = prm → r.value = v₀) := by
  induction l with
  | nil => intro c prm pn₀ v₀ _ hres _ hv; exact ⟨hres, hv⟩
  | cons pv rest ih =>
    intro c prm pn₀ v₀ hw hres hnw hv
    rw [List.foldl_cons]
    have hstep : resolveParam (paramStep piId c pv) pn₀ = some prm :=
      resolveParam_paramStep_stable piId c pv pn₀ prm hres
    refine ih _ prm pn₀ v₀ (wfParams_paramStep piId c pv hw) hstep
      (fun q hq => hnw q (by simp [hq])) ?_
    obtain ⟨pn, pv2⟩ := pv
    unfold paramStep
    cases pv2 with
    | none => exact hv
    | some v =>
      dsimp only
      by_cases hpn : pn = ""
      · rw [if_pos hpn]
        exact hv
      · rw [if_neg hpn]
        rcases hnw (pn, some v) (by simp) with hx | hx | hx
        · simp at hx
        · exact absurd hx hpn
        · have hc' : WfParams (getOrCreateParam c pn).2 := wfParams_getOrCreateParam c pn hw
          have hres' : resolveParam (getOrCreateParam c pn).2 pn₀ = some prm := by
            obtain ⟨t, ht⟩ := getOrCreateParam_params_append c pn
            unfold resolveParam at hres ⊢
            rw [ht]
            cases hf : c.params.find? (fun p => p.name == pn₀) with
            | none => rw [hf] at hres; simp at hres
            | some p =>
              rw [hf] at hres
              rw [find?_append_some _ _ _ _ hf]
              exact hres
          have hprm' : resolveParam (getOrCreateParam c pn).2 pn
              = some (getOrCreateParam c pn).1 := getOrCreateParam_resolve c pn
          have hneq : (getOrCreateParam c pn).1 ≠ prm :=
            resolveParam_inj _ hc' pn pn₀ _ prm hprm' hres' hx
          refine upsertPParam_preserve _ _ _ _ piId prm v₀
            (fun hcon => hneq hcon.2) ?_
          rw [getOrCreateParam_pparams]
          exact hv

theorem paramFold_lastVal (piId : Nat) (l : List (String × Option String)) :
    ∀ (c : Catalog) (pn : String) (v : String),
      WfParams c → lastValOf l pn = some v →
      ∃ prm, resolveParam (l.foldl (paramStep piId) c) pn = some prm ∧
        (∀ r ∈ (l.foldl (paramStep piId) c).pparams,
          r.productInfo = piId → r.parameter = prm → r.value = v) ∧
        (ppAt (l.foldl (paramStep piId) c) piId prm).isSome := by
  induction l with
  | nil => intro c pn v _ h; simp [lastValOf] at h
  | cons pv rest ih =>
    intro c pn v hw hlast
    rw [List.foldl_cons]
    unfold lastValOf at hlast
    cases hrest : lastValOf rest pn with
    | some v' =>
      rw [hrest] at hlast
      dsimp only at hlast
      have hv' : v' = v := by simpa using hlast
      rw [← hv']
      exact ih _ pn v' (wfParams_paramStep piId c pv hw) hrest
    | none =>
      rw [hrest] at hlast
      dsimp only at hlast
      obtain ⟨pn1, pv2⟩ := pv
      cases pv2 with
      | none => simp at hlast
      | some w =>
        dsimp only at hlast
        by_cases hpn1 : pn1 = ""
        · rw [if_pos hpn1] at hlast
          simp at hlast
        · rw [if_neg hpn1] at hlast
          by_cases hname : pn1 = pn
          · rw [if_pos hname] at hlast
            have hwv : w = v := by simpa using hlast
            subst hwv
            subst hname
            have hstep : paramStep piId c (pn1, some w)
                = upsertPParam (getOrCreateParam c pn1).2 piId
                    (getOrCreateParam c pn1).1 w := by
              unfold paramStep
              dsimp only
              rw [if_neg hpn1]
            rw [hstep]
            set c2 := upsertPParam (getOrCreateParam c pn1).2 piId
              (getOrCreateParam c pn1).1 w with hc2
            have hwf2 : WfParams c2 := by
              refine wfParams_of_fields_eq _ _ (upsertPParam_params _ _ _ _).1
                (upsertPParam_params _ _ _ _).2 (wfParams_getOrCreateParam c pn1 hw)
            have hres2 : resolveParam c2 pn1 = some (getOrCreateParam c pn1).1 := by
              rw [resolveParam_congr_params (getOrCreateParam c pn1).2 c2
                (upsertPParam_params _ _ _ _).1]
              exact getOrCreateParam_resolve c pn1
            have hv2 : ∀ r ∈ c2.pparams, r.productInfo = piId →
                r.parameter = (getOrCreateParam c pn1).1 → r.value = w :=
              upsertPParam_allRows _ _ _ _
            obtain ⟨hres3, hv3⟩ := paramFold_preserve piId rest c2
              (getOrCreateParam c pn1).1 pn1 w hwf2 hres2
              (lastValOf_none_not_written rest pn1 hrest) hv2
            refine ⟨(getOrCreateParam c pn1).1, hres3, hv3, ?_⟩
            refine ppAt_isSome_paramFold piId rest c2 _ _ ?_
            rw [hc2, upsertPParam_ppAt]
            rfl
          · rw [if_neg hname] at hlast
            simp at hlast

/-! ## C6: best-effort row processing -/

theorem paramStep_piFields (piId : Nat) (c : Catalog) (pv : String × Option String) :
    piFields (paramStep piId c pv) = piFields c := by
  obtain ⟨pn, pv2⟩ := pv
  unfold paramStep
  cases pv2 with
  | none => rfl
  | some v =>
    dsimp only
    by_cases hpn : pn = ""
    · rw [if_pos hpn]
    · rw [if_neg hpn, upsertPParam_piFields, getOrCreateParam_piFields]

theorem paramStep_productFields (piId : Nat) (c : Catalog)
    (pv : String × Option String) :
    productFields (paramStep piId c pv) = productFields c := by
  obtain ⟨pn, pv2⟩ := pv
  unfold paramStep
  cases pv2 with
  | none => rfl
  | some v =>
    dsimp only
    by_cases hpn : pn = ""
    · rw [if_pos hpn]
    · rw [if_neg hpn, upsertPParam_productFields, getOrCreateParam_productFields]

theorem paramFold_piFields (piId : Nat) (l : List (String × Option String))
    (c : Catalog) : piFields (l.foldl (paramStep piId) c) = piFields c :=
  foldl_proj (paramStep piId) piFields (paramStep_piFields piId) l c

theorem paramFold_productFields (piId : Nat) (l : List (String × Option String))
    (c : Catalog) : productFields (l.foldl (paramStep piId) c) = productFields c :=
  foldl_proj (paramStep piId) productFields (paramStep_productFields piId) l c

theorem resolveProduct_congr (c c' : Catalog) (h : c'.products = c.products)
    (n : String) : resolveProduct c' n = resolveProduct c n := by
  unfold resolveProduct
  rw [h]

theorem piAt_congr (c c' : Catalog) (h : c'.pis = c.pis) (e : Nat) :
    piAt c' e = piAt c e := by
  unfold piAt
  rw [h]

/-- A row failing the required-field or category check leaves the catalog
untouched. -/
theorem rowStep_skipped (m : List (Nat × Nat)) (c : Catalog) (g : GoodEntry)
    (h : rowSkipped m g = true) : rowStep m c g = c := by
  obtain ⟨gid, gnm, gcy, gq, gpr, grrc, gmdl, gparams⟩ := g
  unfold rowSkipped at h
  unfold rowStep
  cases gid <;> cases gnm <;> cases gcy <;> cases gq <;> cases gpr <;>
    (dsimp only; try rfl)
  rename_i e nm cy q pr
  dsimp only at h
  cases hc : lookupCMap m cy with
  | none => rfl
  | some cat => rw [hc] at h; simp at h

/-- Upsert effect of one processed row: the product resolves by name, the
listing at the row's external id carries exactly the row's model, quantity,
price and recommended price and points at that product, and every
parameter name the row writes ends at its last written value under the
(listing, parameter) key. -/
theorem rowStep_upserts (m : List (Nat × Nat)) (c : Catalog) (g : GoodEntry)
    (e : Nat) (nm : String) (cy q : Nat) (pr : ℚ) (cat : Nat)
    (hw : WfParams c)
    (hid : g.id = some e) (hnm : g.name = some nm) (hcy : g.category = some cy)
    (hq : g.quantity = some q) (hpr : g.price = some pr)
    (hcat : lookupCMap m cy = some cat) :
    ∃ pid rid,
      resolveProduct (rowStep m c g) nm = some pid ∧
      piAt (rowStep m c g) e
        = some ⟨rid, e, pid, g.model.getD "", q, pr, g.priceRrc.getD 0⟩ ∧
      ∀ pn v, lastValOf g.parameters pn = some v →
        ∃ prm, resolveParam (rowStep m c g) pn = some prm ∧
          (ppAt (rowStep m c g) rid prm).isSome ∧
          ∀ r ∈ (rowStep m c g).pparams, r.productInfo = rid → r.parameter = prm →
            r.value = v := by
  set rp := getOrCreateProduct c nm cat with hrp
  set ri := upsertPi rp.2 e rp.1 (g.model.getD "") q pr (g.priceRrc.getD 0) with hri
  have hrow : rowStep m c g = g.parameters.foldl (paramStep ri.1) ri.2 := by
    unfold rowStep
    rw [hid, hnm, hcy, hq, hpr]
    dsimp only
    rw [hcat]
  refine ⟨rp.1, ri.1, ?_, ?_, ?_⟩
  · rw [hrow]
    have h1 := paramFold_productFields ri.1 g.parameters ri.2
    have h2 : productFields ri.2 = productFields rp.2 :=
      upsertPi_productFields rp.2 e rp.1 (g.model.getD "") q pr (g.priceRrc.getD 0)
    have h3 := h1.trans h2
    simp only [productFields, Prod.mk.injEq] at h3
    rw [resolveProduct_congr rp.2 _ h3.1]
    exact getOrCreateProduct_resolve c nm cat
  · rw [hrow]
    have h1 := paramFold_piFields ri.1 g.parameters ri.2
    simp only [piFields, Prod.mk.injEq] at h1
    rw [piAt_congr ri.2 _ h1.1]
    exact upsertPi_piAt rp.2 e rp.1 (g.model.getD "") q pr (g.priceRrc.getD 0)
  · intro pn v hlast
    rw [hrow]
    have hw2 : WfParams ri.2 := by
      have h1 : paramFields ri.2 = paramFields c := by
        rw [hri]
        rw [upsertPi_paramFields, hrp, getOrCreateProduct_paramFields]
      simp only [paramFields, Prod.mk.injEq] at h1
      exact wfParams_of_fields_eq _ _ h1.1 h1.2.1 hw
    obtain ⟨prm, h1, h2, h3⟩ := paramFold_lastVal ri.1 g.parameters ri.2 pn v hw2 hlast
    exact ⟨prm, h1, h3, h2⟩

/-- C6: a goods row missing a required field or an unresolvable category is
skipped and processing continues with the remaining rows; a row with all
required fields and a resolvable category is upserted (product by name,
listing by external id with the new quantity and price, each parameter
value by listing and parameter name, last write winning); and the response
reports the count of processed rows next to the count updated. -/
theorem import_rows_best_effort (m : List (Nat × Nat)) (c : Catalog) (g : GoodEntry)
    (rest : List GoodEntry) (doc : PriceDoc) (d : Catalog) :
    (rowSkipped m g = true → processGoods m c (g :: rest) = processGoods m c rest) ∧
    (∀ e nm cy q pr cat, WfParams c → g.id = some e → g.name = some nm →
      g.category = some cy → g.quantity = some q → g.price = some pr →
      lookupCMap m cy = some cat →
      ∃ pid rid,
        resolveProduct (rowStep m c g) nm = some pid ∧
        piAt (rowStep m c g) e
          = some ⟨rid, e, pid, g.model.getD "", q, pr, g.priceRrc.getD 0⟩ ∧
        ∀ pn v, lastValOf g.parameters pn = some v →
          ∃ prm, resolveParam (rowStep m c g) pn = some prm ∧
            (ppAt (rowStep m c g) rid prm).isSome ∧
            ∀ r ∈ (rowStep m c g).pparams, r.productInfo = rid → r.parameter = prm →
              r.value = v) ∧
    (doc.goods ≠ [] →
      (updatePriceCore doc d).1
        = UpdResponse.ok (updatedCount (catPhaseOf doc d).cmap doc.goods)
            doc.goods.length) := by
  refine ⟨?_, ?_, ?_⟩
  · intro h
    unfold processGoods
    rw [List.foldl_cons, rowStep_skipped m c g h]
  · intro e nm cy q pr cat hw hid hnm hcy hq hpr hcat
    exact rowStep_upserts m c g e nm cy q pr cat hw hid hnm hcy hq hpr hcat
  · intro hne
    have hie : doc.goods.isEmpty = false := by
      cases hg : doc.goods with
      | nil => exact absurd hg hne
      | cons a l => rfl
    unfold updatePriceCore catPhaseOf
    dsimp only
    rw [hie]
    rfl

/-- Category map sending YAML id 1 to store category 50. -/
def witnessCMap : List (Nat × Nat) := [(1, 50)]

/-- A complete goods row (all required fields, category 1, one
parameter). -/
def witnessGood : GoodEntry :=
  ⟨some 10, some "P", some 1, some 4, some 5, none, none, [("color", some "red")]⟩

/-- A goods row missing its `id`. -/
def witnessSkippedGood : GoodEntry :=
  ⟨none, some "Q", some 1, some 1, some 1, none, none, []⟩

theorem import_rows_best_effort_witness :
    processGoods witnessCMap emptyCatalog [witnessSkippedGood, witnessGood]
      = processGoods witnessCMap emptyCatalog [witnessGood] ∧
    (∃ pid rid,
      resolveProduct (rowStep witnessCMap emptyCatalog witnessGood) "P" = some pid ∧
      piAt (rowStep witnessCMap emptyCatalog witnessGood) 10
        = some ⟨rid, 10, pid, witnessGood.model.getD "", 4, 5,
            witnessGood.priceRrc.getD 0⟩ ∧
      ∀ pn v, lastValOf witnessGood.parameters pn = some v →
        ∃ prm, resolveParam (rowStep witnessCMap emptyCatalog witnessGood) pn
            = some prm ∧
          (ppAt (rowStep witnessCMap emptyCatalog witnessGood) rid prm).isSome ∧
          ∀ r ∈ (rowStep witnessCMap emptyCatalog witnessGood).pparams,
            r.productInfo = rid → r.parameter = prm → r.value = v) ∧
    (updatePriceCore reconDoc reconCatalog).1
      = UpdResponse.ok (updatedCount (catPhaseOf reconDoc reconCatalog).cmap
          reconDoc.goods) reconDoc.goods.length :=
  ⟨(import_rows_best_effort witnessCMap emptyCatalog witnessSkippedGood [witnessGood]
      reconDoc reconCatalog).1 (by decide),
   (import_rows_best_effort witnessCMap emptyCatalog witnessGood []
      reconDoc reconCatalog).2.1 10 "P" 1 4 5 50 ⟨by decide, by decide⟩
      (by decide) (by decide) (by decide) (by decide) (by decide) (by decide),
   (import_rows_best_effort witnessCMap emptyCatalog witnessGood []
      reconDoc reconCatalog).2.2 (by decide)⟩

/-! ## Idempotency of the goods phase: inversion and stability lemmas -/

theorem rowSkipped_false_inv (m : List (Nat × Nat)) (g : GoodEntry)
    (h : rowSkipped m g = false) :
    ∃ e nm cy q pr cat, g.id = some e ∧ g.name = some nm ∧ g.category = some cy ∧
      g.quantity = some q ∧ g.price = some pr ∧ lookupCMap m cy = some cat := by
  obtain ⟨gid, gnm, gcy, gq, gpr, grrc, gmdl, gparams⟩ := g
  unfold rowSkipped at h
  cases gid <;> cases gnm <;> cases gcy <;> cases gq <;> cases gpr <;>
    (dsimp only at h; try exact Bool.noConfusion h)
  rename_i e nm cy q pr
  cases hc : lookupCMap m cy with
  | none => rw [hc] at h; simp at h
  | some cat =>
    exact ⟨e, nm, cy, q, pr, cat, rfl, rfl, rfl, rfl, rfl, hc⟩

/-- Unfolding of `rowStep` on a row that passes the checks. -/
theorem rowStep_eq (m : List (Nat × Nat)) (c : Catalog) (g : GoodEntry)
    (e : Nat) (nm : String) (cy q : Nat) (pr : ℚ) (cat : Nat)
    (hid : g.id = some e) (hnm : g.name = some nm) (hcy : g.category = some cy)
    (hq : g.quantity = some q) (hpr : g.price = some pr)
    (hcat : lookupCMap m cy = some cat) :
    rowStep m c g = g.parameters.foldl
      (paramStep (upsertPi (getOrCreateProduct c nm cat).2 e (getOrCreateProduct c nm cat).1
        (g.model.getD "") q pr (g.priceRrc.getD 0)).1)
      (upsertPi (getOrCreateProduct c nm cat).2 e (getOrCreateProduct c nm cat).1
        (g.model.getD "") q pr (g.priceRrc.getD 0)).2 := by
  unfold rowStep
  rw [hid, hnm, hcy, hq, hpr]
  dsimp only
  rw [hcat]

theorem piIdAt_congr (c c' : Catalog) (h : c'.pis = c.pis) (e : Nat) :
    piIdAt c' e = piIdAt c e := by
  unfold piIdAt piAt
  rw [h]

theorem piIdAt_upsertPi (c : Catalog) (e' pid : Nat) (mdl : String) (q : Nat)
    (pr rrc : ℚ) (e a : Nat) (h : piIdAt c e = some a) :
    piIdAt (upsertPi c e' pid mdl q pr rrc).2 e = some a := by
  cases hf : piAt c e' with
  | some r =>
    rw [upsertPi_found c e' pid mdl q pr rrc r hf]
    unfold piIdAt piAt at h ⊢
    dsimp only
    rw [List.find?_map]
    have hcomp : ((fun s : PInfoR => s.externalId == e) ∘ (fun s : PInfoR =>
        if s.externalId == e' then
          { s with product := pid, model := mdl, quantity := q, price := pr, priceRrc := rrc }
        else s)) = (fun s : PInfoR => s.externalId == e) := by
      funext s
      cases hq : (s.externalId == e') <;> simp [Function.comp, hq]
    rw [hcomp]
    cases hg : c.pis.find? (fun s => s.externalId == e) with
    | none => rw [hg] at h; simp at h
    | some r0 =>
      rw [hg] at h
      simp only [Option.map_map] at h ⊢
      have ha : r0.id = a := by simpa using h
      by_cases h0 : r0.externalId = e' <;> simp [Function.comp, h0, ha]
  | none =>
    rw [upsertPi_notfound c e' pid mdl q pr rrc hf]
    unfold piIdAt piAt at h ⊢
    dsimp only
    cases hg : c.pis.find? (fun s => s.externalId == e) with
    | none => rw [hg] at h; simp at h
    | some r0 =>
      rw [hg] at h
      rw [find?_append_some _ _ _ _ hg]
      exact h

theorem piIdAt_paramFold (piId : Nat) (l : List (String × Option String))
    (c : Catalog) (e : Nat) : piIdAt (l.foldl (paramStep piId) c) e = piIdAt c e := by
  have h := paramFold_piFields piId l c
  simp only [piFields, Prod.mk.injEq] at h
  exact piIdAt_congr c _ h.1 e

theorem piIdAt_rowStep (m : List (Nat × Nat)) (c : Catalog) (g : GoodEntry)
    (e a : Nat) (h : piIdAt c e = some a) : piIdAt (rowStep m c g) e = some a := by
  cases hsk : rowSkipped m g with
  | true => rw [rowStep_skipped m c g hsk]; exact h
  | false =>
    obtain ⟨e', nm, cy, q, pr, cat, hid, hnm, hcy, hq, hpr, hcat⟩ :=
      rowSkipped_false_inv m g hsk
    rw [rowStep_eq m c g e' nm cy q pr cat hid hnm hcy hq hpr hcat]
    rw [piIdAt_paramFold]
    refine piIdAt_upsertPi _ e' _ _ q pr _ e a ?_
    have hp := getOrCreateProduct_piFields c nm cat
    simp only [piFields, Prod.mk.injEq] at hp
    rw [piIdAt_congr c _ hp.1]
    exact h

theorem paramFold_params_append (piId : Nat) (l : List (String × Option String)) :
    ∀ c : Catalog, ∃ t, (l.foldl (paramStep piId) c).params = c.params ++ t := by
  induction l with
  | nil => intro c; exact ⟨[], (List.append_nil _).symm⟩
  | cons pv rest ih =>
    intro c
    rw [List.foldl_cons]
    obtain ⟨t1, ht1⟩ := paramStep_params_append piId c pv
    obtain ⟨t2, ht2⟩ := ih (paramStep piId c pv)
    exact ⟨t1 ++ t2, by rw [ht2, ht1, List.append_assoc]⟩

theorem rowStep_params_append (m : List (Nat × Nat)) (c : Catalog) (g : GoodEntry) :
    ∃ t, (rowStep m c g).params = c.params ++ t := by
  cases hsk : rowSkipped m g with
  | true =>
    rw [rowStep_skipped m c g hsk]
    exact ⟨[], (List.append_nil _).symm⟩
  | false =>
    obtain ⟨e', nm, cy, q, pr, cat, hid, hnm, hcy, hq, hpr, hcat⟩ :=
      rowSkipped_false_inv m g hsk
    rw [rowStep_eq m c g e' nm cy q pr cat hid hnm hcy hq hpr hcat]
    have hbase : (upsertPi (getOrCreateProduct c nm cat).2 e' (getOrCreateProduct c nm cat).1
        (g.model.getD "") q pr (g.priceRrc.getD 0)).2.params = c.params := by
      have h1 := upsertPi_paramFields (getOrCreateProduct c nm cat).2 e'
        (getOrCreateProduct c nm cat).1 (g.model.getD "") q pr (g.priceRrc.getD 0)
      have h2 := getOrCreateProduct_paramFields c nm cat
      have h3 := h1.trans h2
      simp only [paramFields, Prod.mk.injEq] at h3
      exact h3.1
    obtain ⟨t, ht⟩ := paramFold_params_append
      (upsertPi (getOrCreateProduct c nm cat).2 e' (getOrCreateProduct c nm cat).1
        (g.model.getD "") q pr (g.priceRrc.getD 0)).1 g.parameters
      (upsertPi (getOrCreateProduct c nm cat).2 e' (getOrCreateProduct c nm cat).1
        (g.model.getD "") q pr (g.priceRrc.getD 0)).2
    rw [ht, hbase]
    exact ⟨t, rfl⟩

theorem resolveParam_rowStep (m : List (Nat × Nat)) (c : Catalog) (g : GoodEntry)
    (n : String) (k : Nat) (h : resolveParam c n = some k) :
    resolveParam (rowStep m c g) n = some k := by
  obtain ⟨t, ht⟩ := rowStep_params_append m c g
  unfold resolveParam at h ⊢
  rw [ht]
  cases hf : c.params.find? (fun p => p.name == n) with
  | none => rw [hf] at h; simp at h
  | some p =>
    rw [hf] at h
    rw [find?_append_some _ _ _ _ hf]
    exact h

theorem ppAt_congr (c c' : Catalog) (h : c'.pparams = c.pparams) (a b : Nat) :
    ppAt c' a b = ppAt c a b := by
  unfold ppAt
  rw [h]

theorem ppAt_isSome_rowStep (m : List (Nat × Nat)) (c : Catalog) (g : GoodEntry)
    (a b : Nat) (h : (ppAt c a b).isSome) : (ppAt (rowStep m c g) a b).isSome := by
  cases hsk : rowSkipped m g with
  | true => rw [rowStep_skipped m c g hsk]; exact h
  | false =>
    obtain ⟨e, nm, cy, q, pr, cat, hid, hnm, hcy, hq, hpr, hcat⟩ :=
      rowSkipped_false_inv m g hsk
    rw [rowStep_eq m c g e nm cy q pr cat hid hnm hcy hq hpr hcat]
    refine ppAt_isSome_paramFold _ g.parameters _ a b ?_
    have h1 := upsertPi_paramFields (getOrCreateProduct c nm cat).2 e
      (getOrCreateProduct c nm cat).1 (g.model.getD "") q pr (g.priceRrc.getD 0)
    have h2 := getOrCreateProduct_paramFields c nm cat
    have h3 := h1.trans h2
    simp only [paramFields, Prod.mk.injEq] at h3
    rw [ppAt_congr _ _ h3.2.2]
    exact h

theorem ppAt_isSome_iff_exists (c : Catalog) (a b : Nat) :
    (ppAt c a b).isSome ↔ ∃ r ∈ c.pparams, r.productInfo = a ∧ r.parameter = b := by
  unfold ppAt
  rw [List.find?_isSome]
  constructor
  · rintro ⟨r, hm, hp⟩
    rw [Bool.and_eq_true_iff] at hp
    exact ⟨r, hm, by simpa using hp.1, by simpa using hp.2⟩
  · rintro ⟨r, hm, h1, h2⟩
    exact ⟨r, hm, by simp [h1, h2]⟩

theorem resolveProduct_rowStep (m : List (Nat × Nat)) (c : Catalog) (g : GoodEntry)
    (n : String) (k : Nat) (h : resolveProduct c n = some k) :
    resolveProduct (rowStep m c g) n = some k := by
  cases hsk : rowSkipped m g with
  | true => rw [rowStep_skipped m c g hsk]; exact h
  | false =>
    obtain ⟨e', nm, cy, q, pr, cat, hid, hnm, hcy, hq, hpr, hcat⟩ :=
      rowSkipped_false_inv m g hsk
    rw [rowStep_eq m c g e' nm cy q pr cat hid hnm hcy hq hpr hcat]
    have h1 := paramFold_productFields (upsertPi (getOrCreateProduct c nm cat).2 e'
      (getOrCreateProduct c nm cat).1 (g.model.getD "") q pr (g.priceRrc.getD 0)).1
      g.parameters (upsertPi (getOrCreateProduct c nm cat).2 e'
      (getOrCreateProduct c nm cat).1 (g.model.getD "") q pr (g.priceRrc.getD 0)).2
    have h2 := upsertPi_productFields (getOrCreateProduct c nm cat).2 e'
      (getOrCreateProduct c nm cat).1 (g.model.getD "") q pr (g.priceRrc.getD 0)
    have h3 := h1.trans h2
    simp only [productFields, Prod.mk.injEq] at h3
    rw [resolveProduct_congr _ _ h3.1]
    obtain ⟨t, ht⟩ := getOrCreateProduct_products_append c nm cat
    exact resolveProduct_of_append c _ t ht n k h

/-! ## Generic fold and list helpers -/

theorem foldl_pres {σ α : Type} (g : σ → α → σ) (P : σ → Prop)
    (hst : ∀ s a, P s → P (g s a)) :
    ∀ (l : List α) (s : σ), P s → P (l.foldl g s) := by
  intro l
  induction l with
  | nil => intro s h; exact h
  | cons a rest ih => intro s h; exact ih _ (hst s a h)

theorem foldl_estab {σ α : Type} (g : σ → α → σ) (P : σ → Prop)
    (hst : ∀ s a, P s → P (g s a)) :
    ∀ (l : List α) (s : σ) (x : α), x ∈ l → (∀ s', P (g s' x)) →
      P (l.foldl g s) := by
  intro l
  induction l with
  | nil => intro s x hx; exact absurd hx (List.not_mem_nil x)
  | cons a rest ih =>
    intro s x hx hest
    rw [List.foldl_cons]
    rcases List.mem_cons.mp hx with h | h
    · subst h
      exact foldl_pres g P hst rest _ (hest s)
    · exact ih _ x h hest

theorem map_id_of {α : Type} (p : α → Bool) (f : α → α) :
    ∀ (l : List α), (∀ r ∈ l, p r = true → f r = r) →
      l.map (fun r => if p r then f r else r) = l := by
  intro l
  induction l with
  | nil => intro _; rfl
  | cons a rest ih =>
    intro h
    rw [List.map_cons, ih (fun r hr hp => h r (List.mem_cons_of_mem a hr) hp)]
    by_cases ha : p a = true
    · rw [if_pos ha, h a (List.mem_cons_self a rest) ha]
    · rw [if_neg ha]

theorem forall₂_find? {α β : Type} (R : α → β → Prop) (p : α → Bool) (q : β → Bool)
    (hpq : ∀ a b, R a b → p a = q b) :
    ∀ {l₁ : List α} {l₂ : List β}, List.Forall₂ R l₁ l₂ →
      (l₁.find? p = none ∧ l₂.find? q = none) ∨
      (∃ a b, l₁.find? p = some a ∧ l₂.find? q = some b ∧ R a b) := by
  intro l₁ l₂ h
  induction h with
  | nil => exact Or.inl ⟨rfl, rfl⟩
  | @cons a b t₁ t₂ hab htail ih =>
    by_cases hp : p a = true
    · have hq : q b = true := by rw [← hpq a b hab]; exact hp
      exact Or.inr ⟨a, b, List.find?_cons_of_pos _ hp, List.find?_cons_of_pos _ hq, hab⟩
    · have hq : ¬ q b = true := by rw [← hpq a b hab]; exact hp
      rw [List.find?_cons_of_neg _ hp, List.find?_cons_of_neg _ hq]
      exact ih

theorem forall₂_append_single {α β : Type} (R : α → β → Prop) (x : α) (y : β)
    {l₁ : List α} {l₂ : List β} (h : List.Forall₂ R l₁ l₂) (hxy : R x y) :
    List.Forall₂ R (l₁ ++ [x]) (l₂ ++ [y]) :=
  List.rel_append h (List.Forall₂.cons hxy List.Forall₂.nil)

/-! ## Record extensionality and eta helpers -/

theorem pparam_ext (a b : PParamR) (h1 : a.productInfo = b.productInfo)
    (h2 : a.parameter = b.parameter) (h3 : a.value = b.value) : a = b := by
  cases a; cases b
  dsimp only at h1 h2 h3
  subst h1 h2 h3
  rfl

theorem pinfo_ext (a b : PInfoR) (h1 : a.id = b.id) (h2 : a.externalId = b.externalId)
    (h3 : piVals a = piVals b) : a = b := by
  cases a; cases b
  simp only [piVals, Prod.mk.injEq] at h3
  dsimp only at h1 h2
  obtain ⟨e3, e4, e5, e6, e7⟩ := h3
  subst h1 h2 e3 e4 e5 e6 e7
  rfl

theorem catalog_ext (c c' : Catalog)
    (h1 : c.shopName = c'.shopName) (h2 : c.shopCats = c'.shopCats)
    (h3 : c.cats = c'.cats) (h4 : c.nextCatId = c'.nextCatId)
    (h5 : c.products = c'.products) (h6 : c.nextProductId = c'.nextProductId)
    (h7 : c.pis = c'.pis) (h8 : c.nextPiId = c'.nextPiId)
    (h9 : c.params = c'.params) (h10 : c.nextParamId = c'.nextParamId)
    (h11 : c.pparams = c'.pparams) : c = c' := by
  cases c; cases c'
  dsimp only at h1 h2 h3 h4 h5 h6 h7 h8 h9 h10 h11
  subst h1 h2 h3 h4 h5 h6 h7 h8 h9 h10 h11
  rfl

theorem catalog_eta_shopName (c : Catalog) (s : String) (h : c.shopName = s) :
    { c with shopName := s } = c := by
  cases c
  dsimp only at h
  subst h
  rfl

theorem catalog_eta_shopCats (c : Catalog) (l : List Nat) (h : c.shopCats = l) :
    { c with shopCats := l } = c := by
  cases c
  dsimp only at h
  subst h
  rfl

/-! ## The agreement relation between a rerun state and the final state -/

/-- Equality on every catalog column the goods loop can only read or grow:
everything except the `pis` and `pparams` row contents. -/
structure OtherEq (c' c : Catalog) : Prop where
  shopName : c'.shopName = c.shopName
  shopCats : c'.shopCats = c.shopCats
  cats : c'.cats = c.cats
  nextCatId : c'.nextCatId = c.nextCatId
  products : c'.products = c.products
  nextProductId : c'.nextProductId = c.nextProductId
  nextPiId : c'.nextPiId = c.nextPiId
  params : c'.params = c.params
  nextParamId : c'.nextParamId = c.nextParamId

/-- Some remaining row of `gs` performs the listing upsert for external id
`e`. -/
def piWritten (m : List (Nat × Nat)) (gs : List GoodEntry) (e : Nat) : Prop :=
  ∃ g ∈ gs, rowSkipped m g = false ∧ g.id = some e

/-- A parameter entry the loop does not skip. -/
def validPv (pv : String × Option String) : Prop := pv.2 ≠ none ∧ pv.1 ≠ ""

/-- Some entry of the parameter list resolves (in `c`) to parameter pk
`prm`. -/
def hitsPrm (c : Catalog) (l : List (String × Option String)) (prm : Nat) : Prop :=
  ∃ pv ∈ l, validPv pv ∧ resolveParam c pv.1 = some prm

/-- Some remaining row of `gs` writes the parameter-value key `(pi, prm)`
(external ids and names resolved in `c`). -/
def ppWritten (m : List (Nat × Nat)) (gs : List GoodEntry) (c : Catalog)
    (pi prm : Nat) : Prop :=
  ∃ g ∈ gs, rowSkipped m g = false ∧ ∃ e, g.id = some e ∧
    piIdAt c e = some pi ∧ hitsPrm c g.parameters prm

/-- Row-wise relation on the `pis` table: pk and external id agree, and any
value difference is confined to external ids in `V`. -/
def PiRel (V : Nat → Prop) (l' l : List PInfoR) : Prop :=
  List.Forall₂ (fun a b => a.id = b.id ∧ a.externalId = b.externalId ∧
    (a ≠ b → V a.externalId)) l' l

/-- Row-wise relation on the `pparams` table: the key agrees, and any value
difference is confined to keys in `W`. -/
def PpRel (W : Nat → Nat → Prop) (l' l : List PParamR) : Prop :=
  List.Forall₂ (fun a b => a.productInfo = b.productInfo ∧
    a.parameter = b.parameter ∧ (a ≠ b → W a.productInfo a.parameter)) l' l

/-- The rerun invariant: the rerun state `c'` differs from the fixed final
state `c` only in listing values and parameter values that a remaining row
of `gs` is going to overwrite. -/
structure Agree (m : List (Nat × Nat)) (gs : List GoodEntry) (c' c : Catalog) : Prop where
  other : OtherEq c' c
  pis : PiRel (piWritten m gs) c'.pis c.pis
  pps : PpRel (ppWritten m gs c) c'.pparams c.pparams

/-! ## Last-writer bookkeeping -/

/-- The last non-skipped row of `gs` writing external id `e`. -/
def lastPiRow (m : List (Nat × Nat)) (gs : List GoodEntry) (e : Nat) :
    Option GoodEntry :=
  (gs.filter (fun g => !rowSkipped m g && g.id == some e)).getLast?

/-- The last value among the parameter entries of one row that resolve (in
`c`) to parameter pk `prm`; later entries win. -/
def lastPv (c : Catalog) (prm : Nat) : List (String × Option String) → Option String
  | [] => none
  | pv :: rest =>
    match lastPv c prm rest with
    | some w => some w
    | none =>
      match pv.2 with
      | none => none
      | some v =>
        if pv.1 = "" then none
        else if resolveParam c pv.1 = some prm then some v else none

/-- The parameter-write events of one row: external id, name, value. -/
def rowEvts (g : GoodEntry) : List (Nat × String × String) :=
  g.parameters.filterMap (fun pv =>
    match pv.2 with
    | some v => if pv.1 = "" then none else some (g.id.getD 0, pv.1, v)
    | none => none)

/-- The parameter-write events of the non-skipped rows, in order. -/
def docEvts (m : List (Nat × Nat)) : List GoodEntry → List (Nat × String × String)
  | [] => []
  | g :: gs => (if rowSkipped m g then [] else rowEvts g) ++ docEvts m gs

/-- The value of the last event targeting key `(pi, prm)`, external ids and
names resolved in `c`; later events win. -/
def lastEvt (c : Catalog) (pi prm : Nat) : List (Nat × String × String) → Option String
  | [] => none
  | ev :: rest =>
    match lastEvt c pi prm rest with
    | some w => some w
    | none =>
      if piIdAt c ev.1 = some pi ∧ resolveParam c ev.2.1 = some prm then some ev.2.2
      else none

/-! ## Hypotheses the first run establishes at its final state -/

/-- Every non-skipped row finds its product, its listing and each of its
parameter keys already present in `c`. -/
def Hcov (m : List (Nat × Nat)) (gs : List GoodEntry) (c : Catalog) : Prop :=
  ∀ g ∈ gs, rowSkipped m g = false →
    (∀ nm, g.name = some nm → (resolveProduct c nm).isSome) ∧
    (∀ e, g.id = some e → ∃ pi, piIdAt c e = some pi ∧
      ∀ pv ∈ g.parameters, validPv pv →
        ∃ prm, resolveParam c pv.1 = some prm ∧
          ∃ r ∈ c.pparams, r.productInfo = pi ∧ r.parameter = prm)

/-- Every listing carries the values of its last writing row. -/
def Hpi (m : List (Nat × Nat)) (gs : List GoodEntry) (c : Catalog) : Prop :=
  ∀ e g, lastPiRow m gs e = some g →
    ∀ nm q pr, g.name = some nm → g.quantity = some q → g.price = some pr →
      ∃ pid, resolveProduct c nm = some pid ∧
        ∀ r ∈ c.pis, r.externalId = e →
          piVals r = (pid, g.model.getD "", q, pr, g.priceRrc.getD 0)

/-- Every parameter value carries the value of its last write event. -/
def Hpp (m : List (Nat × Nat)) (gs : List GoodEntry) (c : Catalog) : Prop :=
  ∀ pi prm v, lastEvt c pi prm (docEvts m gs) = some v →
    ∀ r ∈ c.pparams, r.productInfo = pi → r.parameter = prm → r.value = v

/-! ## Bookkeeping lemmas: lastPv -/

theorem lastPv_cons_of_rest (c : Catalog) (prm : Nat) (pv : String × Option String)
    (rest : List (String × Option String)) (w : String)
    (h : lastPv c prm rest = some w) : lastPv c prm (pv :: rest) = some w := by
  simp only [lastPv, h]

theorem lastPv_cons_invalid (c : Catalog) (prm : Nat) (pv : String × Option String)
    (rest : List (String × Option String)) (h : ¬ validPv pv) :
    lastPv c prm (pv :: rest) = lastPv c prm rest := by
  simp only [lastPv]
  cases hrest : lastPv c prm rest with
  | some w => rfl
  | none =>
    dsimp only
    cases h2 : pv.2 with
    | none => rfl
    | some v =>
      dsimp only
      rw [if_pos]
      by_contra h1
      exact h ⟨by rw [h2]; exact Option.noConfusion, h1⟩

theorem lastPv_cons_valid (c : Catalog) (prm : Nat) (n : String) (v : String)
    (rest : List (String × Option String)) (hn : ¬ n = "") :
    lastPv c prm ((n, some v) :: rest) =
      match lastPv c prm rest with
      | some w => some w
      | none => if resolveParam c n = some prm then some v else none := by
  simp only [lastPv]
  cases lastPv c prm rest with
  | some w => rfl
  | none => dsimp only; rw [if_neg hn]

theorem lastPv_isSome_hits (c : Catalog) (prm : Nat) :
    ∀ (l : List (String × Option String)) (w : String),
      lastPv c prm l = some w → hitsPrm c l prm := by
  intro l
  induction l with
  | nil => intro w h; simp [lastPv] at h
  | cons pv rest ih =>
    intro w h
    simp only [lastPv] at h
    cases hrest : lastPv c prm rest with
    | some u =>
      obtain ⟨pv', hm, hval, hres⟩ := ih u hrest
      exact ⟨pv', List.mem_cons_of_mem pv hm, hval, hres⟩
    | none =>
      rw [hrest] at h
      dsimp only at h
      cases h2 : pv.2 with
      | none => rw [h2] at h; exact absurd h (by simp)
      | some v =>
        rw [h2] at h
        dsimp only at h
        by_cases h1 : pv.1 = ""
        · rw [if_pos h1] at h; exact absurd h (by simp)
        · rw [if_neg h1] at h
          by_cases hres : resolveParam c pv.1 = some prm
          · exact ⟨pv, List.mem_cons_self pv rest, ⟨by rw [h2]; exact Option.noConfusion, h1⟩, hres⟩
          · rw [if_neg hres] at h; exact absurd h (by simp)

theorem lastPv_none_of_no_hits (c : Catalog) (prm : Nat)
    (l : List (String × Option String)) (h : ¬ hitsPrm c l prm) :
    lastPv c prm l = none := by
  cases hl : lastPv c prm l with
  | none => rfl
  | some w => exact absurd (lastPv_isSome_hits c prm l w hl) h

theorem lastPv_append (c : Catalog) (prm : Nat) :
    ∀ (l₁ l₂ : List (String × Option String)),
      lastPv c prm (l₁ ++ l₂) =
        match lastPv c prm l₂ with
        | some w => some w
        | none => lastPv c prm l₁ := by
  intro l₁
  induction l₁ with
  | nil =>
    intro l₂
    rw [List.nil_append]
    cases lastPv c prm l₂ with
    | some w => rfl
    | none => simp [lastPv]
  | cons pv rest ih =>
    intro l₂
    rw [List.cons_append]
    simp only [lastPv, ih l₂]
    cases lastPv c prm l₂ with
    | some w => rfl
    | none => rfl

theorem lastPv_congr (c' c : Catalog) (prm : Nat) :
    ∀ (l : List (String × Option String)),
      (∀ pv ∈ l, validPv pv →
        (resolveParam c' pv.1 = some prm ↔ resolveParam c pv.1 = some prm)) →
      lastPv c' prm l = lastPv c prm l := by
  intro l
  induction l with
  | nil => intro _; rfl
  | cons pv rest ih =>
    intro h
    have hrest := ih (fun pv' hm hv => h pv' (List.mem_cons_of_mem pv hm) hv)
    simp only [lastPv, hrest]
    cases lastPv c prm rest with
    | some w => rfl
    | none =>
      dsimp only
      cases h2 : pv.2 with
      | none => rfl
      | some v =>
        dsimp only
        by_cases h1 : pv.1 = ""
        · rw [if_pos h1, if_pos h1]
        · rw [if_neg h1, if_neg h1]
          have hiff := h pv (List.mem_cons_self pv rest)
            ⟨by rw [h2]; exact Option.noConfusion, h1⟩
          by_cases hres : resolveParam c pv.1 = some prm
          · rw [if_pos hres, if_pos (hiff.mpr hres)]
          · rw [if_neg hres, if_neg (fun hx => hres (hiff.mp hx))]

/-! ## Bookkeeping lemmas: lastEvt -/

theorem lastEvt_cons_of_rest (c : Catalog) (pi prm : Nat) (ev : Nat × String × String)
    (rest : List (Nat × String × String)) (w : String)
    (h : lastEvt c pi prm rest = some w) : lastEvt c pi prm (ev :: rest) = some w := by
  simp only [lastEvt, h]

theorem lastEvt_append (c : Catalog) (pi prm : Nat) :
    ∀ (l₁ l₂ : List (Nat × String × String)),
      lastEvt c pi prm (l₁ ++ l₂) =
        match lastEvt c pi prm l₂ with
        | some w => some w
        | none => lastEvt c pi prm l₁ := by
  intro l₁
  induction l₁ with
  | nil =>
    intro l₂
    rw [List.nil_append]
    cases lastEvt c pi prm l₂ with
    | some w => rfl
    | none => simp [lastEvt]
  | cons ev rest ih =>
    intro l₂
    rw [List.cons_append]
    simp only [lastEvt, ih l₂]
    cases lastEvt c pi prm l₂ with
    | some w => rfl
    | none => rfl

theorem lastEvt_isSome_match (c : Catalog) (pi prm : Nat) :
    ∀ (l : List (Nat × String × String)) (v : String),
      lastEvt c pi prm l = some v →
      ∃ ev ∈ l, piIdAt c ev.1 = some pi ∧ resolveParam c ev.2.1 = some prm ∧
        ev.2.2 = v := by
  intro l
  induction l with
  | nil => intro v h; simp [lastEvt] at h
  | cons ev rest ih =>
    intro v h
    simp only [lastEvt] at h
    cases hrest : lastEvt c pi prm rest with
    | some u =>
      rw [hrest] at h
      dsimp only at h
      obtain ⟨ev', hm, h1, h2, h3⟩ := ih u hrest
      cases h
      exact ⟨ev', List.mem_cons_of_mem ev hm, h1, h2, h3⟩
    | none =>
      rw [hrest] at h
      dsimp only at h
      by_cases hc : piIdAt c ev.1 = some pi ∧ resolveParam c ev.2.1 = some prm
      · rw [if_pos hc] at h
        cases h
        exact ⟨ev, List.mem_cons_self ev rest, hc.1, hc.2, rfl⟩
      · rw [if_neg hc] at h
        exact absurd h (by simp)

theorem lastEvt_none_no_match (c : Catalog) (pi prm : Nat)
    (l : List (Nat × String × String)) (h : lastEvt c pi prm l = none) :
    ∀ ev ∈ l, ¬ (piIdAt c ev.1 = some pi ∧ resolveParam c ev.2.1 = some prm) := by
  induction l with
  | nil => intro ev hm; exact absurd hm (List.not_mem_nil ev)
  | cons ev0 rest ih =>
    intro ev hm
    simp only [lastEvt] at h
    cases hrest : lastEvt c pi prm rest with
    | some u => rw [hrest] at h; exact absurd h (by simp)
    | none =>
      rw [hrest] at h
      dsimp only at h
      rcases List.mem_cons.mp hm with heq | hm'
      · subst heq
        intro hc
        rw [if_pos hc] at h
        exact absurd h (by simp)
      · exact ih hrest ev hm'

theorem lastEvt_isSome_of_match (c : Catalog) (pi prm : Nat)
    (l : List (Nat × String × String)) (ev : Nat × String × String) (hm : ev ∈ l)
    (hc : piIdAt c ev.1 = some pi ∧ resolveParam c ev.2.1 = some prm) :
    (lastEvt c pi prm l).isSome := by
  cases hl : lastEvt c pi prm l with
  | some w => rfl
  | none => exact absurd hc (lastEvt_none_no_match c pi prm l hl ev hm)

theorem lastEvt_congr (c' c : Catalog) (pi prm : Nat) :
    ∀ (l : List (Nat × String × String)),
      (∀ ev ∈ l, (piIdAt c' ev.1 = some pi ∧ resolveParam c' ev.2.1 = some prm) ↔
        (piIdAt c ev.1 = some pi ∧ resolveParam c ev.2.1 = some prm)) →
      lastEvt c' pi prm l = lastEvt c pi prm l := by
  intro l
  induction l with
  | nil => intro _; rfl
  | cons ev rest ih =>
    intro h
    have hrest := ih (fun ev' hm => h ev' (List.mem_cons_of_mem ev hm))
    simp only [lastEvt, hrest]
    cases lastEvt c pi prm rest with
    | some w => rfl
    | none =>
      dsimp only
      have hiff := h ev (List.mem_cons_self ev rest)
      by_cases hc : piIdAt c ev.1 = some pi ∧ resolveParam c ev.2.1 = some prm
      · rw [if_pos hc, if_pos (hiff.mpr hc)]
      · rw [if_neg hc, if_neg (fun hx => hc (hiff.mp hx))]

theorem lastEvt_filterMap (c : Catalog) (pi prm : Nat) (e : Nat)
    (hpi : piIdAt c e = some pi) :
    ∀ (l : List (String × Option String)),
      lastEvt c pi prm (l.filterMap (fun pv =>
        match pv.2 with
        | some v => if pv.1 = "" then none else some (e, pv.1, v)
        | none => none)) = lastPv c prm l := by
  intro l
  induction l with
  | nil => rfl
  | cons pv rest ih =>
    rw [List.filterMap_cons]
    cases h2 : pv.2 with
    | none =>
      dsimp only
      rw [ih]
      simp only [lastPv]
      cases lastPv c prm rest with
      | some w => rfl
      | none => dsimp only; rw [h2]
    | some v =>
      dsimp only
      by_cases h1 : pv.1 = ""
      · rw [if_pos h1, ih]
        simp only [lastPv]
        cases lastPv c prm rest with
        | some w => rfl
        | none => dsimp only; rw [h2]; dsimp only; rw [if_pos h1]
      · rw [if_neg h1]
        simp only [lastEvt, ih]
        simp only [lastPv]
        cases lastPv c prm rest with
        | some w => rfl
        | none =>
          dsimp only
          rw [h2]
          dsimp only
          rw [if_neg h1]
          by_cases hres : resolveParam c pv.1 = some prm
          · rw [if_pos hres, if_pos ⟨hpi, hres⟩]
          · rw [if_neg hres, if_neg (fun hx => hres hx.2)]

theorem lastEvt_rowEvts (c : Catalog) (pi prm : Nat) (g : GoodEntry)
    (hpi : piIdAt c (g.id.getD 0) = some pi) :
    lastEvt c pi prm (rowEvts g) = lastPv c prm g.parameters :=
  lastEvt_filterMap c pi prm (g.id.getD 0) hpi g.parameters

/-! ## Bookkeeping lemmas: rowEvts and docEvts -/

theorem mem_rowEvts (g : GoodEntry) (ev : Nat × String × String)
    (hm : ev ∈ rowEvts g) :
    ev.1 = g.id.getD 0 ∧ ∃ pv ∈ g.parameters, validPv pv ∧ pv.1 = ev.2.1 ∧
      pv.2 = some ev.2.2 := by
  obtain ⟨pv, hpv, hf⟩ := List.mem_filterMap.mp hm
  cases h2 : pv.2 with
  | none => rw [h2] at hf; exact absurd hf (by simp)
  | some v =>
    rw [h2] at hf
    dsimp only at hf
    by_cases h1 : pv.1 = ""
    · rw [if_pos h1] at hf; exact absurd hf (by simp)
    · rw [if_neg h1] at hf
      have hev : ev = (g.id.getD 0, pv.1, v) := by
        cases hf; rfl
      subst hev
      exact ⟨rfl, pv, hpv, ⟨by rw [h2]; exact Option.noConfusion, h1⟩, rfl, h2⟩

theorem rowEvts_mem_intro (g : GoodEntry) (pv : String × Option String) (v : String)
    (hpv : pv ∈ g.parameters) (h2 : pv.2 = some v) (h1 : ¬ pv.1 = "") :
    (g.id.getD 0, pv.1, v) ∈ rowEvts g := by
  refine List.mem_filterMap.mpr ⟨pv, hpv, ?_⟩
  rw [h2]
  dsimp only
  rw [if_neg h1]

theorem docEvts_append (m : List (Nat × Nat)) :
    ∀ (l₁ l₂ : List GoodEntry),
      docEvts m (l₁ ++ l₂) = docEvts m l₁ ++ docEvts m l₂ := by
  intro l₁
  induction l₁ with
  | nil => intro l₂; rfl
  | cons g rest ih =>
    intro l₂
    rw [List.cons_append]
    simp only [docEvts, ih, List.append_assoc]

theorem mem_docEvts (m : List (Nat × Nat)) :
    ∀ (gs : List GoodEntry) (ev : Nat × String × String), ev ∈ docEvts m gs →
      ∃ g ∈ gs, rowSkipped m g = false ∧ ev ∈ rowEvts g := by
  intro gs
  induction gs with
  | nil => intro ev h; exact absurd h (List.not_mem_nil ev)
  | cons g rest ih =>
    intro ev h
    simp only [docEvts] at h
    rcases List.mem_append.mp h with h1 | h2
    · cases hsk : rowSkipped m g with
      | true => rw [hsk] at h1; exact absurd h1 (by simp)
      | false =>
        rw [hsk] at h1
        simp only [if_neg Bool.false_ne_true] at h1
        exact ⟨g, List.mem_cons_self g rest, hsk, h1⟩
    · obtain ⟨g', hm, hsk, hev⟩ := ih ev h2
      exact ⟨g', List.mem_cons_of_mem g hm, hsk, hev⟩

/-! ## Bookkeeping lemmas: lastPiRow -/

theorem lastPiRow_cons_of_rest (m : List (Nat × Nat)) (g : GoodEntry)
    (rest : List GoodEntry) (e : Nat) (g₀ : GoodEntry)
    (h : lastPiRow m rest e = some g₀) : lastPiRow m (g :: rest) e = some g₀ := by
  unfold lastPiRow at *
  rw [List.filter_cons]
  by_cases hg : (!rowSkipped m g && g.id == some e) = true
  · rw [if_pos hg]
    rw [show (g :: rest.filter (fun g' => !rowSkipped m g' && g'.id == some e)) =
      [g] ++ rest.filter (fun g' => !rowSkipped m g' && g'.id == some e) from rfl]
    rw [List.getLast?_append, h]
    rfl
  · rw [if_neg hg]
    exact h

theorem lastPiRow_concat_self (m : List (Nat × Nat)) (init : List GoodEntry)
    (h : GoodEntry) (e : Nat) (hsk : rowSkipped m h = false) (hid : h.id = some e) :
    lastPiRow m (init ++ [h]) e = some h := by
  unfold lastPiRow
  rw [List.filter_append]
  have hh : ([h].filter (fun g' => !rowSkipped m g' && g'.id == some e)) = [h] := by
    rw [List.filter_cons]
    rw [if_pos (by rw [hsk, hid]; simp)]
    rfl
  rw [hh]
  exact List.getLast?_concat _

theorem lastPiRow_concat_other (m : List (Nat × Nat)) (init : List GoodEntry)
    (h : GoodEntry) (e : Nat)
    (hno : (!rowSkipped m h && h.id == some e) = false) :
    lastPiRow m (init ++ [h]) e = lastPiRow m init e := by
  unfold lastPiRow
  rw [List.filter_append]
  have hh : ([h].filter (fun g' => !rowSkipped m g' && g'.id == some e)) = [] := by
    rw [List.filter_cons, if_neg (by rw [hno]; exact Bool.false_ne_true)]
    rfl
  rw [hh, List.append_nil]

theorem lastPiRow_self_of_no_rest (m : List (Nat × Nat)) (g : GoodEntry)
    (rest : List GoodEntry) (e : Nat) (hsk : rowSkipped m g = false)
    (hid : g.id = some e) (hno : ¬ piWritten m rest e) :
    lastPiRow m (g :: rest) e = some g := by
  unfold lastPiRow
  rw [List.filter_cons, if_pos (by rw [hsk, hid]; simp)]
  have hrest : (rest.filter (fun g' => !rowSkipped m g' && g'.id == some e)) = [] := by
    rw [List.filter_eq_nil_iff]
    intro g' hm hp
    rw [Bool.and_eq_true_iff] at hp
    refine hno ⟨g', hm, ?_, ?_⟩
    · cases hsk' : rowSkipped m g' with
      | false => rfl
      | true => rw [hsk'] at hp; exact absurd hp.1 (by simp)
    · simpa using hp.2
  rw [hrest]
  rfl

/-! ## Relation helper lemmas -/

theorem find?_append_nomatch {α : Type} (p : α → Bool) (l : List α) (x : α)
    (hx : p x = false) : (l ++ [x]).find? p = l.find? p := by
  rw [List.find?_append]
  cases h : l.find? p with
  | some a => rfl
  | none =>
    show Option.or none ([x].find? p) = none
    rw [List.find?_cons_of_neg _ (by rw [hx]; exact Bool.false_ne_true)]
    rfl

theorem ppRel_key_transfer (W : Nat → Nat → Prop) {l' l : List PParamR}
    (h : PpRel W l' l) :
    ∀ pi prm, (∃ r ∈ l, r.productInfo = pi ∧ r.parameter = prm) →
      ∃ r ∈ l', r.productInfo = pi ∧ r.parameter = prm := by
  unfold PpRel at h
  induction h with
  | nil =>
    intro pi prm hx
    obtain ⟨r, hm, _⟩ := hx
    exact absurd hm (List.not_mem_nil r)
  | @cons a b t₁ t₂ hab htail ih =>
    intro pi prm hx
    obtain ⟨r, hm, h1, h2⟩ := hx
    rcases List.mem_cons.mp hm with heq | hm'
    · subst heq
      exact ⟨a, List.mem_cons_self a t₁, hab.1.trans h1, hab.2.1.trans h2⟩
    · obtain ⟨r', hm'', hk⟩ := ih pi prm ⟨r, hm', h1, h2⟩
      exact ⟨r', List.mem_cons_of_mem a hm'', hk⟩

theorem ppRel_map_write_tag (Q R : Nat → Nat → Prop) (pi prm : Nat) (v : String)
    (hQ : R pi prm) (hmono : ∀ x y, ¬ (x = pi ∧ y = prm) → Q x y → R x y)
    {l' l : List PParamR} (h : PpRel Q l' l) :
    PpRel R (l'.map (fun r =>
      if r.productInfo == pi && r.parameter == prm then { r with value := v }
      else r)) l := by
  unfold PpRel at *
  induction h with
  | nil => exact List.Forall₂.nil
  | @cons a b t₁ t₂ hab htail ih =>
    rw [List.map_cons]
    refine List.Forall₂.cons ?_ ih
    by_cases hc : (a.productInfo == pi && a.parameter == prm) = true
    · rw [if_pos hc]
      rw [Bool.and_eq_true_iff] at hc
      have h1 : a.productInfo = pi := by simpa using hc.1
      have h2 : a.parameter = prm := by simpa using hc.2
      refine ⟨hab.1, hab.2.1, fun _ => ?_⟩
      show R a.productInfo a.parameter
      rw [h1, h2]
      exact hQ
    · rw [if_neg hc]
      refine ⟨hab.1, hab.2.1, fun hne => ?_⟩
      refine hmono _ _ ?_ (hab.2.2 hne)
      rintro ⟨h1, h2⟩
      exact hc (by rw [Bool.and_eq_true_iff]; exact ⟨by simp [h1], by simp [h2]⟩)

theorem ppRel_map_write_eq (Q R : Nat → Nat → Prop) (pi prm : Nat) (v : String)
    (hmono : ∀ x y, ¬ (x = pi ∧ y = prm) → Q x y → R x y)
    {l' l : List PParamR} (h : PpRel Q l' l)
    (hrows : ∀ r ∈ l, r.productInfo = pi → r.parameter = prm → r.value = v) :
    PpRel R (l'.map (fun r =>
      if r.productInfo == pi && r.parameter == prm then { r with value := v }
      else r)) l := by
  unfold PpRel at *
  induction h with
  | nil => exact List.Forall₂.nil
  | @cons a b t₁ t₂ hab htail ih =>
    rw [List.map_cons]
    refine List.Forall₂.cons ?_ (ih (fun r hm => hrows r (List.mem_cons_of_mem b hm)))
    by_cases hc : (a.productInfo == pi && a.parameter == prm) = true
    · rw [if_pos hc]
      rw [Bool.and_eq_true_iff] at hc
      have h1 : a.productInfo = pi := by simpa using hc.1
      have h2 : a.parameter = prm := by simpa using hc.2
      have hbv : b.value = v :=
        hrows b (List.mem_cons_self b t₂) (hab.1.symm.trans h1) (hab.2.1.symm.trans h2)
      have heq : ({ a with value := v } : PParamR) = b :=
        pparam_ext _ _ hab.1 hab.2.1 (by rw [hbv])
      exact ⟨hab.1, hab.2.1, fun hne => absurd heq hne⟩
    · rw [if_neg hc]
      refine ⟨hab.1, hab.2.1, fun hne => ?_⟩
      refine hmono _ _ ?_ (hab.2.2 hne)
      rintro ⟨h1, h2⟩
      exact hc (by rw [Bool.and_eq_true_iff]; exact ⟨by simp [h1], by simp [h2]⟩)

theorem piRel_find_transfer (V : Nat → Prop) {l' l : List PInfoR}
    (h : PiRel V l' l) (e : Nat) (b : PInfoR)
    (hb : l.find? (fun r => r.externalId == e) = some b) :
    ∃ a, l'.find? (fun r => r.externalId == e) = some a ∧ a.id = b.id ∧
      a.externalId = b.externalId := by
  unfold PiRel at h
  rcases forall₂_find? _ (fun r : PInfoR => r.externalId == e)
      (fun r : PInfoR => r.externalId == e)
      (fun a b hab => by
        show (a.externalId == e) = (b.externalId == e)
        rw [hab.2.1]) h with hnone | ⟨a, b', ha, hb', hab⟩
  · rw [hnone.2] at hb
    exact absurd hb (by simp)
  · rw [hb'] at hb
    cases hb
    exact ⟨a, ha, hab.1, hab.2.1⟩

theorem piRel_map_write_tag (V V' : Nat → Prop) (e pid : Nat) (mdl : String)
    (q : Nat) (pr rrc : ℚ) (hV : V' e) (hmono : ∀ x, x ≠ e → V x → V' x)
    {l' l : List PInfoR} (h : PiRel V l' l) :
    PiRel V' (l'.map (fun s =>
      if s.externalId == e then
        { s with product := pid, model := mdl, quantity := q, price := pr, priceRrc := rrc }
      else s)) l := by
  unfold PiRel at *
  induction h with
  | nil => exact List.Forall₂.nil
  | @cons a b t₁ t₂ hab htail ih =>
    rw [List.map_cons]
    refine List.Forall₂.cons ?_ ih
    by_cases hc : (a.externalId == e) = true
    · rw [if_pos hc]
      have h1 : a.externalId = e := by simpa using hc
      refine ⟨hab.1, hab.2.1, fun _ => ?_⟩
      show V' a.externalId
      rw [h1]
      exact hV
    · rw [if_neg hc]
      have h1 : a.externalId ≠ e := by simpa using hc
      exact ⟨hab.1, hab.2.1, fun hne => hmono a.externalId h1 (hab.2.2 hne)⟩

theorem piRel_map_write_eq (V V' : Nat → Prop) (e pid : Nat) (mdl : String)
    (q : Nat) (pr rrc : ℚ) (hmono : ∀ x, x ≠ e → V x → V' x)
    {l' l : List PInfoR} (h : PiRel V l' l)
    (hrows : ∀ r ∈ l, r.externalId = e → piVals r = (pid, mdl, q, pr, rrc)) :
    PiRel V' (l'.map (fun s =>
      if s.externalId == e then
        { s with product := pid, model := mdl, quantity := q, price := pr, priceRrc := rrc }
      else s)) l := by
  unfold PiRel at *
  induction h with
  | nil => exact List.Forall₂.nil
  | @cons a b t₁ t₂ hab htail ih =>
    rw [List.map_cons]
    refine List.Forall₂.cons ?_ (ih (fun r hm => hrows r (List.mem_cons_of_mem b hm)))
    by_cases hc : (a.externalId == e) = true
    · rw [if_pos hc]
      have h1 : a.externalId = e := by simpa using hc
      have hbv : piVals b = (pid, mdl, q, pr, rrc) :=
        hrows b (List.mem_cons_self b t₂) (hab.2.1.symm.trans h1)
      refine ⟨hab.1, hab.2.1, fun hne => absurd (pinfo_ext
        ⟨a.id, a.externalId, pid, mdl, q, pr, rrc⟩ b hab.1 hab.2.1 ?_) hne⟩
      rw [hbv]
      rfl
    · rw [if_neg hc]
      have h1 : a.externalId ≠ e := by simpa using hc
      exact ⟨hab.1, hab.2.1, fun hne => hmono a.externalId h1 (hab.2.2 hne)⟩

theorem piWritten_cons_elim (m : List (Nat × Nat)) (g : GoodEntry)
    (rest : List GoodEntry) (x : Nat) (h : piWritten m (g :: rest) x) :
    (rowSkipped m g = false ∧ g.id = some x) ∨ piWritten m rest x := by
  obtain ⟨g', hm, hsk, hid⟩ := h
  rcases List.mem_cons.mp hm with heq | hm'
  · subst heq; exact Or.inl ⟨hsk, hid⟩
  · exact Or.inr ⟨g', hm', hsk, hid⟩

theorem ppWritten_cons_elim (m : List (Nat × Nat)) (g : GoodEntry)
    (rest : List GoodEntry) (c : Catalog) (pi prm : Nat)
    (h : ppWritten m (g :: rest) c pi prm) :
    (rowSkipped m g = false ∧ ∃ e, g.id = some e ∧ piIdAt c e = some pi ∧
      hitsPrm c g.parameters prm) ∨ ppWritten m rest c pi prm := by
  obtain ⟨g', hm, hsk, hrest⟩ := h
  rcases List.mem_cons.mp hm with heq | hm'
  · subst heq; exact Or.inl ⟨hsk, hrest⟩
  · exact Or.inr ⟨g', hm', hsk, hrest⟩

/-! ## paramStep unfolding helpers -/

theorem paramStep_valid_eq (piId : Nat) (c : Catalog) (n : String) (v : String)
    (h1 : ¬ n = "") :
    paramStep piId c (n, some v) =
      upsertPParam (getOrCreateParam c n).2 piId (getOrCreateParam c n).1 v := by
  unfold paramStep
  dsimp only
  rw [if_neg h1]

theorem paramStep_resolve_self (piId : Nat) (c : Catalog) (n : String) (v : String)
    (h1 : ¬ n = "") :
    resolveParam (paramStep piId c (n, some v)) n =
      some (getOrCreateParam c n).1 := by
  rw [paramStep_valid_eq piId c n v h1]
  rw [resolveParam_congr_params _ _ (upsertPParam_params _ _ _ _).1]
  exact getOrCreateParam_resolve c n

theorem paramStep_resolve_new (piId : Nat) (c : Catalog) (pv : String × Option String)
    (n : String) (x : Nat)
    (h : resolveParam (paramStep piId c pv) n = some x) :
    resolveParam c n = some x ∨ n = pv.1 := by
  obtain ⟨pn, pv2⟩ := pv
  unfold paramStep at h
  cases pv2 with
  | none => exact Or.inl h
  | some v =>
    dsimp only at h
    by_cases h1 : pn = ""
    · rw [if_pos h1] at h; exact Or.inl h
    · rw [if_neg h1] at h
      rw [resolveParam_congr_params _ _ (upsertPParam_params _ _ _ _).1] at h
      unfold getOrCreateParam at h
      cases hf : c.params.find? (fun p => p.name == pn) with
      | some p => rw [hf] at h; exact Or.inl h
      | none =>
        rw [hf] at h
        dsimp only at h
        by_cases hnn : pn = n
        · exact Or.inr hnn.symm
        · left
          unfold resolveParam at h ⊢
          dsimp only at h
          rw [find?_append_nomatch _ _ _
            (by show ((⟨c.nextParamId, pn⟩ : ParamR).name == n) = false
                exact beq_eq_false_iff_ne.mpr hnn)] at h
          exact h

/-! ## The agreement relation: reflexivity and the empty-tail case -/

theorem agree_refl (m : List (Nat × Nat)) (gs : List GoodEntry) (c : Catalog) :
    Agree m gs c c := by
  refine ⟨⟨rfl, rfl, rfl, rfl, rfl, rfl, rfl, rfl, rfl⟩, ?_, ?_⟩
  · unfold PiRel
    exact List.forall₂_same.mpr (fun r _ => ⟨rfl, rfl, fun hne => absurd rfl hne⟩)
  · unfold PpRel
    exact List.forall₂_same.mpr (fun r _ => ⟨rfl, rfl, fun hne => absurd rfl hne⟩)

theorem agree_nil_eq (m : List (Nat × Nat)) (c' c : Catalog)
    (h : Agree m [] c' c) : c' = c := by
  obtain ⟨ho, hpis, hpps⟩ := h
  have h7 : c'.pis = c.pis := by
    unfold PiRel at hpis
    rw [← List.forall₂_eq_eq_eq]
    refine hpis.imp ?_
    intro a b hab
    by_contra hne
    obtain ⟨g, hm, _⟩ := hab.2.2 hne
    exact absurd hm (List.not_mem_nil g)
  have h11 : c'.pparams = c.pparams := by
    unfold PpRel at hpps
    rw [← List.forall₂_eq_eq_eq]
    refine hpps.imp ?_
    intro a b hab
    by_contra hne
    obtain ⟨g, hm, _⟩ := hab.2.2 hne
    exact absurd hm (List.not_mem_nil g)
  exact catalog_ext c' c ho.shopName ho.shopCats ho.cats ho.nextCatId ho.products
    ho.nextProductId h7 ho.nextPiId ho.params ho.nextParamId h11

/-! ## Hypothesis restriction to the tail -/

theorem hcov_tail (m : List (Nat × Nat)) (g : GoodEntry) (rest : List GoodEntry)
    (c : Catalog) (h : Hcov m (g :: rest) c) : Hcov m rest c :=
  fun g' hm => h g' (List.mem_cons_of_mem g hm)

theorem hpi_tail (m : List (Nat × Nat)) (g : GoodEntry) (rest : List GoodEntry)
    (c : Catalog) (h : Hpi m (g :: rest) c) : Hpi m rest c := by
  intro e g₀ hlast
  exact h e g₀ (lastPiRow_cons_of_rest m g rest e g₀ hlast)

theorem hpp_tail (m : List (Nat × Nat)) (g : GoodEntry) (rest : List GoodEntry)
    (c : Catalog) (h : Hpp m (g :: rest) c) : Hpp m rest c := by
  intro pi prm v hlast
  refine h pi prm v ?_
  show lastEvt c pi prm (docEvts m (g :: rest)) = some v
  have hsplit : docEvts m (g :: rest) =
      (if rowSkipped m g then [] else rowEvts g) ++ docEvts m rest := rfl
  rw [hsplit, lastEvt_append, hlast]

/-! ## One row's parameter fold preserves the agreement relation -/

theorem paramFold_agree (piId : Nat) (W : Nat → Nat → Prop) (c : Catalog) :
    ∀ (l : List (String × Option String)) (c' : Catalog),
      OtherEq c' c →
      (∀ pv ∈ l, validPv pv → ∃ prm, resolveParam c pv.1 = some prm ∧
        ∃ r ∈ c.pparams, r.productInfo = piId ∧ r.parameter = prm) →
      (∀ prm v, lastPv c prm l = some v → W piId prm ∨
        ∀ r ∈ c.pparams, r.productInfo = piId → r.parameter = prm → r.value = v) →
      PpRel (fun pi prm => W pi prm ∨ (pi = piId ∧ hitsPrm c l prm))
        c'.pparams c.pparams →
      OtherEq (l.foldl (paramStep piId) c') c ∧
      (l.foldl (paramStep piId) c').pis = c'.pis ∧
      PpRel W (l.foldl (paramStep piId) c').pparams c.pparams := by
  intro l
  induction l with
  | nil =>
    intro c' hoth hcov hlast hrel
    refine ⟨hoth, rfl, ?_⟩
    unfold PpRel at *
    refine hrel.imp ?_
    intro a b hab
    refine ⟨hab.1, hab.2.1, fun hne => ?_⟩
    rcases hab.2.2 hne with hw | ⟨_, pv, hm, _⟩
    · exact hw
    · exact absurd hm (List.not_mem_nil pv)
  | cons pv rest ih =>
    intro c' hoth hcov hlast hrel
    rw [List.foldl_cons]
    obtain ⟨pn, pv2⟩ := pv
    by_cases hval : validPv (pn, pv2)
    case neg =>
      have hid : paramStep piId c' (pn, pv2) = c' := by
        unfold paramStep
        cases pv2 with
        | none => rfl
        | some v =>
          dsimp only
          rw [if_pos]
          by_contra h1
          exact hval ⟨fun h => Option.noConfusion h, h1⟩
      rw [hid]
      refine ih c' hoth (fun pv' hm hv => hcov pv' (List.mem_cons_of_mem _ hm) hv)
        (fun prm v hl => hlast prm v (lastPv_cons_of_rest c prm _ rest v hl)) ?_
      unfold PpRel at hrel ⊢
      refine hrel.imp ?_
      intro a b hab
      refine ⟨hab.1, hab.2.1, fun hne => ?_⟩
      rcases hab.2.2 hne with hw | ⟨hpi, pv', hm, hv', hres'⟩
      · exact Or.inl hw
      rcases List.mem_cons.mp hm with heq | hm'
      · exact absurd (heq ▸ hv') hval
      · exact Or.inr ⟨hpi, pv', hm', hv', hres'⟩
    case pos =>
      obtain ⟨hv2, hpn⟩ := hval
      obtain ⟨v, rfl⟩ := Option.ne_none_iff_exists'.mp hv2
      obtain ⟨prm, hres, hkey⟩ := hcov (pn, some v) (List.mem_cons_self _ _)
        ⟨fun h => Option.noConfusion h, hpn⟩
      have hres' : resolveParam c' pn = some prm := by
        rw [resolveParam_congr_params c c' hoth.params]
        exact hres
      have hstep : paramStep piId c' (pn, some v) = upsertPParam c' piId prm v := by
        rw [paramStep_valid_eq piId c' pn v hpn, getOrCreateParam_found c' pn prm hres']
      obtain ⟨r', hr'm, hr'1, hr'2⟩ := ppRel_key_transfer _ hrel piId prm hkey
      have hany : c'.pparams.any
          (fun r => r.productInfo == piId && r.parameter == prm) = true := by
        rw [List.any_eq_true]
        exact ⟨r', hr'm, by simp [hr'1, hr'2]⟩
      have hupd : upsertPParam c' piId prm v = { c' with pparams :=
          (c'.pparams.map (fun r => if r.productInfo == piId && r.parameter == prm
            then { r with value := v } else r)) } := by
        unfold upsertPParam
        rw [if_pos hany]
      rw [hstep, hupd]
      have hmono : ∀ x y, ¬ (x = piId ∧ y = prm) →
          (W x y ∨ (x = piId ∧ hitsPrm c ((pn, some v) :: rest) y)) →
          (W x y ∨ (x = piId ∧ hitsPrm c rest y)) := by
        intro x y hne hq
        rcases hq with hw | ⟨hx, pv', hm, hv', hres''⟩
        · exact Or.inl hw
        rcases List.mem_cons.mp hm with heq | hm'
        · subst heq
          have : y = prm := by
            have := hres''.symm.trans hres
            exact Option.some.inj this
          exact absurd ⟨hx, this⟩ hne
        · exact Or.inr ⟨hx, pv', hm', hv', hres''⟩
      have hrel2 : PpRel (fun pi prm' => W pi prm' ∨ (pi = piId ∧ hitsPrm c rest prm'))
          ({ c' with pparams :=
            (c'.pparams.map (fun r => if r.productInfo == piId && r.parameter == prm
              then { r with value := v } else r)) } : Catalog).pparams c.pparams := by
        show PpRel _ (c'.pparams.map _) c.pparams
        by_cases hfut : W piId prm ∨ hitsPrm c rest prm
        · refine ppRel_map_write_tag _ _ piId prm v ?_ hmono hrel
          rcases hfut with hw | hh
          · exact Or.inl hw
          · exact Or.inr ⟨rfl, hh⟩
        · have hnw : ¬ W piId prm := fun hw => hfut (Or.inl hw)
          have hnh : ¬ hitsPrm c rest prm := fun hh => hfut (Or.inr hh)
          have hlv : lastPv c prm ((pn, some v) :: rest) = some v := by
            rw [lastPv_cons_valid c prm pn v rest hpn,
              lastPv_none_of_no_hits c prm rest hnh]
            show (if resolveParam c pn = some prm then some v else none) = some v
            rw [if_pos hres]
          rcases hlast prm v hlv with hw | hrows
          · exact absurd hw hnw
          · exact ppRel_map_write_eq _ _ piId prm v hmono hrel hrows
      refine ih _ ⟨hoth.shopName, hoth.shopCats, hoth.cats, hoth.nextCatId,
        hoth.products, hoth.nextProductId, hoth.nextPiId, hoth.params,
        hoth.nextParamId⟩
        (fun pv' hm hv => hcov pv' (List.mem_cons_of_mem _ hm) hv)
        (fun prm' v' hl => hlast prm' v' (lastPv_cons_of_rest c prm' _ rest v' hl))
        hrel2

/-! ## One goods row preserves the agreement relation -/

theorem rowStep_agree (m : List (Nat × Nat)) (c : Catalog) (g : GoodEntry)
    (rest : List GoodEntry) (c' : Catalog)
    (hA : Agree m (g :: rest) c' c)
    (hcov : Hcov m (g :: rest) c) (hpi : Hpi m (g :: rest) c)
    (hpp : Hpp m (g :: rest) c) :
    Agree m rest (rowStep m c' g) c := by
  obtain ⟨hoth, hpis, hpps⟩ := hA
  cases hsk : rowSkipped m g with
  | true =>
    rw [rowStep_skipped m c' g hsk]
    refine ⟨hoth, ?_, ?_⟩
    · unfold PiRel at hpis ⊢
      refine hpis.imp ?_
      intro a b hab
      refine ⟨hab.1, hab.2.1, fun hne => ?_⟩
      rcases piWritten_cons_elim m g _ _ (hab.2.2 hne) with ⟨hf, _⟩ | hrest
      · rw [hf] at hsk; exact absurd hsk (by simp)
      · exact hrest
    · unfold PpRel at hpps ⊢
      refine hpps.imp ?_
      intro a b hab
      refine ⟨hab.1, hab.2.1, fun hne => ?_⟩
      rcases ppWritten_cons_elim m g _ c _ _ (hab.2.2 hne) with ⟨hf, _⟩ | hrest
      · rw [hf] at hsk; exact absurd hsk (by simp)
      · exact hrest
  | false =>
    obtain ⟨e, nm, cy, q, pr, cat, hid, hnm, hcy, hq, hpr, hcat⟩ :=
      rowSkipped_false_inv m g hsk
    obtain ⟨hcovP, hcovE⟩ := hcov g (List.mem_cons_self g rest) hsk
    obtain ⟨pid, hpid⟩ := Option.isSome_iff_exists.mp (hcovP nm hnm)
    obtain ⟨piId, hpiId, hparams⟩ := hcovE e hid
    obtain ⟨rowc, hrowc⟩ : ∃ r, piAt c e = some r := by
      unfold piIdAt at hpiId
      cases hx : piAt c e with
      | none => rw [hx] at hpiId; exact absurd hpiId (by simp)
      | some r => exact ⟨r, rfl⟩
    have hrowc_id : rowc.id = piId := by
      unfold piIdAt at hpiId
      rw [hrowc] at hpiId
      simpa using hpiId
    rw [rowStep_eq m c' g e nm cy q pr cat hid hnm hcy hq hpr hcat]
    have hpid' : resolveProduct c' nm = some pid := by
      rw [resolveProduct_congr c c' hoth.products]
      exact hpid
    have hgp : getOrCreateProduct c' nm cat = (pid, c') :=
      getOrCreateProduct_found c' nm cat pid hpid'
    rw [hgp]
    dsimp only
    obtain ⟨a₀, ha₀, ha₀id, ha₀ext⟩ := piRel_find_transfer _ hpis e rowc hrowc
    have ha : a₀.id = piId := ha₀id.trans hrowc_id
    have hupi := upsertPi_found c' e pid (g.model.getD "") q pr (g.priceRrc.getD 0) a₀ ha₀
    rw [hupi]
    dsimp only
    rw [ha]
    have hpis2 : PiRel (piWritten m rest) (c'.pis.map (fun s =>
        if s.externalId == e then
          { s with product := pid, model := g.model.getD "", quantity := q, price := pr, priceRrc := g.priceRrc.getD 0 }
        else s)) c.pis := by
      have hmono : ∀ x, x ≠ e → piWritten m (g :: rest) x → piWritten m rest x := by
        intro x hx hw
        rcases piWritten_cons_elim m g rest x hw with ⟨_, hidx⟩ | hr
        · rw [hid] at hidx
          exact absurd (Option.some.inj hidx).symm hx
        · exact hr
      by_cases hfut : piWritten m rest e
      · exact piRel_map_write_tag _ _ e pid (g.model.getD "") q pr (g.priceRrc.getD 0)
          hfut hmono hpis
      · have hlastrow : lastPiRow m (g :: rest) e = some g :=
          lastPiRow_self_of_no_rest m g rest e hsk hid hfut
        obtain ⟨pid₀, hpid₀, hrows⟩ := hpi e g hlastrow nm q pr hnm hq hpr
        have hpe : pid₀ = pid := by
          rw [hpid₀] at hpid
          exact Option.some.inj hpid
        subst hpe
        exact piRel_map_write_eq _ _ e pid₀ (g.model.getD "") q pr (g.priceRrc.getD 0)
          hmono hpis hrows
    have hpps2 : PpRel (fun pi prm => ppWritten m rest c pi prm ∨
        (pi = piId ∧ hitsPrm c g.parameters prm)) c'.pparams c.pparams := by
      unfold PpRel at hpps ⊢
      refine hpps.imp ?_
      intro a b hab
      refine ⟨hab.1, hab.2.1, fun hne => ?_⟩
      rcases ppWritten_cons_elim m g rest c _ _ (hab.2.2 hne) with
        ⟨_, e', hide', hpie', hhits⟩ | hr
      · rw [hid] at hide'
        have he' : e' = e := (Option.some.inj hide').symm
        subst he'
        have hppi : a.productInfo = piId :=
          Option.some.inj (hpie'.symm.trans hpiId)
        exact Or.inr ⟨hppi, hhits⟩
      · exact Or.inl hr
    have hlastL : ∀ prm v, lastPv c prm g.parameters = some v →
        ppWritten m rest c piId prm ∨
        ∀ r ∈ c.pparams, r.productInfo = piId → r.parameter = prm → r.value = v := by
      intro prm v hlv
      by_cases hfutpp : ppWritten m rest c piId prm
      · exact Or.inl hfutpp
      · right
        have hnone : lastEvt c piId prm (docEvts m rest) = none := by
          cases hle : lastEvt c piId prm (docEvts m rest) with
          | none => rfl
          | some w =>
            exfalso
            obtain ⟨ev, hevm, hev1, hev2, _⟩ := lastEvt_isSome_match c piId prm _ w hle
            obtain ⟨g', hg'm, hg'sk, hevrow⟩ := mem_docEvts m rest ev hevm
            obtain ⟨hev1', pv', hpv'm, hpv'v, hpv'1, hpv'2⟩ := mem_rowEvts g' ev hevrow
            refine hfutpp ⟨g', hg'm, hg'sk, g'.id.getD 0, ?_, ?_, ?_⟩
            · obtain ⟨e₂, _, _, _, _, _, hid₂, _⟩ := rowSkipped_false_inv m g' hg'sk
              rw [hid₂]
              simp
            · rw [← hev1']
              exact hev1
            · exact ⟨pv', hpv'm, hpv'v, by rw [hpv'1]; exact hev2⟩
        refine hpp piId prm v ?_
        have hsplit : docEvts m (g :: rest) = rowEvts g ++ docEvts m rest := by
          show (if rowSkipped m g then [] else rowEvts g) ++ docEvts m rest = _
          rw [hsk]
          rfl
        rw [hsplit, lastEvt_append, hnone]
        show lastEvt c piId prm (rowEvts g) = some v
        rw [lastEvt_rowEvts c piId prm g (by rw [hid]; simpa using hpiId)]
        exact hlv
    obtain ⟨hothF, hpisF, hppsF⟩ := paramFold_agree piId (ppWritten m rest c) c
      g.parameters
      { c' with pis := (c'.pis.map (fun s => if s.externalId == e then { s with product := pid, model := g.model.getD "", quantity := q, price := pr, priceRrc := g.priceRrc.getD 0 } else s)) }
      ⟨hoth.shopName, hoth.shopCats, hoth.cats, hoth.nextCatId, hoth.products,
        hoth.nextProductId, hoth.nextPiId, hoth.params, hoth.nextParamId⟩
      hparams hlastL hpps2
    refine ⟨hothF, ?_, hppsF⟩
    unfold PiRel
    rw [hpisF]
    exact hpis2

/-! ## The goods loop fixes its own output -/

theorem processGoods_fix (m : List (Nat × Nat)) (c : Catalog) :
    ∀ (gs : List GoodEntry) (c' : Catalog), Agree m gs c' c →
      Hcov m gs c → Hpi m gs c → Hpp m gs c →
      processGoods m c' gs = c := by
  intro gs
  induction gs with
  | nil => intro c' hA _ _ _; exact agree_nil_eq m c' c hA
  | cons g rest ih =>
    intro c' hA hcov hpi hpp
    show processGoods m (rowStep m c' g) rest = c
    exact ih (rowStep m c' g) (rowStep_agree m c g rest c' hA hcov hpi hpp)
      (hcov_tail m g rest c hcov) (hpi_tail m g rest c hpi) (hpp_tail m g rest c hpp)

/-! ## The first run establishes the coverage hypothesis -/

theorem processGoods_concat (m : List (Nat × Nat)) (c : Catalog)
    (init : List GoodEntry) (h : GoodEntry) :
    processGoods m c (init ++ [h]) = rowStep m (processGoods m c init) h := by
  unfold processGoods
  rw [List.foldl_append]
  rfl

theorem rowStep_establishes_cov (m : List (Nat × Nat)) (g : GoodEntry)
    (hsk : rowSkipped m g = false) (e : Nat) (nm : String)
    (hid : g.id = some e) (hnm : g.name = some nm) :
    ∀ c₀ : Catalog,
      (resolveProduct (rowStep m c₀ g) nm).isSome ∧
      ∃ pi, piIdAt (rowStep m c₀ g) e = some pi ∧
        ∀ pv ∈ g.parameters, validPv pv →
          ∃ prm, resolveParam (rowStep m c₀ g) pv.1 = some prm ∧
            (ppAt (rowStep m c₀ g) pi prm).isSome := by
  intro c₀
  obtain ⟨e', nm', cy, q, pr, cat, hid', hnm', hcy, hq, hpr, hcat⟩ :=
    rowSkipped_false_inv m g hsk
  rw [rowStep_eq m c₀ g e nm cy q pr cat hid hnm hcy hq hpr hcat]
  set rp := getOrCreateProduct c₀ nm cat with hrp
  set ri := upsertPi rp.2 e rp.1 (g.model.getD "") q pr (g.priceRrc.getD 0) with hri
  refine ⟨?_, ri.1, ?_, ?_⟩
  · have hf1 := paramFold_productFields ri.1 g.parameters ri.2
    simp only [productFields, Prod.mk.injEq] at hf1
    rw [resolveProduct_congr _ _ hf1.1]
    have hf2 := upsertPi_productFields rp.2 e rp.1 (g.model.getD "") q pr (g.priceRrc.getD 0)
    simp only [productFields, Prod.mk.injEq] at hf2
    rw [resolveProduct_congr _ _ hf2.1]
    rw [getOrCreateProduct_resolve c₀ nm cat]
    rfl
  · rw [piIdAt_paramFold]
    show (piAt ri.2 e).map PInfoR.id = some ri.1
    rw [hri, upsertPi_piAt]
    rfl
  · intro pv hpvm hpvv
    refine foldl_estab (paramStep ri.1)
      (fun d => ∃ prm, resolveParam d pv.1 = some prm ∧ (ppAt d ri.1 prm).isSome)
      ?_ g.parameters ri.2 pv hpvm ?_
    · intro s pv' hP
      obtain ⟨prm, h1, h2⟩ := hP
      exact ⟨prm, resolveParam_paramStep_stable ri.1 s pv' pv.1 prm h1,
        ppAt_isSome_paramStep ri.1 s pv' ri.1 prm h2⟩
    · intro s
      obtain ⟨hv2, hv1⟩ := hpvv
      obtain ⟨v, hv⟩ := Option.ne_none_iff_exists'.mp hv2
      have hpv : pv = (pv.1, some v) := by
        rw [← hv]
      rw [hpv, paramStep_valid_eq ri.1 s pv.1 v hv1]
      refine ⟨(getOrCreateParam s pv.1).1, ?_, ?_⟩
      · rw [resolveParam_congr_params _ _ (upsertPParam_params _ _ _ _).1]
        exact getOrCreateParam_resolve s pv.1
      · rw [upsertPParam_ppAt]
        rfl

theorem processGoods_cov (m : List (Nat × Nat)) (gs : List GoodEntry) (c : Catalog) :
    Hcov m gs (processGoods m c gs) := by
  intro g hm hsk
  obtain ⟨e, nm, cy, q, pr, cat, hid, hnm, hcy, hq, hpr, hcat⟩ :=
    rowSkipped_false_inv m g hsk
  have key : (resolveProduct (processGoods m c gs) nm).isSome ∧
      ∃ pi, piIdAt (processGoods m c gs) e = some pi ∧
        ∀ pv ∈ g.parameters, validPv pv →
          ∃ prm, resolveParam (processGoods m c gs) pv.1 = some prm ∧
            (ppAt (processGoods m c gs) pi prm).isSome := by
    refine foldl_estab (rowStep m)
      (fun d => (resolveProduct d nm).isSome = true ∧
        ∃ pi, piIdAt d e = some pi ∧
          ∀ pv ∈ g.parameters, validPv pv →
            ∃ prm, resolveParam d pv.1 = some prm ∧ (ppAt d pi prm).isSome = true)
      ?_ gs c g hm (rowStep_establishes_cov m g hsk e nm hid hnm)
    intro s g'' hP
    obtain ⟨h1, pi, h2, h3⟩ := hP
    obtain ⟨pd, hpd⟩ := Option.isSome_iff_exists.mp h1
    refine ⟨by rw [resolveProduct_rowStep m s g'' nm pd hpd]; rfl, pi,
      piIdAt_rowStep m s g'' e pi h2, ?_⟩
    intro pv hpvm hpvv
    obtain ⟨prm, hr, hk⟩ := h3 pv hpvm hpvv
    exact ⟨prm, resolveParam_rowStep m s g'' pv.1 prm hr,
      ppAt_isSome_rowStep m s g'' pi prm hk⟩
  obtain ⟨h1, pi, h2, h3⟩ := key
  refine ⟨?_, ?_⟩
  · intro nm' hnm'
    have hx : nm' = nm := Option.some.inj (hnm'.symm.trans hnm)
    subst hx
    exact h1
  · intro e' hid'
    have hx : e' = e := Option.some.inj (hid'.symm.trans hid)
    subst hx
    refine ⟨pi, h2, ?_⟩
    intro pv hpvm hpvv
    obtain ⟨prm, hr, hk⟩ := h3 pv hpvm hpvv
    exact ⟨prm, hr, (ppAt_isSome_iff_exists _ pi prm).mp hk⟩

/-! ## The first run establishes the last-writer property on listings -/

theorem upsertPi_other_rows (c : Catalog) (e' pid : Nat) (mdl : String) (q : Nat)
    (pr rrc : ℚ) (e : Nat) (hne : e' ≠ e) (Q : PInfoR → Prop)
    (hrows : ∀ r ∈ c.pis, r.externalId = e → Q r) :
    ∀ r ∈ (upsertPi c e' pid mdl q pr rrc).2.pis, r.externalId = e → Q r := by
  cases hf : piAt c e' with
  | some a₀ =>
    rw [upsertPi_found c e' pid mdl q pr rrc a₀ hf]
    intro r hr hre
    dsimp only at hr
    obtain ⟨r₀, hr₀, hmap⟩ := List.mem_map.mp hr
    by_cases hc : (r₀.externalId == e') = true
    · rw [if_pos hc] at hmap
      subst hmap
      have hr₀e : r₀.externalId = e' := by simpa using hc
      exact absurd (hr₀e.symm.trans hre) hne
    · rw [if_neg hc] at hmap
      subst hmap
      exact hrows r₀ hr₀ hre
  | none =>
    rw [upsertPi_notfound c e' pid mdl q pr rrc hf]
    intro r hr hre
    dsimp only at hr
    rcases List.mem_append.mp hr with hl | hr1
    · exact hrows r hl hre
    · have hx : r = ⟨c.nextPiId, e', pid, mdl, q, pr, rrc⟩ := by simpa using hr1
      subst hx
      exact absurd hre hne

theorem rowStep_pis_other (m : List (Nat × Nat)) (c₀ : Catalog) (h : GoodEntry)
    (e : Nat) (Q : PInfoR → Prop)
    (hno : (!rowSkipped m h && h.id == some e) = false)
    (hrows : ∀ r ∈ c₀.pis, r.externalId = e → Q r) :
    ∀ r ∈ (rowStep m c₀ h).pis, r.externalId = e → Q r := by
  cases hsk : rowSkipped m h with
  | true => rw [rowStep_skipped m c₀ h hsk]; exact hrows
  | false =>
    obtain ⟨e', nm, cy, q, pr, cat, hid, hnm, hcy, hq, hpr, hcat⟩ :=
      rowSkipped_false_inv m h hsk
    have hee : e' ≠ e := by
      intro heq
      subst heq
      rw [hsk, hid] at hno
      simp at hno
    rw [rowStep_eq m c₀ h e' nm cy q pr cat hid hnm hcy hq hpr hcat]
    have hf1 := paramFold_piFields (upsertPi (getOrCreateProduct c₀ nm cat).2 e'
      (getOrCreateProduct c₀ nm cat).1 (h.model.getD "") q pr (h.priceRrc.getD 0)).1
      h.parameters (upsertPi (getOrCreateProduct c₀ nm cat).2 e'
      (getOrCreateProduct c₀ nm cat).1 (h.model.getD "") q pr (h.priceRrc.getD 0)).2
    simp only [piFields, Prod.mk.injEq] at hf1
    intro r hr hre
    rw [hf1.1] at hr
    refine upsertPi_other_rows (getOrCreateProduct c₀ nm cat).2 e'
      (getOrCreateProduct c₀ nm cat).1 (h.model.getD "") q pr (h.priceRrc.getD 0)
      e hee Q ?_ r hr hre
    have hf2 := getOrCreateProduct_piFields c₀ nm cat
    simp only [piFields, Prod.mk.injEq] at hf2
    rw [hf2.1]
    exact hrows

theorem processGoods_lastPi (m : List (Nat × Nat)) (c : Catalog)
    (gs : List GoodEntry) : Hpi m gs (processGoods m c gs) := by
  induction gs using List.reverseRecOn with
  | nil =>
    intro e g hlast
    simp [lastPiRow] at hlast
  | append_singleton init h ih =>
    intro e g hlast nm q pr hnm hq hpr
    rw [processGoods_concat m c init h]
    by_cases hkeep : (!rowSkipped m h && h.id == some e) = true
    · have hsk : rowSkipped m h = false := by
        rw [Bool.and_eq_true_iff] at hkeep
        cases hx : rowSkipped m h with
        | false => rfl
        | true => rw [hx] at hkeep; exact absurd hkeep.1 (by simp)
      have hhid : h.id = some e := by
        rw [Bool.and_eq_true_iff] at hkeep
        simpa using hkeep.2
      have hg : g = h :=
        Option.some.inj (hlast.symm.trans (lastPiRow_concat_self m init h e hsk hhid))
      subst hg
      obtain ⟨e', nm', cy, q', pr', cat, hid', hnm', hcy, hq', hpr', hcat⟩ :=
        rowSkipped_false_inv m g hsk
      rw [rowStep_eq m (processGoods m c init) g e nm cy q pr cat hhid hnm hcy hq hpr hcat]
      set F : Catalog := processGoods m c init with hF
      set rp := getOrCreateProduct F nm cat with hrp
      set ri := upsertPi rp.2 e rp.1 (g.model.getD "") q pr (g.priceRrc.getD 0) with hri
      refine ⟨rp.1, ?_, ?_⟩
      · have hf1 := paramFold_productFields ri.1 g.parameters ri.2
        simp only [productFields, Prod.mk.injEq] at hf1
        rw [resolveProduct_congr _ _ hf1.1]
        have hf2 := upsertPi_productFields rp.2 e rp.1 (g.model.getD "") q pr (g.priceRrc.getD 0)
        simp only [productFields, Prod.mk.injEq] at hf2
        rw [resolveProduct_congr _ _ hf2.1]
        exact getOrCreateProduct_resolve F nm cat
      · intro r hr hre
        have hf1 := paramFold_piFields ri.1 g.parameters ri.2
        simp only [piFields, Prod.mk.injEq] at hf1
        rw [hf1.1] at hr
        rw [hri] at hr
        exact upsertPi_allRows rp.2 e rp.1 (g.model.getD "") q pr (g.priceRrc.getD 0) r hr hre
    · have hkf : (!rowSkipped m h && h.id == some e) = false := by
        cases hx : (!rowSkipped m h && h.id == some e) with
        | false => rfl
        | true => exact absurd hx hkeep
      have hlast' : lastPiRow m init e = some g := by
        rw [← lastPiRow_concat_other m init h e hkf]
        exact hlast
      obtain ⟨pid, hpid, hrows⟩ := ih e g hlast' nm q pr hnm hq hpr
      exact ⟨pid, resolveProduct_rowStep m (processGoods m c init) h nm pid hpid,
        rowStep_pis_other m (processGoods m c init) h e _ hkf hrows⟩

/-! ## The first run establishes the last-writer property on parameter values -/

theorem upsertPParam_other_rows (c : Catalog) (a' b' : Nat) (w : String)
    (pi prm : Nat) (hne : ¬ (a' = pi ∧ b' = prm)) (v : String)
    (hrows : ∀ r ∈ c.pparams, r.productInfo = pi → r.parameter = prm → r.value = v) :
    ∀ r ∈ (upsertPParam c a' b' w).pparams, r.productInfo = pi → r.parameter = prm →
      r.value = v := by
  unfold upsertPParam
  split
  · intro r hr h1 h2
    dsimp only at hr
    obtain ⟨r₀, hr₀, hmap⟩ := List.mem_map.mp hr
    by_cases hc : (r₀.productInfo == a' && r₀.parameter == b') = true
    · rw [if_pos hc] at hmap
      subst hmap
      rw [Bool.and_eq_true_iff] at hc
      exfalso
      refine hne ⟨?_, ?_⟩
      · have hx : r₀.productInfo = a' := by simpa using hc.1
        exact hx.symm.trans h1
      · have hx : r₀.parameter = b' := by simpa using hc.2
        exact hx.symm.trans h2
    · rw [if_neg hc] at hmap
      subst hmap
      exact hrows r₀ hr₀ h1 h2
  · intro r hr h1 h2
    dsimp only at hr
    rcases List.mem_append.mp hr with hl | hr1
    · exact hrows r hl h1 h2
    · have hx : r = ⟨a', b', w⟩ := by simpa using hr1
      subst hx
      exact absurd ⟨h1, h2⟩ hne

theorem paramFold_lastPv_rows (piId : Nat) :
    ∀ (l : List (String × Option String)) (d : Catalog) (prm : Nat) (v : String),
      lastPv (l.foldl (paramStep piId) d) prm l = some v →
      ∀ r ∈ (l.foldl (paramStep piId) d).pparams, r.productInfo = piId →
        r.parameter = prm → r.value = v := by
  intro l
  induction l using List.reverseRecOn with
  | nil =>
    intro d prm v hl
    simp [lastPv] at hl
  | append_singleton l₀ pv ih =>
    intro d prm v hl
    rw [List.foldl_append, List.foldl_cons, List.foldl_nil] at hl ⊢
    set G₀ := l₀.foldl (paramStep piId) d with hG₀
    obtain ⟨pn, pv2⟩ := pv
    rw [lastPv_append] at hl
    cases pv2 with
    | none =>
      have hone : lastPv (paramStep piId G₀ (pn, none)) prm [(pn, none)] = none := by
        simp [lastPv]
      rw [hone] at hl
      dsimp only at hl
      exact ih d prm v hl
    | some v₀ =>
      by_cases hpn : pn = ""
      · have hid : paramStep piId G₀ (pn, some v₀) = G₀ := by
          unfold paramStep
          dsimp only
          rw [if_pos hpn]
        rw [hid] at hl ⊢
        have hone : lastPv G₀ prm [(pn, some v₀)] = none := by
          simp [lastPv, hpn]
        rw [hone] at hl
        dsimp only at hl
        exact ih d prm v hl
      · have hstep := paramStep_valid_eq piId G₀ pn v₀ hpn
        have hres := paramStep_resolve_self piId G₀ pn v₀ hpn
        by_cases hkprm : (getOrCreateParam G₀ pn).1 = prm
        · have hone : lastPv (paramStep piId G₀ (pn, some v₀)) prm [(pn, some v₀)] =
              some v₀ := by
            simp only [lastPv]
            dsimp only
            rw [if_neg hpn, if_pos (by rw [hres, hkprm])]
          rw [hone] at hl
          dsimp only at hl
          cases hl
          rw [hstep]
          intro r hr h1 h2
          exact upsertPParam_allRows (getOrCreateParam G₀ pn).2 piId
            (getOrCreateParam G₀ pn).1 _ r hr h1 (h2.trans hkprm.symm)
        · have hone : lastPv (paramStep piId G₀ (pn, some v₀)) prm [(pn, some v₀)] =
              none := by
            simp only [lastPv]
            dsimp only
            rw [if_neg hpn, if_neg (by
              rw [hres]
              intro hx
              exact hkprm (Option.some.inj hx))]
          rw [hone] at hl
          dsimp only at hl
          have hcongr : lastPv (paramStep piId G₀ (pn, some v₀)) prm l₀ =
              lastPv G₀ prm l₀ := by
            refine lastPv_congr _ _ prm l₀ ?_
            intro pv' hm hv
            constructor
            · intro hx
              rcases paramStep_resolve_new piId G₀ (pn, some v₀) pv'.1 prm hx with hy | hnn
              · exact hy
              · exfalso
                rw [hnn] at hx
                rw [hres] at hx
                exact hkprm (Option.some.inj hx)
            · intro hx
              exact resolveParam_paramStep_stable piId G₀ (pn, some v₀) pv'.1 prm hx
          rw [hcongr] at hl
          have hrows₀ := ih d prm v hl
          rw [hstep]
          refine upsertPParam_other_rows _ piId (getOrCreateParam G₀ pn).1 v₀ piId prm
            (fun hx => hkprm hx.2) v ?_
          intro r hr h1 h2
          rw [getOrCreateParam_pparams] at hr
          exact hrows₀ r hr h1 h2

theorem paramFold_rows_preserve (piId : Nat) :
    ∀ (l : List (String × Option String)) (d : Catalog) (pi prm : Nat) (v : String),
      (∀ pv ∈ l, validPv pv →
        ¬ (piId = pi ∧ resolveParam (l.foldl (paramStep piId) d) pv.1 = some prm)) →
      (∀ r ∈ d.pparams, r.productInfo = pi → r.parameter = prm → r.value = v) →
      ∀ r ∈ (l.foldl (paramStep piId) d).pparams, r.productInfo = pi →
        r.parameter = prm → r.value = v := by
  intro l
  induction l using List.reverseRecOn with
  | nil => intro d pi prm v _ hrows; exact hrows
  | append_singleton l₀ pv ih =>
    intro d pi prm v hno hrows
    rw [List.foldl_append, List.foldl_cons, List.foldl_nil] at hno ⊢
    set G₀ := l₀.foldl (paramStep piId) d with hG₀
    obtain ⟨pn, pv2⟩ := pv
    cases pv2 with
    | none =>
      have hid : paramStep piId G₀ (pn, none) = G₀ := rfl
      rw [hid] at hno ⊢
      refine ih d pi prm v ?_ hrows
      intro pv' hm hv
      exact hno pv' (List.mem_append_left _ hm) hv
    | some v₀ =>
      by_cases hpn : pn = ""
      · have hid : paramStep piId G₀ (pn, some v₀) = G₀ := by
          unfold paramStep
          dsimp only
          rw [if_pos hpn]
        rw [hid] at hno ⊢
        refine ih d pi prm v ?_ hrows
        intro pv' hm hv
        exact hno pv' (List.mem_append_left _ hm) hv
      · have hstep := paramStep_valid_eq piId G₀ pn v₀ hpn
        have hres := paramStep_resolve_self piId G₀ pn v₀ hpn
        have hnopv := hno (pn, some v₀) (List.mem_append_right _ (by simp))
          ⟨fun hx => Option.noConfusion hx, hpn⟩
        have hkey_ne : ¬ (piId = pi ∧ (getOrCreateParam G₀ pn).1 = prm) := by
          rintro ⟨h1, h2⟩
          exact hnopv ⟨h1, by rw [hres, h2]⟩
        have hno₀ : ∀ pv' ∈ l₀, validPv pv' →
            ¬ (piId = pi ∧ resolveParam G₀ pv'.1 = some prm) := by
          intro pv' hm hv
          rintro ⟨h1, h2⟩
          exact hno pv' (List.mem_append_left _ hm) hv
            ⟨h1, resolveParam_paramStep_stable piId G₀ (pn, some v₀) pv'.1 prm h2⟩
        have hrows₀ := ih d pi prm v hno₀ hrows
        rw [hstep]
        refine upsertPParam_other_rows _ piId (getOrCreateParam G₀ pn).1 v₀ pi prm
          hkey_ne v ?_
        intro r hr h1 h2
        rw [getOrCreateParam_pparams] at hr
        exact hrows₀ r hr h1 h2

theorem docEvts_covered (m : List (Nat × Nat)) (gs : List GoodEntry) (c : Catalog) :
    ∀ ev ∈ docEvts m gs, (piIdAt (processGoods m c gs) ev.1).isSome ∧
      (resolveParam (processGoods m c gs) ev.2.1).isSome := by
  intro ev hev
  obtain ⟨g, hgm, hgsk, hevrow⟩ := mem_docEvts m gs ev hev
  obtain ⟨hev1, pv, hpvm, hpvv, hpv1, hpv2⟩ := mem_rowEvts g ev hevrow
  have hcov := processGoods_cov m gs c g hgm hgsk
  obtain ⟨e, nm, cy, q, pr, cat, hid, hnm, hcy, hq, hpr, hcat⟩ :=
    rowSkipped_false_inv m g hgsk
  obtain ⟨pi, hpi, hparams⟩ := hcov.2 e hid
  obtain ⟨prm, hprm, _⟩ := hparams pv hpvm hpvv
  constructor
  · rw [hev1, hid]
    simp only [Option.getD_some]
    rw [hpi]
    rfl
  · rw [← hpv1]
    rw [hprm]
    rfl

theorem processGoods_lastEvt (m : List (Nat × Nat)) (c : Catalog)
    (gs : List GoodEntry) : Hpp m gs (processGoods m c gs) := by
  induction gs using List.reverseRecOn with
  | nil =>
    intro pi prm v hl
    simp [docEvts, lastEvt] at hl
  | append_singleton init h ih =>
    intro pi prm v hl
    rw [processGoods_concat m c init h] at hl ⊢
    rw [docEvts_append m init [h]] at hl
    cases hsk : rowSkipped m h with
    | true =>
      rw [rowStep_skipped m (processGoods m c init) h hsk] at hl ⊢
      have hemp : docEvts m [h] = ([] : List (Nat × String × String)) := by
        show (if rowSkipped m h then [] else rowEvts h) ++ docEvts m [] = []
        rw [hsk]
        rfl
      rw [hemp, List.append_nil] at hl
      exact ih pi prm v hl
    | false =>
      have hsplit : docEvts m [h] = rowEvts h := by
        show (if rowSkipped m h then [] else rowEvts h) ++ docEvts m [] = rowEvts h
        rw [hsk]
        exact List.append_nil _
      rw [hsplit, lastEvt_append] at hl
      obtain ⟨e, nm, cy, q, pr, cat, hid, hnm, hcy, hq, hpr, hcat⟩ :=
        rowSkipped_false_inv m h hsk
      have hRS := rowStep_eq m (processGoods m c init) h e nm cy q pr cat
        hid hnm hcy hq hpr hcat
      rw [hRS] at hl ⊢
      set F : Catalog := processGoods m c init with hF
      set rp := getOrCreateProduct F nm cat with hrp
      set ri := upsertPi rp.2 e rp.1 (h.model.getD "") q pr (h.priceRrc.getD 0) with hri
      set G : Catalog := h.parameters.foldl (paramStep ri.1) ri.2 with hG
      have hpiG : piIdAt G e = some ri.1 := by
        rw [hG, piIdAt_paramFold]
        show (piAt ri.2 e).map PInfoR.id = some ri.1
        rw [hri, upsertPi_piAt]
        rfl
      cases hone : lastEvt G pi prm (rowEvts h) with
      | some w =>
        rw [hone] at hl
        dsimp only at hl
        cases hl
        obtain ⟨ev, hevm, hev1, hev2, _⟩ := lastEvt_isSome_match G pi prm _ _ hone
        have hpiEv : piIdAt G (h.id.getD 0) = some pi := by
          obtain ⟨hx, _⟩ := mem_rowEvts h ev hevm
          rw [← hx]
          exact hev1
        rw [hid] at hpiEv
        simp only [Option.getD_some] at hpiEv
        have hpieq : ri.1 = pi := Option.some.inj (hpiG.symm.trans hpiEv)
        have hbr : lastEvt G pi prm (rowEvts h) = lastPv G prm h.parameters := by
          refine lastEvt_rowEvts G pi prm h ?_
          rw [hid]
          simp only [Option.getD_some]
          rw [hpiG, hpieq]
        rw [hbr] at hone
        intro r hr h1 h2
        exact paramFold_lastPv_rows ri.1 h.parameters ri.2 prm _ hone r hr
          (h1.trans hpieq.symm) h2
      | none =>
        rw [hone] at hl
        dsimp only at hl
        have hcongr : lastEvt G pi prm (docEvts m init) =
            lastEvt F pi prm (docEvts m init) := by
          refine lastEvt_congr G F pi prm _ ?_
          intro ev hev
          obtain ⟨hx0, hy0⟩ := docEvts_covered m init c ev hev
          obtain ⟨x, hx⟩ := Option.isSome_iff_exists.mp hx0
          obtain ⟨y, hy⟩ := Option.isSome_iff_exists.mp hy0
          have hxG : piIdAt G ev.1 = some x := by
            have hz := piIdAt_rowStep m F h ev.1 x hx
            rw [hRS] at hz
            exact hz
          have hyG : resolveParam G ev.2.1 = some y := by
            have hz := resolveParam_rowStep m F h ev.2.1 y hy
            rw [hRS] at hz
            exact hz
          constructor
          · rintro ⟨h1, h2⟩
            refine ⟨?_, ?_⟩
            · rw [hx, Option.some.injEq]
              exact Option.some.inj (hxG.symm.trans h1)
            · rw [hy, Option.some.injEq]
              exact Option.some.inj (hyG.symm.trans h2)
          · rintro ⟨h1, h2⟩
            constructor
            · have hxx : x = pi := Option.some.inj (hx.symm.trans h1)
              rw [← hxx]
              exact hxG
            · have hyy : y = prm := Option.some.inj (hy.symm.trans h2)
              rw [← hyy]
              exact hyG
        rw [hcongr] at hl
        have hrows' := ih pi prm v hl
        have hnomatch := lastEvt_none_no_match G pi prm (rowEvts h) hone
        have hpp_ri : ri.2.pparams = F.pparams := by
          have hf1 := upsertPi_paramFields rp.2 e rp.1 (h.model.getD "") q pr
            (h.priceRrc.getD 0)
          have hf2 := getOrCreateProduct_paramFields F nm cat
          have hf3 := hf1.trans hf2
          simp only [paramFields, Prod.mk.injEq] at hf3
          exact hf3.2.2
        intro r hr h1 h2
        refine paramFold_rows_preserve ri.1 h.parameters ri.2 pi prm v ?_ ?_ r hr h1 h2
        · intro pv hm hv
          rintro ⟨hpi1, hpi2⟩
          obtain ⟨v₀, hv₀⟩ := Option.ne_none_iff_exists'.mp hv.1
          refine hnomatch (h.id.getD 0, pv.1, v₀)
            (rowEvts_mem_intro h pv v₀ hm hv₀ hv.2) ⟨?_, ?_⟩
          · rw [hid]
            simp only [Option.getD_some]
            rw [hpiG, hpi1]
          · exact hpi2
        · intro r' hr' h1' h2'
          rw [hpp_ri] at hr'
          exact hrows' r' hr' h1' h2'

/-- Rerunning the goods loop on its own output changes nothing. -/
theorem processGoods_idem (m : List (Nat × Nat)) (c : Catalog) (gs : List GoodEntry) :
    processGoods m (processGoods m c gs) gs = processGoods m c gs :=
  processGoods_fix m (processGoods m c gs) gs (processGoods m c gs)
    (agree_refl m gs (processGoods m c gs))
    (processGoods_cov m gs c) (processGoods_lastPi m c gs) (processGoods_lastEvt m c gs)

/-! ## The category phase of a rerun is the identity -/

theorem catStep_cat_shopName (s : CatPhase) (ce : CatEntry) :
    (catStep s ce).cat.shopName = s.cat.shopName := by
  unfold catStep
  cases truthyName ce.name with
  | none => rfl
  | some n =>
    have h1 : ∀ k, (attachCat (getOrCreateCat s.cat n).2 k).shopName
        = (getOrCreateCat s.cat n).2.shopName := by
      intro k
      unfold attachCat
      split <;> rfl
    have h2 : (getOrCreateCat s.cat n).2.shopName = s.cat.shopName := by
      unfold getOrCreateCat
      cases s.cat.cats.find? (fun k => k.name == n) <;> rfl
    cases truthyId ce.id <;> (dsimp only; rw [h1, h2])

theorem catFold_shopName (es : List CatEntry) (s : CatPhase) :
    (es.foldl catStep s).cat.shopName = s.cat.shopName :=
  foldl_proj catStep (fun s => s.cat.shopName) catStep_cat_shopName es s

theorem attachCat_mem_inv (c : Catalog) (x k : Nat)
    (h : k ∈ (attachCat c x).shopCats) : k ∈ c.shopCats ∨ k = x := by
  unfold attachCat at h
  split at h
  · exact Or.inl h
  · rcases List.mem_append.mp h with h1 | h1
    · exact Or.inl h1
    · exact Or.inr (List.mem_singleton.mp h1)

theorem attachCat_mem_eq (c : Catalog) (k : Nat) (h : k ∈ c.shopCats) :
    attachCat c k = c := by
  unfold attachCat
  rw [if_pos h]

theorem getOrCreateCat_found (c : Catalog) (n : String) (k : Nat)
    (h : resolveCat c n = some k) : getOrCreateCat c n = (k, c) := by
  unfold resolveCat at h
  unfold getOrCreateCat
  cases hf : c.cats.find? (fun x => x.name == n) with
  | none => rw [hf] at h; simp at h
  | some x =>
    rw [hf] at h
    have hxk : x.id = k := by simpa using h
    dsimp only
    rw [hxk]

theorem catFold_entry_resolves (es : List CatEntry) :
    ∀ (s : CatPhase) (ce : CatEntry), ce ∈ es → ∀ n, truthyName ce.name = some n →
      ∃ k, resolveCat (es.foldl catStep s).cat n = some k := by
  induction es with
  | nil => intro s ce hm; exact absurd hm (List.not_mem_nil ce)
  | cons ce0 rest ih =>
    intro s ce hm n hn
    rcases List.mem_cons.mp hm with heq | hm'
    · subst heq
      exact ⟨(getOrCreateCat s.cat n).1,
        catFold_resolve_stable rest (catStep s ce) n _ (catStep_resolves s ce n hn)⟩
    · exact ih (catStep s ce0) ce hm' n hn

theorem catStep_shopCats_char (s : CatPhase) (ce : CatEntry) (k : Nat)
    (h : k ∈ (catStep s ce).cat.shopCats) :
    k ∈ s.cat.shopCats ∨ ∃ n, truthyName ce.name = some n ∧
      resolveCat (catStep s ce).cat n = some k := by
  cases hn : truthyName ce.name with
  | none =>
    left
    unfold catStep at h
    rw [hn] at h
    exact h
  | some n =>
    have h2 : k ∈ (attachCat (getOrCreateCat s.cat n).2 (getOrCreateCat s.cat n).1).shopCats := by
      unfold catStep at h
      rw [hn] at h
      revert h
      cases truthyId ce.id <;> (intro h; exact h)
    rcases attachCat_mem_inv _ _ _ h2 with h3 | h3
    · rw [getOrCreateCat_shopCats] at h3
      exact Or.inl h3
    · exact Or.inr ⟨n, rfl, by rw [h3]; exact catStep_resolves s ce n hn⟩

theorem catFold_shopCats_char (es : List CatEntry) :
    ∀ (s : CatPhase) (k : Nat), k ∈ (es.foldl catStep s).cat.shopCats →
      k ∈ s.cat.shopCats ∨ ∃ ce ∈ es, ∃ n, truthyName ce.name = some n ∧
        resolveCat (es.foldl catStep s).cat n = some k := by
  induction es with
  | nil => intro s k h; exact Or.inl h
  | cons ce rest ih =>
    intro s k h
    rcases ih (catStep s ce) k h with h1 | ⟨ce', hm, n, hn, hres⟩
    · rcases catStep_shopCats_char s ce k h1 with h2 | ⟨n, hn, hres⟩
      · exact Or.inl h2
      · exact Or.inr ⟨ce, List.mem_cons_self ce rest, n, hn,
          catFold_resolve_stable rest (catStep s ce) n k hres⟩
    · exact Or.inr ⟨ce', List.mem_cons_of_mem ce hm, n, hn, hres⟩

theorem catFold_cat_identity (es : List CatEntry) :
    ∀ (R : Catalog) (m0 : List (Nat × Nat)) (ni0 : List Nat),
      (∀ ce ∈ es, ∀ n, truthyName ce.name = some n →
        ∃ k, resolveCat R n = some k ∧ k ∈ R.shopCats) →
      (es.foldl catStep ⟨R, m0, ni0⟩).cat = R := by
  induction es with
  | nil => intro R m0 ni0 _; rfl
  | cons ce rest ih =>
    intro R m0 ni0 hyp
    have hstep : ∃ m1 ni1, catStep ⟨R, m0, ni0⟩ ce = ⟨R, m1, ni1⟩ := by
      unfold catStep
      cases hn : truthyName ce.name with
      | none => exact ⟨m0, ni0, rfl⟩
      | some n =>
        obtain ⟨k, hres, hmem⟩ := hyp ce (List.mem_cons_self ce rest) n hn
        dsimp only
        rw [getOrCreateCat_found R n k hres]
        dsimp only
        rw [attachCat_mem_eq R k hmem]
        cases truthyId ce.id with
        | some y => exact ⟨_, _, rfl⟩
        | none => exact ⟨m0, ni0, rfl⟩
    obtain ⟨m1, ni1, hstep⟩ := hstep
    show (rest.foldl catStep (catStep ⟨R, m0, ni0⟩ ce)).cat = R
    rw [hstep]
    exact ih R m1 ni1 (fun ce' hm => hyp ce' (List.mem_cons_of_mem ce hm))

/-- The `categories_map` recomputed from the final category table. -/
def pureCm (R : Catalog) : List CatEntry → List (Nat × Nat) → List (Nat × Nat)
  | [], m0 => m0
  | ce :: rest, m0 =>
    pureCm R rest
      (match truthyName ce.name with
       | none => m0
       | some n =>
         match truthyId ce.id with
         | some y => (y, (resolveCat R n).getD 0) :: m0
         | none => m0)

theorem catStep_cmap (s : CatPhase) (ce : CatEntry) :
    (catStep s ce).cmap =
      match truthyName ce.name with
      | none => s.cmap
      | some n =>
        match truthyId ce.id with
        | some y => (y, (getOrCreateCat s.cat n).1) :: s.cmap
        | none => s.cmap := by
  unfold catStep
  cases truthyName ce.name with
  | none => rfl
  | some n => cases truthyId ce.id <;> rfl

theorem catFold_cmap_pure (es : List CatEntry) :
    ∀ (s : CatPhase),
      (es.foldl catStep s).cmap = pureCm (es.foldl catStep s).cat es s.cmap := by
  induction es with
  | nil => intro s; rfl
  | cons ce rest ih =>
    intro s
    show (rest.foldl catStep (catStep s ce)).cmap =
      pureCm (rest.foldl catStep (catStep s ce)).cat (ce :: rest) s.cmap
    rw [ih (catStep s ce)]
    simp only [pureCm]
    rw [catStep_cmap]
    cases hn : truthyName ce.name with
    | none => rfl
    | some n =>
      cases hy : truthyId ce.id with
      | none => rfl
      | some y =>
        dsimp only
        have hres : resolveCat (rest.foldl catStep (catStep s ce)).cat n =
            some (getOrCreateCat s.cat n).1 :=
          catFold_resolve_stable rest (catStep s ce) n _ (catStep_resolves s ce n hn)
        rw [hres]
        rfl

theorem pureCm_congr (R R' : Catalog) (h : R.cats = R'.cats) :
    ∀ (es : List CatEntry) (m0 : List (Nat × Nat)),
      pureCm R es m0 = pureCm R' es m0 := by
  intro es
  induction es with
  | nil => intro m0; rfl
  | cons ce rest ih =>
    intro m0
    simp only [pureCm]
    cases hn : truthyName ce.name with
    | none => exact ih _
    | some n =>
      cases hy : truthyId ce.id with
      | none => exact ih _
      | some y =>
        dsimp only
        rw [resolveCat_congr R R' h n]
        exact ih _

/-- The catalog state after the shop-name update, the categories loop and
the reconciliation filter (`update_price` before the goods guard). -/
def catResult (doc : PriceDoc) (c : Catalog) : Catalog :=
  { (catPhaseOf doc c).cat with shopCats := ((catPhaseOf doc c).cat.shopCats.filter
      (fun k => !((shopNameUpd doc c).shopCats.contains k &&
        !((catPhaseOf doc c).newIds.contains k)))) }

theorem updatePriceCore_state (doc : PriceDoc) (c : Catalog) :
    (updatePriceCore doc c).2 =
      if doc.goods.isEmpty then catResult doc c
      else processGoods (catPhaseOf doc c).cmap (catResult doc c) doc.goods := by
  unfold updatePriceCore catResult catPhaseOf
  dsimp only
  by_cases hg : doc.goods.isEmpty = true
  · rw [if_pos hg, if_pos hg]
  · rw [if_neg hg, if_neg hg]

theorem catPhase_rerun (doc : PriceDoc) (c : Catalog)
    (H1 : ∀ ce ∈ doc.categories, ∀ n, truthyName ce.name = some n →
      ∃ y, truthyId ce.id = some y)
    (R : Catalog) (hcf : catFields R = catFields (catResult doc c)) :
    catResult doc R = R ∧ (catPhaseOf doc R).cmap = (catPhaseOf doc c).cmap := by
  simp only [catFields, Prod.mk.injEq] at hcf
  obtain ⟨hsn, hsc, hcats, hncat⟩ := hcf
  set c0 : Catalog := shopNameUpd doc c with hc0
  set ph : CatPhase := catPhaseOf doc c with hph
  have hc1sc : (catResult doc c).shopCats = ph.cat.shopCats.filter
      (fun k => !(c0.shopCats.contains k && !(ph.newIds.contains k))) := rfl
  have hc1cats : (catResult doc c).cats = ph.cat.cats := rfl
  have hc1sn : (catResult doc c).shopName = ph.cat.shopName := rfl
  have hphsn : ph.cat.shopName = c0.shopName :=
    catFold_shopName doc.categories ⟨c0, [], []⟩
  have hRcats : R.cats = ph.cat.cats := hcats.trans hc1cats
  have hkey : ∀ ce ∈ doc.categories, ∀ n, truthyName ce.name = some n →
      ∃ k, resolveCat ph.cat n = some k ∧ k ∈ (catResult doc c).shopCats ∧
        k ∈ ph.newIds := by
    intro ce hm n hn
    obtain ⟨k, hres⟩ := catFold_entry_resolves doc.categories ⟨c0, [], []⟩ ce hm n hn
    obtain ⟨y, hy⟩ := H1 ce hm n hn
    have hni : k ∈ ph.newIds :=
      (catFold_mem_newIds doc.categories ⟨c0, [], []⟩ k).mpr
        (Or.inr ⟨ce, hm, n, y, hn, hy, hres⟩)
    have hsc1 : k ∈ ph.cat.shopCats :=
      catFold_newIds_subset doc.categories ⟨c0, [], []⟩
        (fun x hx => absurd hx (List.not_mem_nil x)) k hni
    refine ⟨k, hres, ?_, hni⟩
    rw [hc1sc]
    refine List.mem_filter.mpr ⟨hsc1, ?_⟩
    have hcont : ph.newIds.contains k = true := List.elem_eq_true_of_mem hni
    rw [hcont]
    simp
  have hident : ∀ ce ∈ doc.categories, ∀ n, truthyName ce.name = some n →
      ∃ k, resolveCat R n = some k ∧ k ∈ R.shopCats := by
    intro ce hm n hn
    obtain ⟨k, hres, hmem, _⟩ := hkey ce hm n hn
    refine ⟨k, ?_, ?_⟩
    · rw [resolveCat_congr R ph.cat hRcats]
      exact hres
    · rw [hsc]
      exact hmem
  have hg1 : shopNameUpd doc R = R := by
    unfold shopNameUpd
    cases ht : truthyName doc.shop with
    | none => rfl
    | some s =>
      refine catalog_eta_shopName R s ?_
      rw [hsn, hc1sn, hphsn, hc0]
      unfold shopNameUpd
      rw [ht]
  have hg2 : (doc.categories.foldl catStep ⟨R, [], []⟩).cat = R :=
    catFold_cat_identity doc.categories R [] [] hident
  have hphR : catPhaseOf doc R = doc.categories.foldl catStep ⟨R, [], []⟩ := by
    unfold catPhaseOf
    rw [hg1]
  have hni2 : ∀ k ∈ R.shopCats,
      k ∈ (doc.categories.foldl catStep ⟨R, [], []⟩).newIds := by
    intro k hk
    rw [hsc, hc1sc] at hk
    obtain ⟨hk1, hk2⟩ := List.mem_filter.mp hk
    have hwit : ∃ ce ∈ doc.categories, ∃ n, truthyName ce.name = some n ∧
        resolveCat ph.cat n = some k := by
      by_cases hkni : k ∈ ph.newIds
      · rcases (catFold_mem_newIds doc.categories ⟨c0, [], []⟩ k).mp hkni with
          hk0 | ⟨ce, hm, n, y, hn, hy, hres⟩
        · exact absurd hk0 (List.not_mem_nil k)
        · exact ⟨ce, hm, n, hn, hres⟩
      · have hknc0 : k ∉ c0.shopCats := by
          intro hc0k
          have h1 : c0.shopCats.contains k = true := List.elem_eq_true_of_mem hc0k
          have h2 : ph.newIds.contains k = false := by
            cases hx : ph.newIds.contains k with
            | false => rfl
            | true => exact absurd (List.mem_of_elem_eq_true hx) hkni
          rw [h1, h2] at hk2
          simp at hk2
        rcases catFold_shopCats_char doc.categories ⟨c0, [], []⟩ k hk1 with
          h0 | ⟨ce, hm, n, hn, hres⟩
        · exact absurd h0 hknc0
        · exact ⟨ce, hm, n, hn, hres⟩
    obtain ⟨ce, hm, n, hn, hres⟩ := hwit
    obtain ⟨y, hy⟩ := H1 ce hm n hn
    refine (catFold_mem_newIds doc.categories ⟨R, [], []⟩ k).mpr
      (Or.inr ⟨ce, hm, n, y, hn, hy, ?_⟩)
    rw [hg2]
    rw [resolveCat_congr R ph.cat hRcats]
    exact hres
  constructor
  · unfold catResult
    rw [hphR, hg1, hg2]
    refine catalog_eta_shopCats R _ ?_
    symm
    rw [List.filter_eq_self]
    intro k hk
    have hni := hni2 k hk
    have h1 : (doc.categories.foldl catStep ⟨R, [], []⟩).newIds.contains k = true :=
      List.elem_eq_true_of_mem hni
    rw [h1]
    simp
  · have h1 : ph.cmap = pureCm ph.cat doc.categories [] :=
      catFold_cmap_pure doc.categories ⟨c0, [], []⟩
    have h2 : (doc.categories.foldl catStep ⟨R, [], []⟩).cmap =
        pureCm R doc.categories [] := by
      rw [catFold_cmap_pure doc.categories ⟨R, [], []⟩, hg2]
    rw [hphR, h2, h1]
    exact pureCm_congr R ph.cat hRcats doc.categories []

/-- C4 (amended): for a price-list document in which every category entry
bearing a truthy (nonempty) name also bears a truthy (nonzero) external
id, running `update_price` twice in a row with the identical document
leaves the catalog store in exactly the same state as running it once —
so listing quantities and prices are not doubled and no duplicate
products, listings or parameter values are created — and after the run
every listing written by the document carries the quantity, price,
recommended price, model and product of its last feed row (`Hpi`). -/
theorem import_idempotent (doc : PriceDoc) (c : Catalog)
    (H1 : ∀ ce ∈ doc.categories, ∀ n, truthyName ce.name = some n →
      ∃ y, truthyId ce.id = some y) :
    (updatePriceCore doc (updatePriceCore doc c).2).2 = (updatePriceCore doc c).2 ∧
    Hpi (catPhaseOf doc c).cmap doc.goods (updatePriceCore doc c).2 := by
  by_cases hg : doc.goods.isEmpty = true
  · have hgnil : doc.goods = [] := List.isEmpty_iff.mp hg
    have hR : (updatePriceCore doc c).2 = catResult doc c := by
      rw [updatePriceCore_state doc c, if_pos hg]
    constructor
    · rw [updatePriceCore_state doc (updatePriceCore doc c).2, if_pos hg, hR]
      exact (catPhase_rerun doc c H1 (catResult doc c) rfl).1
    · rw [hgnil]
      intro e g hlast
      simp [lastPiRow] at hlast
  · have hR : (updatePriceCore doc c).2 =
        processGoods (catPhaseOf doc c).cmap (catResult doc c) doc.goods := by
      rw [updatePriceCore_state doc c, if_neg hg]
    constructor
    · rw [updatePriceCore_state doc (updatePriceCore doc c).2, if_neg hg, hR]
      set m1 := (catPhaseOf doc c).cmap with hm1
      set c1 := catResult doc c with hc1
      set R : Catalog := processGoods m1 c1 doc.goods with hRdef
      have hcf : catFields R = catFields (catResult doc c) := by
        rw [hRdef]
        exact processGoods_catFields m1 doc.goods c1
      obtain ⟨hcr, hcm⟩ := catPhase_rerun doc c H1 R hcf
      rw [hcm, hcr]
      rw [hRdef]
      exact processGoods_idem m1 c1 doc.goods
    · rw [hR]
      exact processGoods_lastPi (catPhaseOf doc c).cmap (catResult doc c) doc.goods

/-- A one-category, one-row document whose category entry carries both a
name and an id. -/
def idemDoc : PriceDoc :=
  { shop := some "shop1",
    categories := [⟨some 1, some "cat1"⟩],
    goods := [⟨some 10, some "item", some 1, some 3, some 5, none, none,
      [("color", some "red")]⟩] }

theorem import_idempotent_witness :
    (∀ ce ∈ idemDoc.categories, ∀ n, truthyName ce.name = some n →
      ∃ y, truthyId ce.id = some y) ∧
    ((updatePriceCore idemDoc (updatePriceCore idemDoc emptyCatalog).2).2 =
      (updatePriceCore idemDoc emptyCatalog).2 ∧
    Hpi (catPhaseOf idemDoc emptyCatalog).cmap idemDoc.goods
      (updatePriceCore idemDoc emptyCatalog).2) := by
  have hH1 : ∀ ce ∈ idemDoc.categories, ∀ n, truthyName ce.name = some n →
      ∃ y, truthyId ce.id = some y := by
    intro ce hm n hn
    have hce : ce = ⟨some 1, some "cat1"⟩ := List.mem_singleton.mp hm
    subst hce
    exact ⟨1, rfl⟩
  exact ⟨hH1, import_idempotent idemDoc emptyCatalog hH1⟩

end Retail
